import Mathlib

/-!
# fdsdump aggregator (`src/tools/fdsdump/aggregator.cpp`)

A shallow embedding of the aggregation core of `fdsdump`: the key encoder
`build_key`, the value accumulator `aggregate_value` and the hash table
`Aggregator::process_record`.

Conventions of the embedding.

* A byte is a `Nat` (below 256 in every well-formed record); a buffer is a
  `List Nat`; a pointer into a buffer is a byte offset.
* An `AggregateRecord *` is the index of the record in the list of allocated
  records (`Aggregator.heap`); `nullptr` is `none`.
* Integers are stored in buffers in little-endian byte order (the host order
  of the platforms the tool is built for); record fields are big-endian.
* A function that can stop on an `assert`, read or write outside an object,
  throw `std::bad_alloc` or loop forever returns `Except Failure _`.
-/

set_option maxRecDepth 100000

namespace Fdsdump

/-! ## Failure modes -/

/-- Ways in which a call can end without returning normally. -/
inductive Failure where
  /-- `throw std::bad_alloc{}` in `process_record`. -/
  | bad_alloc
  /-- An `assert(...)` of the source does not hold. -/
  | assert_failed
  /-- A read or write outside the addressed object. -/
  | out_of_bounds
  /-- The chain walk of `process_record` never reaches a `break`. -/
  | no_termination
  deriving DecidableEq

/-! ## Declarations of the headers (`aggregator.hpp`, `view.hpp`, libfds, xxhash) -/

/-- The enumerators of `DataType` that the source names; `Other` stands for
every enumerator it does not name (the `default:` branches). -/
inductive DataType where
  | Unsigned8 | Unsigned16 | Unsigned32 | Unsigned64
  | Signed8 | Signed16 | Signed32 | Signed64
  | Other (tag : Nat)
  deriving DecidableEq

/-- The enumerators of `ViewFieldKind` that the source names; `Other` stands
for every enumerator it does not name (the `default:` branches). -/
inductive ViewFieldKind where
  | VerbatimKey | SourceIPAddressKey | DestinationIPAddressKey
  | SumAggregate | FlowCount
  | Other (tag : Nat)
  deriving DecidableEq

/-- The members of `ViewField` that the source reads. -/
structure ViewField where
  kind : ViewFieldKind
  pen : Nat
  id : Nat
  data_type : DataType
  deriving DecidableEq

/-- The members of `ViewDefinition` that the source reads. -/
structure ViewDefinition where
  key_fields : List ViewField
  value_fields : List ViewField
  keys_size : Nat
  values_size : Nat
  deriving DecidableEq

/-- A field found in a data record: `data` are the raw bytes, `size` is
`data.length`. -/
structure fds_drec_field where
  data : List Nat
  deriving DecidableEq

/-- One information element of a data record with its raw bytes. -/
structure drec_element where
  pen : Nat
  id : Nat
  data : List Nat
  deriving DecidableEq

/-- A data record: its information elements in record order. -/
structure fds_drec where
  elements : List drec_element
  deriving DecidableEq

/-- Modelled from the spec: the libfds lookup `fds_drec_find`, the capability
`find_field(namespace, code) -> optional(raw_bytes, byte_length)` of the
record decoder. `none` is `FDS_EOC`; the first occurrence is returned. -/
def fds_drec_find (drec : fds_drec) (pen id : Nat) : Option fds_drec_field :=
  match drec.elements.find? (fun e => e.pen == pen && e.id == id) with
  | some e => some ⟨e.data⟩
  | none => none

/-- The unsigned value of a big-endian byte string. -/
def be_value (data : List Nat) : Nat :=
  data.foldl (fun acc b => acc * 256 + b % 256) 0

/-- Modelled from the spec: the libfds decoder `fds_get_uint_be`, which reads
raw big-endian field bytes as an unsigned integer; `none` is a return code
other than `FDS_OK` (the field is empty or longer than 8 bytes). -/
def fds_get_uint_be (data : List Nat) : Option Nat :=
  if data.length = 0 ∨ 8 < data.length then none else some (be_value data)

/-- Modelled from the spec: the libfds decoder `fds_get_int_be`, which reads
raw big-endian field bytes as a sign-extended integer; `none` is a return
code other than `FDS_OK` (the field is empty or longer than 8 bytes). -/
def fds_get_int_be (data : List Nat) : Option Int :=
  if data.length = 0 ∨ 8 < data.length then none
  else if be_value data < 2 ^ (8 * data.length - 1) then some (be_value data : Int)
  else some ((be_value data : Int) - 2 ^ (8 * data.length))

namespace IPFIX

/-- Modelled from the spec: the private enterprise number of the IANA
registry (`information_elements.hpp`). -/
def iana : Nat := 0

/-- Modelled from the spec: IANA element `sourceIPv4Address`. -/
def sourceIPv4Address : Nat := 8

/-- Modelled from the spec: IANA element `destinationIPv4Address`. -/
def destinationIPv4Address : Nat := 12

/-- Modelled from the spec: IANA element `sourceIPv6Address`. -/
def sourceIPv6Address : Nat := 27

/-- Modelled from the spec: IANA element `destinationIPv6Address`. -/
def destinationIPv6Address : Nat := 28

/-- Modelled from the spec: IANA element `octetDeltaCount` (byte count). -/
def octetDeltaCount : Nat := 1

end IPFIX

/-- Modelled from the spec: the normalized IP address `IPAddress` of
`view.hpp`, a length tag and 16 address bytes. -/
structure IPAddress where
  length : Nat
  address : List Nat
  deriving DecidableEq

/-- Modelled from the spec: the bytes of an `IPAddress` object, the length
tag followed by the 16 address bytes. -/
def IPAddress.bytes (a : IPAddress) : List Nat :=
  a.length % 256 :: a.address

/-- Modelled from the spec: `sizeof(IPAddress)`, the fixed address-slot
width. -/
def sizeof_IPAddress : Nat := 17

/-- What the source takes from outside the repository and from
`aggregator.hpp`: the hash function of xxhash, the compile-time bucket count
and the size of the variable `keys_size`. -/
structure Externals where
  /-- `XXH3_64bits(data, len)` on the `len` bytes at `data`. -/
  XXH3_64bits : List Nat → Nat
  /-- `BUCKETS_COUNT`. -/
  BUCKETS_COUNT : Nat
  /-- `sizeof(m_view_def.keys_size)`. -/
  sizeof_keys_size : Nat

/-! ## Memory -/

/-- The `w` little-endian bytes of `v` (that is of `v % 2^(8w)`). -/
def le_bytes : Nat → Nat → List Nat
  | 0, _ => []
  | w + 1, v => v % 256 :: le_bytes w (v / 256)

/-- The unsigned value of a little-endian byte string. -/
def le_value : List Nat → Nat
  | [] => 0
  | b :: bs => b % 256 + 256 * le_value bs

/-- Write `bytes` at offset `off` of `buf`. -/
def mem_write (buf : List Nat) (off : Nat) (bytes : List Nat) : Except Failure (List Nat) :=
  if off + bytes.length ≤ buf.length then
    .ok (buf.take off ++ bytes ++ buf.drop (off + bytes.length))
  else .error .out_of_bounds

/-- Read `n` bytes at offset `off` of `buf`. -/
def mem_read (buf : List Nat) (off n : Nat) : Except Failure (List Nat) :=
  if off + n ≤ buf.length then .ok ((buf.drop off).take n)
  else .error .out_of_bounds

/-- The result of `std::memcmp(a, b, n) == 0`. -/
def memcmp_eq (a b : List Nat) (n : Nat) : Bool :=
  a.take n == b.take n

/-! ## `make_ipv4_address`, `make_ipv6_address`, `get_uint`, `get_int` -/

/-- `make_ipv4_address`: a zeroed `IPAddress` with length 4 and the first 4
bytes at `address` copied in. -/
def make_ipv4_address (address : List Nat) : Except Failure IPAddress :=
  match mem_read address 0 4 with
  | .ok b => .ok ⟨4, b ++ List.replicate 12 0⟩
  | .error e => .error e

/-- `make_ipv6_address`: a zeroed `IPAddress` with length 16 and the first 16
bytes at `address` copied in. -/
def make_ipv6_address (address : List Nat) : Except Failure IPAddress :=
  match mem_read address 0 16 with
  | .ok b => .ok ⟨16, b⟩
  | .error e => .error e

/-- `get_uint`: the field decoded by `fds_get_uint_be` into a `uint64_t`. -/
def get_uint (field : fds_drec_field) : Except Failure Nat :=
  match fds_get_uint_be field.data with
  | some tmp => .ok (tmp % 2 ^ 64)
  | none => .error .assert_failed

/-- `get_int`: the field decoded by `fds_get_int_be` into an `int64_t`. -/
def get_int (field : fds_drec_field) : Except Failure Int :=
  match fds_get_int_be field.data with
  | some tmp => .ok tmp
  | none => .error .assert_failed

/-- The bit pattern of a signed integer converted to a `w`-byte integer. -/
def int_bits (w : Nat) (v : Int) : Nat :=
  (v % (2 : Int) ^ (8 * w)).toNat

/-! ## `build_key` -/

/-- The width in bytes of the `ViewValue` member that `build_key` writes for
a verbatim key of the given type (`none` for the `default:` branch). -/
def verbatim_width : DataType → Option Nat
  | .Unsigned8 | .Signed8 => some 1
  | .Unsigned16 | .Signed16 => some 2
  | .Unsigned32 | .Signed32 => some 4
  | .Unsigned64 | .Signed64 => some 8
  | .Other _ => none

/-- The inner `switch (view_field.data_type)` of `build_key`: the bytes
assigned to the member of `*key_value`. -/
def verbatim_bytes (data_type : DataType) (drec_field : fds_drec_field) :
    Except Failure (List Nat) :=
  match data_type with
  | .Unsigned8 => (get_uint drec_field).map (le_bytes 1)
  | .Unsigned16 => (get_uint drec_field).map (le_bytes 2)
  | .Unsigned32 => (get_uint drec_field).map (le_bytes 4)
  | .Unsigned64 => (get_uint drec_field).map (le_bytes 8)
  | .Signed8 => (get_int drec_field).map (fun v => le_bytes 1 (int_bits 1 v))
  | .Signed16 => (get_int drec_field).map (fun v => le_bytes 2 (int_bits 2 v))
  | .Signed32 => (get_int drec_field).map (fun v => le_bytes 4 (int_bits 4 v))
  | .Signed64 => (get_int drec_field).map (fun v => le_bytes 8 (int_bits 8 v))
  | .Other _ => .error .assert_failed

/-- The address branches of `build_key`: the IPv4 element first, then the
IPv6 element; `none` is the `return 0` branch. -/
def address_key (drec : fds_drec) (ipv4 ipv6 : Nat) : Except Failure (Option IPAddress) :=
  match fds_drec_find drec IPFIX.iana ipv4 with
  | some drec_field => (make_ipv4_address drec_field.data).map some
  | none =>
    match fds_drec_find drec IPFIX.iana ipv6 with
    | some drec_field => (make_ipv6_address drec_field.data).map some
    | none => .ok none

/-- One iteration of the loop of `build_key` with the cursor `key_value` as
an offset into `key_buffer`: `none` is `return 0`, otherwise the buffer and
the cursor after the iteration. -/
def build_key_field (view_field : ViewField) (drec : fds_drec) (key_buffer : List Nat)
    (key_value : Nat) : Except Failure (Option (List Nat × Nat)) :=
  match view_field.kind with
  | .VerbatimKey =>
    match fds_drec_find drec view_field.pen view_field.id with
    | none => .ok none
    | some drec_field =>
      match verbatim_bytes view_field.data_type drec_field with
      | .error e => .error e
      | .ok bytes =>
        match mem_write key_buffer key_value bytes with
        | .error e => .error e
        | .ok key_buffer' => .ok (some (key_buffer', key_value + bytes.length))
  | .SourceIPAddressKey =>
    match address_key drec IPFIX.sourceIPv4Address IPFIX.sourceIPv6Address with
    | .error e => .error e
    | .ok none => .ok none
    | .ok (some ip) =>
      match mem_write key_buffer key_value ip.bytes with
      | .error e => .error e
      | .ok key_buffer' => .ok (some (key_buffer', key_value + sizeof_IPAddress))
  | .DestinationIPAddressKey =>
    match address_key drec IPFIX.destinationIPv4Address IPFIX.destinationIPv6Address with
    | .error e => .error e
    | .ok none => .ok none
    | .ok (some ip) =>
      match mem_write key_buffer key_value ip.bytes with
      | .error e => .error e
      | .ok key_buffer' => .ok (some (key_buffer', key_value + sizeof_IPAddress))
  | _ => .error .assert_failed

/-- The result of `build_key`: the return code, the key buffer and the cursor
at the return. -/
structure KeyResult where
  rc : Nat
  key_buffer : List Nat
  key_value : Nat
  deriving DecidableEq

/-- The loop of `build_key` over the key fields still to be packed. -/
def build_key_loop : List ViewField → fds_drec → List Nat → Nat → Except Failure KeyResult
  | [], _, key_buffer, key_value => .ok ⟨1, key_buffer, key_value⟩
  | view_field :: rest, drec, key_buffer, key_value =>
    match build_key_field view_field drec key_buffer key_value with
    | .error e => .error e
    | .ok none => .ok ⟨0, key_buffer, key_value⟩
    | .ok (some (key_buffer', key_value')) => build_key_loop rest drec key_buffer' key_value'

/-- `build_key`. -/
def build_key (view_def : ViewDefinition) (drec : fds_drec) (key_buffer : List Nat) :
    Except Failure KeyResult :=
  build_key_loop view_def.key_fields drec key_buffer 0

/-! ## `aggregate_value` -/

/-- The statement `value->u64 += x` (for `x = 1` the statement
`value->u64++`) on the 8 bytes at offset `value` of `data`, followed by
`advance_value_ptr(value, sizeof(value->u64))`. The same bytes result from
`value->i64 += x` when `x` is given by its 64-bit pattern (two's
complement, wrapping). -/
def add_u64 (data : List Nat) (value : Nat) (x : Nat) : Except Failure (List Nat × Nat) :=
  match mem_read data value 8 with
  | .error e => .error e
  | .ok old =>
    match mem_write data value (le_bytes 8 ((le_value old + x) % 2 ^ 64)) with
    | .error e => .error e
    | .ok data' => .ok (data', value + 8)

/-- `aggregate_value` with the cursor `value` as an offset into the bytes
`data` of the entry: the bytes and the cursor at the return. -/
def aggregate_value (aggregate_field : ViewField) (drec : fds_drec) (data : List Nat)
    (value : Nat) : Except Failure (List Nat × Nat) :=
  match aggregate_field.kind with
  | .SumAggregate =>
    match fds_drec_find drec aggregate_field.pen aggregate_field.id with
    | none => .ok (data, value)
    | some drec_field =>
      match aggregate_field.data_type with
      | .Unsigned64 =>
        match get_uint drec_field with
        | .error e => .error e
        | .ok x => add_u64 data value x
      | .Signed64 =>
        match get_int drec_field with
        | .error e => .error e
        | .ok x => add_u64 data value (int_bits 8 x)
      | _ => .error .assert_failed
  | .FlowCount => add_u64 data value 1
  | _ => .error .assert_failed

/-- The loop `for (aggregate_field : m_view_def.value_fields)` of
`process_record`, sharing one cursor. -/
def aggregate_values : List ViewField → fds_drec → List Nat → Nat →
    Except Failure (List Nat × Nat)
  | [], _, data, value => .ok (data, value)
  | aggregate_field :: rest, drec, data, value =>
    match aggregate_value aggregate_field drec data value with
    | .error e => .error e
    | .ok (data', value') => aggregate_values rest drec data' value'

/-! ## `Aggregator` -/

/-- `AggregateRecord`: the chain link, the hash and the flexible array
`data` of `keys_size + values_size` bytes. -/
structure AggregateRecord where
  next : Option Nat
  hash : Nat
  data : List Nat
  deriving DecidableEq

/-- The members of `Aggregator` together with the records it has allocated;
the address of a record is its index in `heap`. -/
structure Aggregator where
  m_view_def : ViewDefinition
  m_buckets : List (Option Nat)
  m_records : List Nat
  heap : List AggregateRecord
  deriving DecidableEq

/-- `Aggregator::Aggregator`: every bucket is `nullptr`, no record exists. -/
def Aggregator.init (X : Externals) (view_def : ViewDefinition) : Aggregator :=
  ⟨view_def, List.replicate X.BUCKETS_COUNT none, [], []⟩

/-- What an `AggregateRecord **` points to: an element of `m_buckets` or the
member `next` of a record. -/
inductive Slot where
  | bucket (i : Nat)
  | next (p : Nat)
  deriving DecidableEq

/-- The value `*arec`. -/
def Aggregator.load (s : Aggregator) : Slot → Except Failure (Option Nat)
  | .bucket i =>
    match s.m_buckets[i]? with
    | some v => .ok v
    | none => .error .out_of_bounds
  | .next p =>
    match s.heap[p]? with
    | some r => .ok r.next
    | none => .error .out_of_bounds

/-- The assignment `*arec = q`. -/
def Aggregator.store (s : Aggregator) (q : Nat) : Slot → Aggregator
  | .bucket i => { s with m_buckets := s.m_buckets.set i (some q) }
  | .next p =>
    match s.heap[p]? with
    | some r => { s with heap := s.heap.set p { r with next := some q } }
    | none => s

/-- `key_buffer_size`. -/
def key_buffer_size : Nat := 1024

/-- The loop `for (;;)` of `process_record`: the slot `arec` points to at
the `break`. The number of iterations is bounded by `fuel`. -/
def find_slot (s : Aggregator) (hash : Nat) (key_buffer : List Nat) :
    Nat → Slot → Except Failure Slot
  | 0, _ => .error .no_termination
  | fuel + 1, arec =>
    match s.load arec with
    | .error e => .error e
    | .ok none => .ok arec
    | .ok (some p) =>
      match s.heap[p]? with
      | none => .error .out_of_bounds
      | some r =>
        if r.hash = hash ∧ memcmp_eq r.data key_buffer s.m_view_def.keys_size = true then
          .ok arec
        else find_slot s hash key_buffer fuel (.next p)

/-- Lines 205 to 208 of `process_record`: fold the value fields of the
record into the entry at address `p`. -/
def fold_entry (s : Aggregator) (p : Nat) (drec : fds_drec) : Except Failure Aggregator :=
  match s.heap[p]? with
  | none => .error .out_of_bounds
  | some r =>
    match aggregate_values s.m_view_def.value_fields drec r.data s.m_view_def.keys_size with
    | .error e => .error e
    | .ok (data', _) => .ok { s with heap := s.heap.set p { r with data := data' } }

/-- Lines 195 to 202 of `process_record` when `calloc` succeeds: a zeroed
record is allocated at the fresh address `s.heap.length`, stored into `*arec`,
given the hash, pushed to `m_records` and given the key bytes. -/
def link_entry (s : Aggregator) (arec : Slot) (hash : Nat) (key : List Nat) : Aggregator :=
  let tmp : AggregateRecord := ⟨none, hash, key ++ List.replicate s.m_view_def.values_size 0⟩
  let p := s.heap.length
  let s1 := { s with heap := s.heap ++ [tmp] }
  let s2 := s1.store p arec
  { s2 with m_records := s2.m_records ++ [p] }

/-- `Aggregator::process_record`. `key_buffer` is the content of the local
array `key_buffer` at entry (it is not initialised by the source) and
`calloc_ok` tells whether `calloc` returns a non-null pointer. -/
def process_record (X : Externals) (s : Aggregator) (drec : fds_drec)
    (key_buffer : List Nat) (calloc_ok : Bool) : Except Failure Aggregator :=
  if ¬ s.m_view_def.keys_size ≤ key_buffer_size then .error .assert_failed
  else
    match build_key s.m_view_def drec key_buffer with
    | .error e => .error e
    | .ok kr =>
      if kr.rc = 0 then .ok s
      else
        let hash := X.XXH3_64bits (kr.key_buffer.take X.sizeof_keys_size)
        let bucket_index := hash % X.BUCKETS_COUNT
        match find_slot s hash kr.key_buffer (s.heap.length + 1) (.bucket bucket_index) with
        | .error e => .error e
        | .ok arec =>
          match s.load arec with
          | .error e => .error e
          | .ok (some p) => fold_entry s p drec
          | .ok none =>
            if calloc_ok = false then .error .bad_alloc
            else
              match mem_read kr.key_buffer 0 s.m_view_def.keys_size with
              | .error e => .error e
              | .ok key => fold_entry (link_entry s arec hash key) s.heap.length drec

/-- The caller's loop: `process_record` on each record of a sequence, each
call with its own content of the stack array and a successful `calloc`. -/
def process_all (X : Externals) : Aggregator → List (fds_drec × List Nat) →
    Except Failure Aggregator
  | s, [] => .ok s
  | s, (drec, key_buffer) :: rest =>
    match process_record X s drec key_buffer true with
    | .error e => .error e
    | .ok s' => process_all X s' rest

/-- The entries of the table in the order of `m_records`: the hash and the
data bytes of each. -/
def Aggregator.entries (s : Aggregator) : List (Nat × List Nat) :=
  s.m_records.filterMap fun p => (s.heap[p]?).map fun r => (r.hash, r.data)

/-! ## The table as a list of entries

`process_record` seen on `Aggregator.entries` alone; the lemmas below show
that the pointer structure computes exactly these functions. -/

/-- The index of the first entry that passes the test of line 187. -/
def table_find (keys_size : Nat) (t : List (Nat × List Nat)) (hash : Nat)
    (key_buffer : List Nat) : Option Nat :=
  (List.range t.length).find? fun p =>
    match t[p]? with
    | some e => decide (e.1 = hash ∧ memcmp_eq e.2 key_buffer keys_size = true)
    | none => false

/-- The value fold of lines 205 to 208 on entry `p`. -/
def table_fold (view_def : ViewDefinition) (drec : fds_drec) (t : List (Nat × List Nat))
    (p : Nat) : Except Failure (List (Nat × List Nat)) :=
  match t[p]? with
  | none => .error .out_of_bounds
  | some e =>
    match aggregate_values view_def.value_fields drec e.2 view_def.keys_size with
    | .error err => .error err
    | .ok (data', _) => .ok (t.set p (e.1, data'))

/-- Lines 178 to 208 on the list of entries. -/
def table_step (view_def : ViewDefinition) (t : List (Nat × List Nat)) (hash : Nat)
    (key_buffer : List Nat) (drec : fds_drec) : Except Failure (List (Nat × List Nat)) :=
  match table_find view_def.keys_size t hash key_buffer with
  | some p => table_fold view_def drec t p
  | none =>
    match mem_read key_buffer 0 view_def.keys_size with
    | .error e => .error e
    | .ok key =>
      table_fold view_def drec
        (t ++ [(hash, key ++ List.replicate view_def.values_size 0)]) t.length

/-- `process_record` (with a successful `calloc`) on the list of entries. -/
def table_process (X : Externals) (view_def : ViewDefinition) (t : List (Nat × List Nat))
    (drec : fds_drec) (key_buffer : List Nat) : Except Failure (List (Nat × List Nat)) :=
  if ¬ view_def.keys_size ≤ key_buffer_size then .error .assert_failed
  else
    match build_key view_def drec key_buffer with
    | .error e => .error e
    | .ok kr =>
      if kr.rc = 0 then .ok t
      else
        table_step view_def t (X.XXH3_64bits (kr.key_buffer.take X.sizeof_keys_size))
          kr.key_buffer drec

/-- `process_all` on the list of entries. -/
def table_all (X : Externals) (view_def : ViewDefinition) :
    List (Nat × List Nat) → List (fds_drec × List Nat) → Except Failure (List (Nat × List Nat))
  | t, [] => .ok t
  | t, (drec, key_buffer) :: rest =>
    match table_process X view_def t drec key_buffer with
    | .error e => .error e
    | .ok t' => table_all X view_def t' rest

/-- The records visited by following the `next` links from the pointer `o`
(at most `fuel` of them). -/
def chain_from (heap : List AggregateRecord) : Nat → Option Nat → List Nat
  | 0, _ => []
  | _ + 1, none => []
  | fuel + 1, some p =>
    match heap[p]? with
    | none => []
    | some r => p :: chain_from heap fuel r.next

/-- The records reached by walking the chains of all buckets, bucket after
bucket. -/
def Aggregator.chained (s : Aggregator) : List Nat :=
  s.m_buckets.flatMap (chain_from s.heap s.heap.length)

/-- The chain of bucket `i`: the addresses visited from `m_buckets[i]` along
the `next` links, in the order of the walk of lines 182 to 192. -/
def Aggregator.chain (s : Aggregator) (i : Nat) : List Nat :=
  match s.m_buckets[i]? with
  | some o => chain_from s.heap s.heap.length o
  | none => []

/-- The data bytes of the entries in the order of `m_records` (`none` for a
pointer that is not the address of a record). -/
def Aggregator.records_data (s : Aggregator) : List (Option (List Nat)) :=
  s.m_records.map fun p => (s.heap[p]?).map fun r => r.data

/-- The accumulator of the `i`-th value field in the data bytes of an entry,
read as `uint64_t` at its fixed offset `keys_size + 8 * i`. -/
def value_slot (view_def : ViewDefinition) (data : List Nat) (i : Nat) : Nat :=
  le_value ((data.drop (view_def.keys_size + 8 * i)).take 8)

/-! ## Conditions on key fields -/

/-- The key field is one that `build_key` supports: a verbatim key of one of
the eight integer types or an address key. -/
def key_field_supported (f : ViewField) : Bool :=
  match f.kind with
  | .VerbatimKey => (verbatim_width f.data_type).isSome
  | .SourceIPAddressKey => true
  | .DestinationIPAddressKey => true
  | _ => false

/-- The key field is resolvable in the record: the element of a verbatim key
is found, or the IPv4 or the IPv6 element of an address key is found. -/
def key_field_resolvable (f : ViewField) (drec : fds_drec) : Bool :=
  match f.kind with
  | .VerbatimKey => (fds_drec_find drec f.pen f.id).isSome
  | .SourceIPAddressKey =>
    (fds_drec_find drec IPFIX.iana IPFIX.sourceIPv4Address).isSome ||
      (fds_drec_find drec IPFIX.iana IPFIX.sourceIPv6Address).isSome
  | .DestinationIPAddressKey =>
    (fds_drec_find drec IPFIX.iana IPFIX.destinationIPv4Address).isSome ||
      (fds_drec_find drec IPFIX.iana IPFIX.destinationIPv6Address).isSome
  | _ => true

/-- The address element that `build_key` copies from has the bytes that are
copied: 4 for the IPv4 element, else 16 for the IPv6 element. -/
def address_readable (drec : fds_drec) (ipv4 ipv6 : Nat) : Bool :=
  match fds_drec_find drec IPFIX.iana ipv4 with
  | some drec_field => decide (4 ≤ drec_field.data.length)
  | none =>
    match fds_drec_find drec IPFIX.iana ipv6 with
    | some drec_field => decide (16 ≤ drec_field.data.length)
    | none => true

/-- The element that `build_key` reads for the key field, if it is present,
has a size the code can read: 1 to 8 bytes for a verbatim key (the sizes
`fds_get_uint_be` and `fds_get_int_be` accept), at least the copied 4 or 16
bytes for an address key. -/
def key_field_readable (f : ViewField) (drec : fds_drec) : Bool :=
  match f.kind with
  | .VerbatimKey =>
    match fds_drec_find drec f.pen f.id with
    | some drec_field => decide (1 ≤ drec_field.data.length ∧ drec_field.data.length ≤ 8)
    | none => true
  | .SourceIPAddressKey => address_readable drec IPFIX.sourceIPv4Address IPFIX.sourceIPv6Address
  | .DestinationIPAddressKey =>
    address_readable drec IPFIX.destinationIPv4Address IPFIX.destinationIPv6Address
  | _ => true

/-- The width of the slot of a key field in the key buffer. -/
def key_field_width (f : ViewField) : Nat :=
  match f.kind with
  | .VerbatimKey => (verbatim_width f.data_type).getD 0
  | .SourceIPAddressKey => sizeof_IPAddress
  | .DestinationIPAddressKey => sizeof_IPAddress
  | _ => 0

/-- The sum of the slot widths of the key fields. -/
def keys_width (fs : List ViewField) : Nat :=
  (fs.map key_field_width).sum

/-! ## Conditions on value fields -/

/-- The value field is one that `aggregate_value` supports: a sum of type
`Unsigned64` or `Signed64`, or a flow count. -/
def value_field_supported (f : ViewField) : Bool :=
  match f.kind with
  | .SumAggregate =>
    match f.data_type with
    | .Unsigned64 => true
    | .Signed64 => true
    | _ => false
  | .FlowCount => true
  | _ => false

/-- The element that `aggregate_value` reads for the value field, if it is
present, has 1 to 8 bytes (the sizes `fds_get_uint_be` and `fds_get_int_be`
accept). -/
def value_field_readable (f : ViewField) (drec : fds_drec) : Bool :=
  match f.kind with
  | .SumAggregate =>
    match fds_drec_find drec f.pen f.id with
    | some drec_field => decide (1 ≤ drec_field.data.length ∧ drec_field.data.length ≤ 8)
    | none => true
  | _ => true

/-- The bytes that the value fold starts from for entry `p` of the list of
entries: the data of the entry, or for a new entry the key followed by
`values_size` zero bytes. -/
def fold_start (view_def : ViewDefinition) (t : List (Nat × List Nat)) (p : Nat)
    (key : List Nat) : List Nat :=
  match t[p]? with
  | some e => e.2
  | none => key ++ List.replicate view_def.values_size 0

/-! ## Chains, the table invariant and the lookup on the heap -/

/-- `Chain heap o l`: following the `next` links from the pointer `o` visits
exactly the records `l`, in this order, and then reaches `nullptr`. -/
inductive Chain (heap : List AggregateRecord) : Option Nat → List Nat → Prop where
  | nil : Chain heap none []
  | cons {p : Nat} {r : AggregateRecord} {l : List Nat} :
      heap[p]? = some r → Chain heap r.next l → Chain heap (some p) (p :: l)

/-- The test of line 187 on a record. -/
def entry_matches (keys_size hash : Nat) (key_buffer : List Nat) (r : AggregateRecord) : Bool :=
  decide (r.hash = hash ∧ memcmp_eq r.data key_buffer keys_size = true)

/-- The test of line 187 on the record at address `p`. -/
def matches_at (heap : List AggregateRecord) (keys_size hash : Nat) (key_buffer : List Nat)
    (p : Nat) : Bool :=
  match heap[p]? with
  | some r => entry_matches keys_size hash key_buffer r
  | none => false

/-- The slot that holds the terminating `nullptr` of the chain `l` that
starts in `slot`. -/
def last_slot (slot : Slot) : List Nat → Slot
  | [] => slot
  | p :: l => last_slot (.next p) l

/-- The addresses of the records whose hash selects bucket `i`, in
allocation order. -/
def bucket_members (B : Nat) (heap : List AggregateRecord) (i : Nat) : List Nat :=
  (List.range heap.length).filter fun p =>
    match heap[p]? with
    | some r => decide (r.hash % B = i)
    | none => false

/-- The invariant of the table: `m_records` lists every allocated record in
allocation order, the chain of bucket `i` consists of the records whose hash
selects `i`, in allocation order, and every record has `keys_size +
values_size` bytes of data. -/
structure WF (X : Externals) (s : Aggregator) : Prop where
  buckets_pos : 0 < X.BUCKETS_COUNT
  buckets_len : s.m_buckets.length = X.BUCKETS_COUNT
  records : s.m_records = List.range s.heap.length
  chains : ∀ i, i < X.BUCKETS_COUNT →
    ∃ o, s.m_buckets[i]? = some o ∧ Chain s.heap o (bucket_members X.BUCKETS_COUNT s.heap i)
  data_len : ∀ r ∈ s.heap, r.data.length = s.m_view_def.keys_size + s.m_view_def.values_size

/-- The first allocated record that passes the test of line 187. -/
def lookup (s : Aggregator) (hash : Nat) (key_buffer : List Nat) : Option Nat :=
  (List.range s.heap.length).find? (matches_at s.heap s.m_view_def.keys_size hash key_buffer)

/-- The slot behind the last record of the chain of the bucket that `hash`
selects. -/
def tail_slot (X : Externals) (s : Aggregator) (hash : Nat) : Slot :=
  last_slot (.bucket (hash % X.BUCKETS_COUNT))
    (bucket_members X.BUCKETS_COUNT s.heap (hash % X.BUCKETS_COUNT))

/-- The cursor at the entry of each call of `aggregate_value` in the loop of
lines 206 to 208, call after call, up to the first call that stops. -/
def aggregate_cursors : List ViewField → fds_drec → List Nat → Nat → List Nat
  | [], _, _, _ => []
  | aggregate_field :: rest, drec, data, value =>
    value ::
      match aggregate_value aggregate_field drec data value with
      | .error _ => []
      | .ok (data', value') => aggregate_cursors rest drec data' value'

/-! ## How a call ends -/

/-- How a call of `process_record` ends and, where the object outlives the
call, the members of the `Aggregator` at that point: the call returns, or it
throws an exception to the caller, or the program stops (a failed `assert`,
an access outside an object, a walk that never ends). -/
inductive Outcome where
  | returned (s : Aggregator)
  | thrown (e : Failure) (s : Aggregator)
  | stopped (e : Failure)

/-- The result of a call as `process_record` reports it. -/
def Outcome.result : Outcome → Except Failure Aggregator
  | .returned s => .ok s
  | .thrown e _ => .error e
  | .stopped e => .error e

/-- `Aggregator::process_record` statement by statement, with the members of
the object at the point where the call ends: up to the `throw` of line 197 no
member has been assigned, the first assignment is `*arec = ...` at line
199. -/
def process_record_outcome (X : Externals) (s : Aggregator) (drec : fds_drec)
    (key_buffer : List Nat) (calloc_ok : Bool) : Outcome :=
  if ¬ s.m_view_def.keys_size ≤ key_buffer_size then .stopped .assert_failed
  else
    match build_key s.m_view_def drec key_buffer with
    | .error e => .stopped e
    | .ok kr =>
      if kr.rc = 0 then .returned s
      else
        let hash := X.XXH3_64bits (kr.key_buffer.take X.sizeof_keys_size)
        let bucket_index := hash % X.BUCKETS_COUNT
        match find_slot s hash kr.key_buffer (s.heap.length + 1) (.bucket bucket_index) with
        | .error e => .stopped e
        | .ok arec =>
          match s.load arec with
          | .error e => .stopped e
          | .ok (some p) =>
            match fold_entry s p drec with
            | .error e => .stopped e
            | .ok s' => .returned s'
          | .ok none =>
            if calloc_ok = false then .thrown .bad_alloc s
            else
              match mem_read kr.key_buffer 0 s.m_view_def.keys_size with
              | .error e => .stopped e
              | .ok key =>
                match fold_entry (link_entry s arec hash key) s.heap.length drec with
                | .error e => .stopped e
                | .ok s' => .returned s'

/-! ## The encoding of a verbatim key, in the words of the specification -/

/-- Whether the declared type of a verbatim key is one of the signed types. -/
def signed_type : DataType → Bool
  | .Signed8 | .Signed16 | .Signed32 | .Signed64 => true
  | _ => false

/-- The specification's "big-endian decoded integer of the raw bytes": the
unsigned value of the bytes, or for a signed field their two's complement
value at the length of the field (the sign-extended value). -/
def spec_decoded (signed : Bool) (data : List Nat) : Int :=
  if signed = true ∧ 2 ^ (8 * data.length - 1) ≤ be_value data then
    (be_value data : Int) - 2 ^ (8 * data.length)
  else (be_value data : Int)

/-- The specification's "stored value": the integer that the bytes of a
`ViewValue` member denote when the member is read back, unsigned or as two's
complement at the width of the member. -/
def spec_member_value (signed : Bool) (bytes : List Nat) : Int :=
  if signed = true ∧ 2 ^ (8 * bytes.length - 1) ≤ le_value bytes then
    (le_value bytes : Int) - 2 ^ (8 * bytes.length)
  else (le_value bytes : Int)

/-! ## Sample inputs -/

namespace Sample

/-- Sample externals: a stand-in hash (the little-endian value of the hashed
bytes), 4 buckets and an 8-byte `keys_size`. -/
def externals : Externals := ⟨le_value, 4, 8⟩

/-- A view with one `Unsigned8` key (element 4, the protocol identifier), a
byte-count sum and a flow count. -/
def proto_view : ViewDefinition :=
  ⟨[⟨.VerbatimKey, 0, 4, .Unsigned8⟩],
    [⟨.SumAggregate, 0, IPFIX.octetDeltaCount, .Unsigned64⟩, ⟨.FlowCount, 0, 0, .Other 0⟩], 1, 16⟩

/-- A record with protocol 6 and a byte count of 5. -/
def tcp_record : fds_drec := ⟨[⟨0, 4, [6]⟩, ⟨0, 1, [0, 0, 0, 5]⟩]⟩

/-- A record with protocol 17 and a byte count of 9. -/
def udp_record : fds_drec := ⟨[⟨0, 4, [17]⟩, ⟨0, 1, [9]⟩]⟩

/-- A record without the protocol identifier. -/
def keyless_record : fds_drec := ⟨[⟨0, 1, [0, 0, 0, 5]⟩]⟩

/-- A record with protocol 50 and a byte count of 3. -/
def esp_record : fds_drec := ⟨[⟨0, 4, [50]⟩, ⟨0, 1, [3]⟩]⟩

/-- A view whose only key is the byte count as `Unsigned64`. -/
def bytes_key_view : ViewDefinition :=
  ⟨[⟨.VerbatimKey, 0, IPFIX.octetDeltaCount, .Unsigned64⟩], [⟨.FlowCount, 0, 0, .Other 0⟩], 8, 8⟩

/-- A record whose byte count element has 9 bytes. -/
def oversized_record : fds_drec := ⟨[⟨0, 1, [0, 0, 0, 0, 0, 0, 0, 0, 5]⟩]⟩

/-- A view with the protocol identifier and the destination address as keys
and a flow count. -/
def proto_dst_view : ViewDefinition :=
  ⟨[⟨.VerbatimKey, 0, 4, .Unsigned8⟩, ⟨.DestinationIPAddressKey, 0, 0, .Other 0⟩],
    [⟨.FlowCount, 0, 0, .Other 0⟩], 18, 8⟩

/-- The reference view: the destination address as key, the byte count as
`Unsigned64` sum and a flow count. -/
def dst_view : ViewDefinition :=
  ⟨[⟨.DestinationIPAddressKey, 0, 0, .Other 0⟩],
    [⟨.SumAggregate, IPFIX.iana, IPFIX.octetDeltaCount, .Unsigned64⟩,
      ⟨.FlowCount, 0, 0, .Other 0⟩], 17, 16⟩

/-- A record with an IPv4 destination address and a byte count. -/
def flow4 (a b c d : Nat) (bytes : List Nat) : fds_drec :=
  ⟨[⟨IPFIX.iana, IPFIX.destinationIPv4Address, [a, b, c, d]⟩,
    ⟨IPFIX.iana, IPFIX.octetDeltaCount, bytes⟩]⟩

/-- A record with the IPv6 destination address `2001:db8::x` and a byte
count. -/
def flow6 (x : Nat) (bytes : List Nat) : fds_drec :=
  ⟨[⟨IPFIX.iana, IPFIX.destinationIPv6Address,
      [32, 1, 13, 184, 0, 0, 0, 0, 0, 0, 0, 0, 0, 0, 0, x]⟩,
    ⟨IPFIX.iana, IPFIX.octetDeltaCount, bytes⟩]⟩

/-- The key buffer after `build_key` packed the address `2001:db8::x` into a
zeroed stack array. -/
def key6 (x : Nat) : List Nat :=
  [16, 32, 1, 13, 184, 0, 0, 0, 0, 0, 0, 0, 0, 0, 0, 0, x] ++ List.replicate 1007 0

/-- The table of `dst_view` after a record for `10.0.0.1` with 100 bytes. -/
def dst_one_entry : Aggregator :=
  ⟨dst_view, [some 0, none, none, none], [0],
    [⟨none, 4294969860,
      [4, 10, 0, 0, 1, 0, 0, 0, 0, 0, 0, 0, 0, 0, 0, 0, 0,
        100, 0, 0, 0, 0, 0, 0, 0, 1, 0, 0, 0, 0, 0, 0, 0]⟩]⟩

/-- The 17 bytes of the normalized IPv4 address `a.b.c.d`. -/
def ip4_key (a b c d : Nat) : List Nat :=
  IPAddress.bytes ⟨4, [a, b, c, d] ++ List.replicate 12 0⟩

/-- A view with the protocol identifier as key and a flow count. -/
def count_view : ViewDefinition :=
  ⟨[⟨.VerbatimKey, 0, 4, .Unsigned8⟩], [⟨.FlowCount, 0, 0, .Other 0⟩], 1, 8⟩

/-- A view with the protocol identifier as key, the sum of the packet count
(element 2) and the sum of the byte count (element 1). -/
def two_sums_view : ViewDefinition :=
  ⟨[⟨.VerbatimKey, 0, 4, .Unsigned8⟩],
    [⟨.SumAggregate, 0, 2, .Unsigned64⟩, ⟨.SumAggregate, 0, 1, .Unsigned64⟩], 1, 16⟩

/-- A record with protocol 50 and no other element. -/
def bare_record : fds_drec := ⟨[⟨0, 4, [50]⟩]⟩

/-- A record with the IPv4 destination `192.0.2.1` and the IPv6 destination
`2001:db8::1`, the IPv6 element first. -/
def dual_stack_record : fds_drec :=
  ⟨[⟨IPFIX.iana, IPFIX.destinationIPv6Address,
      [32, 1, 13, 184, 0, 0, 0, 0, 0, 0, 0, 0, 0, 0, 0, 1]⟩,
    ⟨IPFIX.iana, IPFIX.destinationIPv4Address, [192, 0, 2, 1]⟩]⟩

/-- A record with protocol 6 and the IPv4 destination `10.0.0.1`. -/
def proto_flow : fds_drec :=
  ⟨[⟨0, 4, [6]⟩, ⟨IPFIX.iana, IPFIX.destinationIPv4Address, [10, 0, 0, 1]⟩]⟩

/-- A verbatim key of declared type `Signed16`. -/
def signed_key : ViewField := ⟨.VerbatimKey, 0, 4, .Signed16⟩

/-- A record whose element 4 is the single byte `0xFE` (the integer -2). -/
def negative_record : fds_drec := ⟨[⟨0, 4, [254]⟩]⟩

/-- The key buffer after `build_key` for a record with protocol 50 and a
zeroed stack array. -/
def esp_key : KeyResult := ⟨1, [50] ++ List.replicate 1023 0, 1⟩

/-- A stack array filled with the byte `b`. -/
def stack (b : Nat) : List Nat := List.replicate 1024 b

/-- The table after `tcp_record` was processed once. -/
def one_entry : Aggregator :=
  ⟨proto_view, [none, none, some 0, none], [0],
    [⟨none, 6, [6, 5, 0, 0, 0, 0, 0, 0, 0, 1, 0, 0, 0, 0, 0, 0, 0]⟩]⟩

/-- The table after `tcp_record`, `udp_record`, `esp_record` and again
`tcp_record` were processed. -/
def three_entries : Aggregator :=
  ⟨proto_view, [none, some 1, some 0, none], [0, 1, 2],
    [⟨some 2, 6, [6, 10, 0, 0, 0, 0, 0, 0, 0, 2, 0, 0, 0, 0, 0, 0, 0]⟩,
      ⟨none, 17, [17, 9, 0, 0, 0, 0, 0, 0, 0, 1, 0, 0, 0, 0, 0, 0, 0]⟩,
      ⟨none, 50, [50, 3, 0, 0, 0, 0, 0, 0, 0, 1, 0, 0, 0, 0, 0, 0, 0]⟩]⟩

end Sample

/-! # Lemmas -/

/-! ## Memory lemmas -/

theorem mem_write_ok {buf bytes buf' : List Nat} {off : Nat}
    (h : mem_write buf off bytes = .ok buf') :
    off + bytes.length ≤ buf.length ∧
      buf' = buf.take off ++ bytes ++ buf.drop (off + bytes.length) := by
  unfold mem_write at h
  split at h
  · rename_i hle
    injection h with h
    exact ⟨hle, h.symm⟩
  · cases h

theorem mem_write_length {buf bytes buf' : List Nat} {off : Nat}
    (h : mem_write buf off bytes = .ok buf') : buf'.length = buf.length := by
  obtain ⟨hle, rfl⟩ := mem_write_ok h
  simp only [List.length_append, List.length_take, List.length_drop]
  omega

theorem mem_write_take {buf bytes buf' : List Nat} {off : Nat}
    (h : mem_write buf off bytes = .ok buf') (k : Nat) (hk : k ≤ off) :
    buf'.take k = buf.take k := by
  obtain ⟨hle, rfl⟩ := mem_write_ok h
  rw [List.append_assoc, List.take_append_of_le_length, List.take_take]
  · congr 1
    omega
  · simp only [List.length_take]
    omega

theorem add_u64_ok {data data' : List Nat} {value value' x : Nat}
    (h : add_u64 data value x = .ok (data', value')) :
    value' = value + 8 ∧ data'.length = data.length ∧
      ∀ k, k ≤ value → data'.take k = data.take k := by
  unfold add_u64 at h
  split at h
  · cases h
  · split at h
    · cases h
    · rename_i hw
      injection h with h
      injection h with h1 h2
      subst h1
      subst h2
      exact ⟨rfl, mem_write_length hw, fun k hk => mem_write_take hw k hk⟩

theorem aggregate_value_ok {f : ViewField} {drec : fds_drec} {data data' : List Nat}
    {value value' : Nat} (h : aggregate_value f drec data value = .ok (data', value')) :
    value ≤ value' ∧ value' ≤ value + 8 ∧ data'.length = data.length ∧
      ∀ k, k ≤ value → data'.take k = data.take k := by
  unfold aggregate_value at h
  split at h
  · split at h
    · injection h with h
      injection h with h1 h2
      subst h1
      subst h2
      exact ⟨le_refl _, by omega, rfl, fun _ _ => rfl⟩
    · split at h
      · split at h
        · cases h
        · obtain ⟨h1, h2, h3⟩ := add_u64_ok h
          exact ⟨by omega, by omega, h2, h3⟩
      · split at h
        · cases h
        · obtain ⟨h1, h2, h3⟩ := add_u64_ok h
          exact ⟨by omega, by omega, h2, h3⟩
      · cases h
  · obtain ⟨h1, h2, h3⟩ := add_u64_ok h
    exact ⟨by omega, by omega, h2, h3⟩
  · cases h

theorem aggregate_values_ok (fs : List ViewField) (drec : fds_drec) :
    ∀ (data data' : List Nat) (value value' : Nat),
      aggregate_values fs drec data value = .ok (data', value') →
      value ≤ value' ∧ data'.length = data.length ∧
        ∀ k, k ≤ value → data'.take k = data.take k := by
  induction fs with
  | nil =>
    intro data data' value value' h
    unfold aggregate_values at h
    injection h with h
    injection h with h1 h2
    subst h1
    subst h2
    exact ⟨le_refl _, rfl, fun _ _ => rfl⟩
  | cons f fs ih =>
    intro data data' value value' h
    unfold aggregate_values at h
    split at h
    · cases h
    · rename_i d1 v1 h1
      obtain ⟨a1, _, a3, a4⟩ := aggregate_value_ok h1
      obtain ⟨b1, b2, b3⟩ := ih d1 data' v1 value' h
      refine ⟨by omega, by omega, fun k hk => ?_⟩
      rw [b3 k (by omega), a4 k hk]

/-! ## Chains -/

theorem find_slot_chain (s : Aggregator) (hash : Nat) (key_buffer : List Nat) :
    ∀ (l : List Nat) (arec : Slot) (o : Option Nat) (fuel : Nat),
      s.load arec = .ok o → Chain s.heap o l → l.length < fuel →
      ∃ arec', find_slot s hash key_buffer fuel arec = .ok arec' ∧
        s.load arec' =
          .ok (l.find? (matches_at s.heap s.m_view_def.keys_size hash key_buffer)) ∧
        (l.find? (matches_at s.heap s.m_view_def.keys_size hash key_buffer) = none →
          arec' = last_slot arec l) := by
  intro l
  induction l with
  | nil =>
    intro arec o fuel hload hc hf
    cases hc
    obtain ⟨fuel, rfl⟩ : ∃ k, fuel = k + 1 := ⟨fuel - 1, by simp at hf; omega⟩
    refine ⟨arec, ?_, ?_, fun _ => rfl⟩
    · simp [find_slot, hload]
    · simpa using hload
  | cons p l ih =>
    intro arec o fuel hload hc hf
    cases hc with
    | cons hr hc =>
      rename_i r
      obtain ⟨fuel, rfl⟩ : ∃ k, fuel = k + 1 := ⟨fuel - 1, by simp at hf; omega⟩
      by_cases hm : r.hash = hash ∧ memcmp_eq r.data key_buffer s.m_view_def.keys_size = true
      · have hmat : matches_at s.heap s.m_view_def.keys_size hash key_buffer p = true := by
          simp [matches_at, hr, entry_matches, hm]
        refine ⟨arec, ?_, ?_, ?_⟩
        · simp [find_slot, hload, hr, hm]
        · simp [List.find?, hmat, hload]
        · intro hnone
          simp [List.find?, hmat] at hnone
      · have hmat : matches_at s.heap s.m_view_def.keys_size hash key_buffer p = false := by
          simp only [matches_at, hr, entry_matches]
          exact decide_eq_false hm
        have hload' : s.load (.next p) = .ok r.next := by
          simp [Aggregator.load, hr]
        obtain ⟨arec', h1, h2, h3⟩ := ih (.next p) r.next fuel hload' hc
          (by simp at hf; omega)
        refine ⟨arec', ?_, ?_, ?_⟩
        · simp only [find_slot, hload, hr]
          rw [if_neg hm]
          exact h1
        · simpa [List.find?, hmat] using h2
        · intro hnone
          simp only [List.find?, hmat] at hnone
          simpa [last_slot] using h3 hnone

/-! ## The table invariant -/

theorem find?_filter_of_imp {α : Type} (m q : α → Bool) (hmq : ∀ x, m x = true → q x = true) :
    ∀ l : List α, (l.filter q).find? m = l.find? m := by
  intro l
  induction l with
  | nil => rfl
  | cons a l ih =>
    by_cases hq : q a = true
    · rw [List.filter_cons_of_pos hq]
      simp only [List.find?, ih]
    · have hm : m a = false := by
        cases hma : m a with
        | false => rfl
        | true => exact absurd (hmq a hma) hq
      rw [List.filter_cons_of_neg hq]
      simp only [List.find?, hm, ih]

theorem find?_bucket_members (B : Nat) (heap : List AggregateRecord) (keys_size hash : Nat)
    (key_buffer : List Nat) :
    (bucket_members B heap (hash % B)).find? (matches_at heap keys_size hash key_buffer) =
      (List.range heap.length).find? (matches_at heap keys_size hash key_buffer) := by
  unfold bucket_members
  apply find?_filter_of_imp
  intro p hp
  unfold matches_at at hp
  split at hp
  · rename_i r hr
    simp only [entry_matches, decide_eq_true_eq] at hp
    simp [hp.1]
  · cases hp

theorem WF_init (X : Externals) (view_def : ViewDefinition) (hB : 0 < X.BUCKETS_COUNT) :
    WF X (Aggregator.init X view_def) := by
  refine ⟨hB, by simp [Aggregator.init], by simp [Aggregator.init], ?_, ?_⟩
  · intro i hi
    refine ⟨none, ?_, ?_⟩
    · simp [Aggregator.init, List.getElem?_replicate, hi]
    · simp only [Aggregator.init, bucket_members, List.length_nil, List.range_zero,
        List.filter_nil]
      exact Chain.nil
  · intro r hr
    simp [Aggregator.init] at hr

theorem Chain.congr {heap heap' : List AggregateRecord} {o : Option Nat} {l : List Nat}
    (hc : Chain heap o l)
    (h : ∀ p ∈ l, (heap'[p]?).map (fun r : AggregateRecord => r.next) = (heap[p]?).map (fun r : AggregateRecord => r.next)) :
    Chain heap' o l := by
  induction hc with
  | nil => exact Chain.nil
  | @cons p r l hr _ ih =>
    have hp := h p (List.mem_cons_self _ _)
    rw [hr] at hp
    cases hr' : heap'[p]? with
    | none => simp [hr'] at hp
    | some r' =>
      simp only [hr', Option.map_some', Option.some.injEq] at hp
      refine Chain.cons hr' ?_
      rw [hp]
      exact ih fun q hq => h q (List.mem_cons_of_mem _ hq)

theorem bucket_members_congr (B : Nat) {heap heap' : List AggregateRecord}
    (hlen : heap'.length = heap.length)
    (h : ∀ p : Nat, (heap'[p]?).map (fun r : AggregateRecord => r.hash) = (heap[p]?).map (fun r : AggregateRecord => r.hash)) (i : Nat) :
    bucket_members B heap' i = bucket_members B heap i := by
  unfold bucket_members
  rw [hlen]
  apply List.filter_congr
  intro p _
  have hp := h p
  cases h1 : heap'[p]? <;> cases h2 : heap[p]? <;> simp_all

theorem getElem?_set_data {heap : List AggregateRecord} {p : Nat} {r : AggregateRecord}
    (hr : heap[p]? = some r) (d : List Nat) (q : Nat) :
    (heap.set p { r with data := d })[q]? =
      (heap[q]?).map fun r' => if q = p then { r' with data := d } else r' := by
  have hp : p < heap.length := by
    by_contra hcon
    rw [List.getElem?_eq_none (by omega)] at hr
    cases hr
  rw [List.getElem?_set]
  by_cases hqp : p = q
  · subst hqp
    simp [hp, hr]
  · have hqp' : ¬ q = p := fun h => hqp h.symm
    simp only [hqp, hqp', if_false]
    cases heap[q]? <;> rfl

theorem fold_entry_ok {s s' : Aggregator} {p : Nat} {drec : fds_drec}
    (h : fold_entry s p drec = .ok s') :
    ∃ r data' value', s.heap[p]? = some r ∧
      aggregate_values s.m_view_def.value_fields drec r.data s.m_view_def.keys_size =
        .ok (data', value') ∧
      s' = { s with heap := s.heap.set p { r with data := data' } } := by
  unfold fold_entry at h
  split at h
  · cases h
  · rename_i r hr
    split at h
    · cases h
    · rename_i data' value' hv
      injection h with h
      exact ⟨r, data', value', hr, hv, h.symm⟩

theorem WF_fold_entry {X : Externals} {s s' : Aggregator} {p : Nat} {drec : fds_drec}
    (hwf : WF X s) (h : fold_entry s p drec = .ok s') : WF X s' := by
  obtain ⟨r, data', value', hr, hv, rfl⟩ := fold_entry_ok h
  obtain ⟨_, hlen, _⟩ := aggregate_values_ok _ _ _ _ _ _ hv
  have hnext : ∀ q : Nat, ((s.heap.set p { r with data := data' })[q]?).map (fun r : AggregateRecord => r.next) =
      (s.heap[q]?).map (fun r : AggregateRecord => r.next) := by
    intro q
    rw [getElem?_set_data hr]
    cases s.heap[q]? with
    | none => rfl
    | some r' => by_cases hq : q = p <;> simp [hq]
  have hhash : ∀ q : Nat, ((s.heap.set p { r with data := data' })[q]?).map (fun r : AggregateRecord => r.hash) =
      (s.heap[q]?).map (fun r : AggregateRecord => r.hash) := by
    intro q
    rw [getElem?_set_data hr]
    cases s.heap[q]? with
    | none => rfl
    | some r' => by_cases hq : q = p <;> simp [hq]
  refine ⟨hwf.buckets_pos, hwf.buckets_len, ?_, ?_, ?_⟩
  · simpa using hwf.records
  · intro i hi
    obtain ⟨o, ho, hc⟩ := hwf.chains i hi
    refine ⟨o, ho, ?_⟩
    simp only
    rw [bucket_members_congr _ (by simp) hhash]
    exact hc.congr fun q _ => hnext q
  · intro r' hr'
    simp only at hr' ⊢
    obtain ⟨q, hq⟩ := List.getElem?_of_mem hr'
    rw [getElem?_set_data hr] at hq
    cases hq0 : s.heap[q]? with
    | none => simp [hq0] at hq
    | some r0 =>
      simp only [hq0, Option.map_some', Option.some.injEq] at hq
      have h0 := hwf.data_len r0 (List.getElem?_mem hq0)
      by_cases hqp : q = p
      · subst hqp
        rw [hr] at hq0
        injection hq0 with hq0
        subst hq0
        simp only [if_true] at hq
        subst hq
        simp only
        rw [hlen]
        exact h0
      · simp only [hqp, if_false] at hq
        subst hq
        exact h0

/-! ## Appending a record to a chain -/

theorem last_slot_cons_mem (l : List Nat) :
    ∀ (slot : Slot), l ≠ [] → ∃ q ∈ l, last_slot slot l = .next q := by
  induction l with
  | nil => intro _ h; exact absurd rfl h
  | cons p l ih =>
    intro slot _
    by_cases hl : l = []
    · subst hl
      exact ⟨p, List.mem_cons_self _ _, rfl⟩
    · obtain ⟨q, hq, hq2⟩ := ih (.next p) hl
      exact ⟨q, List.mem_cons_of_mem _ hq, by simpa [last_slot] using hq2⟩

theorem chain_snoc (heap heap3 : List AggregateRecord) (n : Nat)
    (hnew : ∃ t, heap3[n]? = some t ∧ t.next = none) :
    ∀ (l : List Nat) (slot : Slot) (o : Option Nat), Chain heap o l → l.Nodup →
      (∀ p ∈ l, Slot.next p ≠ last_slot slot l →
        (heap3[p]?).map (fun r : AggregateRecord => r.next) =
          (heap[p]?).map (fun r : AggregateRecord => r.next)) →
      (∀ q ∈ l, last_slot slot l = .next q →
        (heap3[q]?).map (fun r : AggregateRecord => r.next) = some (some n)) →
      Chain heap3 (if l = [] then some n else o) (l ++ [n]) := by
  intro l
  induction l with
  | nil =>
    intro slot o _ _ _ _
    obtain ⟨t, ht, htn⟩ := hnew
    simp only [if_true, List.nil_append]
    refine Chain.cons ht ?_
    rw [htn]
    exact Chain.nil
  | cons p l ih =>
    intro slot o hc hnd h4 h5
    cases hc with
    | @cons _ r _ hr hc =>
      have hnd' : l.Nodup := (List.nodup_cons.mp hnd).2
      have hpl : p ∉ l := (List.nodup_cons.mp hnd).1
      have ih' := ih (.next p) r.next hc hnd'
        (fun q hq hne => h4 q (List.mem_cons_of_mem _ hq) (by simpa [last_slot] using hne))
        (fun q hq he => h5 q (List.mem_cons_of_mem _ hq) (by simpa [last_slot] using he))
      simp only [reduceCtorEq, if_false, List.cons_append]
      have hnext : (heap3[p]?).map (fun r : AggregateRecord => r.next) =
          some (if l = [] then some n else r.next) := by
        by_cases hl : l = []
        · subst hl
          simpa using h5 p (List.mem_cons_self _ _) rfl
        · obtain ⟨q, hq, hq2⟩ := last_slot_cons_mem l (.next p) hl
          have hne : Slot.next p ≠ last_slot slot (p :: l) := by
            simp only [last_slot, hq2, ne_eq, Slot.next.injEq]
            rintro rfl
            exact hpl hq
          rw [h4 p (List.mem_cons_self _ _) hne, hr]
          simp [hl]
      cases hr3 : heap3[p]? with
      | none => simp [hr3] at hnext
      | some r3 =>
        simp only [hr3, Option.map_some', Option.some.injEq] at hnext
        refine Chain.cons hr3 ?_
        rw [hnext]
        exact ih'

theorem mem_bucket_members {B : Nat} {heap : List AggregateRecord} {i p : Nat} :
    p ∈ bucket_members B heap i ↔ ∃ r, heap[p]? = some r ∧ r.hash % B = i := by
  unfold bucket_members
  rw [List.mem_filter, List.mem_range]
  constructor
  · rintro ⟨_, h⟩
    split at h
    · rename_i r hr
      exact ⟨r, hr, by simpa using h⟩
    · cases h
  · rintro ⟨r, hr, hi⟩
    refine ⟨?_, by simp [hr, hi]⟩
    by_contra hcon
    rw [List.getElem?_eq_none (by omega)] at hr
    cases hr

theorem nodup_bucket_members (B : Nat) (heap : List AggregateRecord) (i : Nat) :
    (bucket_members B heap i).Nodup :=
  (List.nodup_range _).filter _

theorem bucket_members_append (B : Nat) (heap heap3 : List AggregateRecord) (t : AggregateRecord)
    (hlen : heap3.length = heap.length + 1) (ht : heap3[heap.length]? = some t)
    (hold : ∀ p : Nat, p < heap.length →
      (heap3[p]?).map (fun r : AggregateRecord => r.hash) =
        (heap[p]?).map (fun r : AggregateRecord => r.hash)) (i : Nat) :
    bucket_members B heap3 i =
      bucket_members B heap i ++ (if t.hash % B = i then [heap.length] else []) := by
  unfold bucket_members
  rw [hlen, List.range_succ, List.filter_append]
  congr 1
  · apply List.filter_congr
    intro p hp
    have hp' := hold p (List.mem_range.mp hp)
    cases h1 : heap3[p]? <;> cases h2 : heap[p]? <;> simp_all
  · by_cases hi : t.hash % B = i <;> simp [List.filter, ht, hi]

/-! ## The state after linking a new record -/

theorem getElem?_lt_some {heap : List AggregateRecord} {p : Nat} (hp : p < heap.length) :
    ∃ r, heap[p]? = some r :=
  ⟨heap[p], List.getElem?_eq_getElem hp⟩

theorem lt_of_getElem?_some {heap : List AggregateRecord} {p : Nat} {r : AggregateRecord}
    (hr : heap[p]? = some r) : p < heap.length := by
  by_contra hcon
  rw [List.getElem?_eq_none (by omega)] at hr
  cases hr

theorem link_entry_facts (s : Aggregator) (arec : Slot) (hash : Nat) (key : List Nat)
    (hv : ∀ q, arec = .next q → q < s.heap.length) :
    (link_entry s arec hash key).m_view_def = s.m_view_def ∧
    (link_entry s arec hash key).m_records = s.m_records ++ [s.heap.length] ∧
    (link_entry s arec hash key).heap.length = s.heap.length + 1 ∧
    (link_entry s arec hash key).heap[s.heap.length]? =
      some ⟨none, hash, key ++ List.replicate s.m_view_def.values_size 0⟩ ∧
    (∀ p : Nat, p < s.heap.length → ∃ r r3, s.heap[p]? = some r ∧
      (link_entry s arec hash key).heap[p]? = some r3 ∧ r3.hash = r.hash ∧ r3.data = r.data ∧
      r3.next = if arec = .next p then some s.heap.length else r.next) ∧
    (link_entry s arec hash key).m_buckets =
      match arec with
      | .bucket j => s.m_buckets.set j (some s.heap.length)
      | .next _ => s.m_buckets := by
  cases arec with
  | bucket j =>
    refine ⟨rfl, rfl, by simp [link_entry, Aggregator.store], ?_, ?_, rfl⟩
    · simp [link_entry, Aggregator.store]
    · intro p hp
      obtain ⟨r, hr⟩ := getElem?_lt_some hp
      refine ⟨r, r, hr, ?_, rfl, rfl, by simp⟩
      simp only [link_entry, Aggregator.store]
      rw [List.getElem?_append_left hp]
      exact hr
  | next q =>
    have hq := hv q rfl
    obtain ⟨rq, hrq⟩ := getElem?_lt_some hq
    have hrq' : (s.heap ++ [(⟨none, hash, key ++ List.replicate s.m_view_def.values_size 0⟩ :
        AggregateRecord)])[q]? = some rq := by
      rw [List.getElem?_append_left hq]
      exact hrq
    have hheap : (link_entry s (.next q) hash key).heap =
        (s.heap ++ [(⟨none, hash, key ++ List.replicate s.m_view_def.values_size 0⟩ :
          AggregateRecord)]).set q { rq with next := some s.heap.length } := by
      simp only [link_entry, Aggregator.store, hrq']
    have hbk : (link_entry s (.next q) hash key).m_buckets = s.m_buckets := by
      simp only [link_entry, Aggregator.store, hrq']
    have hvd : (link_entry s (.next q) hash key).m_view_def = s.m_view_def := by
      simp only [link_entry, Aggregator.store, hrq']
    have hrec : (link_entry s (.next q) hash key).m_records = s.m_records ++ [s.heap.length] := by
      simp only [link_entry, Aggregator.store, hrq']
    refine ⟨hvd, hrec, ?_, ?_, ?_, hbk⟩
    · rw [hheap]
      simp
    · rw [hheap, List.getElem?_set_ne (by omega)]
      simp
    · intro p hp
      obtain ⟨r, hr⟩ := getElem?_lt_some hp
      rw [hheap]
      by_cases hpq : q = p
      · subst hpq
        rw [hr] at hrq
        injection hrq with hrq
        subst hrq
        refine ⟨r, { r with next := some s.heap.length }, hr, ?_, rfl, rfl, by simp⟩
        rw [List.getElem?_set_self (by simp; omega)]
      · refine ⟨r, r, hr, ?_, rfl, rfl, ?_⟩
        · rw [List.getElem?_set_ne hpq, List.getElem?_append_left hp]
          exact hr
        · have : ¬ (Slot.next q = Slot.next p) := by
            simpa using hpq
          simp [this]

theorem last_slot_valid {B : Nat} {heap : List AggregateRecord} {i q : Nat}
    (h : last_slot (.bucket i) (bucket_members B heap i) = .next q) :
    q ∈ bucket_members B heap i := by
  by_cases hl : bucket_members B heap i = []
  · rw [hl] at h
    cases h
  · obtain ⟨q', hq', he⟩ := last_slot_cons_mem _ (.bucket i) hl
    rw [he] at h
    injection h with h
    subst h
    exact hq'

theorem last_slot_bucket {slot : Slot} {l : List Nat} {j : Nat}
    (h : last_slot slot l = .bucket j) : l = [] ∧ slot = .bucket j := by
  by_cases hl : l = []
  · subst hl
    exact ⟨rfl, h⟩
  · obtain ⟨q, _, he⟩ := last_slot_cons_mem l slot hl
    rw [he] at h
    cases h

theorem WF_link_entry {X : Externals} {s : Aggregator} (hwf : WF X s) (hash : Nat)
    (key : List Nat) (hkey : key.length = s.m_view_def.keys_size) :
    WF X (link_entry s
      (last_slot (.bucket (hash % X.BUCKETS_COUNT))
        (bucket_members X.BUCKETS_COUNT s.heap (hash % X.BUCKETS_COUNT))) hash key) := by
  have hi : hash % X.BUCKETS_COUNT < X.BUCKETS_COUNT := Nat.mod_lt _ hwf.buckets_pos
  generalize harec : last_slot (.bucket (hash % X.BUCKETS_COUNT))
    (bucket_members X.BUCKETS_COUNT s.heap (hash % X.BUCKETS_COUNT)) = arec
  have hv : ∀ q, arec = .next q → q < s.heap.length := by
    intro q hq
    rw [hq] at harec
    obtain ⟨r, hr, _⟩ := mem_bucket_members.mp (last_slot_valid harec)
    exact lt_of_getElem?_some hr
  obtain ⟨f1, f2, f3, f4, f5, f6⟩ := link_entry_facts s arec hash key hv
  have hhash : ∀ p : Nat, p < s.heap.length →
      ((link_entry s arec hash key).heap[p]?).map (fun r : AggregateRecord => r.hash) =
        (s.heap[p]?).map (fun r : AggregateRecord => r.hash) := by
    intro p hp
    obtain ⟨r, r3, h1, h2, h3, _, _⟩ := f5 p hp
    simp [h1, h2, h3]
  have hmem := bucket_members_append X.BUCKETS_COUNT s.heap _ _ f3 f4 hhash
  refine ⟨hwf.buckets_pos, ?_, ?_, ?_, ?_⟩
  · rw [f6]
    cases arec <;> simp [hwf.buckets_len]
  · rw [f2, f3, List.range_succ, hwf.records]
  · intro j hj
    obtain ⟨o, ho, hc⟩ := hwf.chains j hj
    rw [hmem j]
    simp only
    by_cases hji : hash % X.BUCKETS_COUNT = j
    · subst hji
      rw [if_pos rfl]
      have hsn := chain_snoc s.heap (link_entry s arec hash key).heap s.heap.length
        ⟨_, f4, rfl⟩ _ (.bucket (hash % X.BUCKETS_COUNT)) o hc (nodup_bucket_members _ _ _)
        (by
          intro p hp hne
          rw [harec] at hne
          obtain ⟨r, hr, _⟩ := mem_bucket_members.mp hp
          obtain ⟨r', r3, h1, h2, _, _, h5⟩ := f5 p (lt_of_getElem?_some hr)
          rw [if_neg (fun h => hne h.symm)] at h5
          simp [h1, h2, h5])
        (by
          intro q hq he
          rw [harec] at he
          obtain ⟨r, hr, _⟩ := mem_bucket_members.mp hq
          obtain ⟨r', r3, h1, h2, _, _, h5⟩ := f5 q (lt_of_getElem?_some hr)
          rw [if_pos he] at h5
          simp [h2, h5])
      refine ⟨_, ?_, hsn⟩
      rw [f6]
      by_cases hl : bucket_members X.BUCKETS_COUNT s.heap (hash % X.BUCKETS_COUNT) = []
      · rw [hl] at harec
        simp only [last_slot] at harec
        subst harec
        simp only [hl, if_true]
        rw [List.getElem?_set_self (by rw [hwf.buckets_len]; exact hi)]
      · obtain ⟨q, _, he⟩ := last_slot_cons_mem _ (.bucket (hash % X.BUCKETS_COUNT)) hl
        rw [harec] at he
        subst he
        simp only [hl, if_false]
        exact ho
    · rw [if_neg hji, List.append_nil]
      refine ⟨o, ?_, ?_⟩
      · rw [f6]
        cases arec with
        | bucket k =>
          obtain ⟨_, hk⟩ := last_slot_bucket harec
          injection hk with hk
          subst hk
          simp only
          rw [List.getElem?_set_ne hji]
          exact ho
        | next q => exact ho
      · apply hc.congr
        intro p hp
        obtain ⟨r, hr, hrj⟩ := mem_bucket_members.mp hp
        obtain ⟨r', r3, h1, h2, _, _, h5⟩ := f5 p (lt_of_getElem?_some hr)
        have hne : ¬ arec = Slot.next p := by
          intro he
          rw [he] at harec
          obtain ⟨r2, hr2, hr2i⟩ := mem_bucket_members.mp (last_slot_valid harec)
          rw [hr] at hr2
          injection hr2 with hr2
          subst hr2
          exact hji (hr2i.symm.trans hrj)
        rw [if_neg hne] at h5
        simp [h1, h2, h5]
  · intro r hr
    rw [f1]
    obtain ⟨p, hp⟩ := List.getElem?_of_mem hr
    have hp3 := lt_of_getElem?_some hp
    rw [f3] at hp3
    by_cases hpn : p = s.heap.length
    · subst hpn
      rw [f4] at hp
      injection hp with hp
      subst hp
      simp [hkey]
    · obtain ⟨r', r3, h1, h2, _, h4, _⟩ := f5 p (by omega)
      rw [h2] at hp
      injection hp with hp
      subst hp
      rw [h4]
      exact hwf.data_len r' (List.getElem?_mem h1)

/-! ## `process_record` on a table that satisfies the invariant -/

theorem length_bucket_members_le (B : Nat) (heap : List AggregateRecord) (i : Nat) :
    (bucket_members B heap i).length ≤ heap.length := by
  unfold bucket_members
  exact (List.length_filter_le _ _).trans (by simp)

theorem find_slot_WF {X : Externals} {s : Aggregator} (hwf : WF X s) (hash : Nat)
    (key_buffer : List Nat) :
    ∃ arec, find_slot s hash key_buffer (s.heap.length + 1)
        (.bucket (hash % X.BUCKETS_COUNT)) = .ok arec ∧
      s.load arec = .ok (lookup s hash key_buffer) ∧
      (lookup s hash key_buffer = none → arec = tail_slot X s hash) := by
  have hi : hash % X.BUCKETS_COUNT < X.BUCKETS_COUNT := Nat.mod_lt _ hwf.buckets_pos
  obtain ⟨o, ho, hc⟩ := hwf.chains _ hi
  have hload : s.load (.bucket (hash % X.BUCKETS_COUNT)) = .ok o := by
    simp [Aggregator.load, ho]
  have hlen := length_bucket_members_le X.BUCKETS_COUNT s.heap (hash % X.BUCKETS_COUNT)
  obtain ⟨arec, h1, h2, h3⟩ := find_slot_chain s hash key_buffer _ _ o (s.heap.length + 1)
    hload hc (by omega)
  rw [find?_bucket_members] at h2 h3
  exact ⟨arec, h1, h2, h3⟩

theorem process_record_eq {X : Externals} {s : Aggregator} {drec : fds_drec}
    {key_buffer : List Nat} {kr : KeyResult} (calloc_ok : Bool) (hwf : WF X s)
    (hks : s.m_view_def.keys_size ≤ key_buffer_size)
    (hb : build_key s.m_view_def drec key_buffer = .ok kr) (hrc : kr.rc ≠ 0) :
    process_record X s drec key_buffer calloc_ok =
      match lookup s (X.XXH3_64bits (kr.key_buffer.take X.sizeof_keys_size)) kr.key_buffer with
      | some p => fold_entry s p drec
      | none =>
        if calloc_ok = false then .error .bad_alloc
        else
          match mem_read kr.key_buffer 0 s.m_view_def.keys_size with
          | .error e => .error e
          | .ok key =>
            fold_entry
              (link_entry s
                (tail_slot X s (X.XXH3_64bits (kr.key_buffer.take X.sizeof_keys_size)))
                (X.XXH3_64bits (kr.key_buffer.take X.sizeof_keys_size)) key)
              s.heap.length drec := by
  obtain ⟨arec, h1, h2, h3⟩ := find_slot_WF hwf
    (X.XXH3_64bits (kr.key_buffer.take X.sizeof_keys_size)) kr.key_buffer
  unfold process_record
  simp only [hks, not_true_eq_false, if_false, hb, hrc, h1, h2]
  cases hl : lookup s (X.XXH3_64bits (kr.key_buffer.take X.sizeof_keys_size)) kr.key_buffer with
  | some p => rfl
  | none =>
    simp only
    rw [h3 hl]

theorem process_record_dropped {X : Externals} {s : Aggregator} {drec : fds_drec}
    {key_buffer : List Nat} {kr : KeyResult} (calloc_ok : Bool)
    (hks : s.m_view_def.keys_size ≤ key_buffer_size)
    (hb : build_key s.m_view_def drec key_buffer = .ok kr) (hrc : kr.rc = 0) :
    process_record X s drec key_buffer calloc_ok = .ok s := by
  unfold process_record
  simp only [hks, not_true_eq_false, if_false, hb, hrc, if_true]

theorem WF_process_record {X : Externals} {s s' : Aggregator} {drec : fds_drec}
    {key_buffer : List Nat} {calloc_ok : Bool} (hwf : WF X s)
    (h : process_record X s drec key_buffer calloc_ok = .ok s') : WF X s' := by
  by_cases hks : s.m_view_def.keys_size ≤ key_buffer_size
  · cases hb : build_key s.m_view_def drec key_buffer with
    | error e =>
      unfold process_record at h
      simp [hks, hb] at h
    | ok kr =>
      by_cases hrc : kr.rc = 0
      · rw [process_record_dropped calloc_ok hks hb hrc] at h
        injection h with h
        subst h
        exact hwf
      · rw [process_record_eq calloc_ok hwf hks hb hrc] at h
        split at h
        · exact WF_fold_entry hwf h
        · split at h
          · cases h
          · split at h
            · cases h
            · rename_i key hkey
              have hlen : key.length = s.m_view_def.keys_size := by
                unfold mem_read at hkey
                split at hkey
                · rename_i hle
                  injection hkey with hkey
                  subst hkey
                  simp only [List.drop_zero, List.length_take]
                  omega
                · cases hkey
              exact WF_fold_entry (WF_link_entry hwf _ key hlen) h
  · unfold process_record at h
    simp [hks] at h

/-! ## Refinement: the pointer structure computes the list of entries -/

theorem filterMap_range_getElem? {α β : Type} (f : α → β) (l : List α) :
    (List.range l.length).filterMap (fun p => (l[p]?).map f) = l.map f := by
  induction l using List.reverseRecOn with
  | nil => rfl
  | append_singleton l a ih =>
    rw [List.length_append, List.length_singleton, List.range_succ, List.filterMap_append,
      List.map_append]
    congr 1
    · rw [← ih]
      apply List.filterMap_congr
      intro p hp
      rw [List.getElem?_append_left (List.mem_range.mp hp)]
    · simp

theorem entries_eq_map {X : Externals} {s : Aggregator} (hwf : WF X s) :
    s.entries = s.heap.map fun r => (r.hash, r.data) := by
  unfold Aggregator.entries
  rw [hwf.records]
  exact filterMap_range_getElem? _ _

theorem lookup_eq_table_find {X : Externals} {s : Aggregator} (hwf : WF X s) (hash : Nat)
    (key_buffer : List Nat) :
    lookup s hash key_buffer = table_find s.m_view_def.keys_size s.entries hash key_buffer := by
  unfold lookup table_find
  rw [entries_eq_map hwf, List.length_map]
  congr 1
  funext p
  unfold matches_at
  rw [List.getElem?_map]
  cases s.heap[p]? <;> rfl

theorem fold_entry_view_def {s s' : Aggregator} {p : Nat} {drec : fds_drec}
    (h : fold_entry s p drec = .ok s') : s'.m_view_def = s.m_view_def := by
  obtain ⟨r, data', value', _, _, rfl⟩ := fold_entry_ok h
  rfl

theorem fold_entry_table {X : Externals} {s : Aggregator} (hwf : WF X s) (p : Nat)
    (drec : fds_drec) :
    (fold_entry s p drec).map Aggregator.entries =
      table_fold s.m_view_def drec s.entries p := by
  cases hf : fold_entry s p drec with
  | error e =>
    unfold fold_entry at hf
    unfold table_fold
    rw [entries_eq_map hwf, List.getElem?_map]
    cases hr : s.heap[p]? with
    | none =>
      simp only [hr] at hf
      injection hf with hf
      subst hf
      rfl
    | some r =>
      simp only [hr] at hf
      split at hf
      · rename_i e' he'
        injection hf with hf
        subst hf
        simp only [Option.map_some', he']
        rfl
      · cases hf
  | ok s' =>
    have hwf' := WF_fold_entry hwf hf
    obtain ⟨r, data', value', hr, hv, rfl⟩ := fold_entry_ok hf
    unfold table_fold
    simp only [Except.map]
    rw [entries_eq_map hwf', entries_eq_map hwf, List.getElem?_map, hr]
    simp only [Option.map_some', hv, List.map_set]

theorem link_entry_entries {X : Externals} {s : Aggregator} (hwf : WF X s) (hash : Nat)
    (key : List Nat) (hkey : key.length = s.m_view_def.keys_size) :
    (link_entry s (tail_slot X s hash) hash key).entries =
      s.entries ++ [(hash, key ++ List.replicate s.m_view_def.values_size 0)] := by
  have hwf3 : WF X (link_entry s (tail_slot X s hash) hash key) :=
    WF_link_entry hwf hash key hkey
  have hv : ∀ q, tail_slot X s hash = .next q → q < s.heap.length := by
    intro q hq
    obtain ⟨r, hr, _⟩ := mem_bucket_members.mp (last_slot_valid hq)
    exact lt_of_getElem?_some hr
  obtain ⟨_, _, f3, f4, f5, _⟩ := link_entry_facts s (tail_slot X s hash) hash key hv
  rw [entries_eq_map hwf3, entries_eq_map hwf]
  apply List.ext_getElem?
  intro p
  rw [List.getElem?_map]
  rcases Nat.lt_trichotomy p s.heap.length with hp | hp | hp
  · obtain ⟨r, r3, h1, h2, h3, h4, _⟩ := f5 p hp
    rw [List.getElem?_append_left (by simpa using hp), List.getElem?_map, h1, h2]
    simp [h3, h4]
  · subst hp
    rw [f4, List.getElem?_append_right (by simp)]
    simp
  · rw [List.getElem?_eq_none (by omega), List.getElem?_eq_none (by simp; omega)]
    rfl

theorem mem_read_length {buf key : List Nat} {off n : Nat} (h : mem_read buf off n = .ok key) :
    key.length = n := by
  unfold mem_read at h
  split at h
  · injection h with h
    subst h
    simp only [List.length_take, List.length_drop]
    omega
  · cases h

theorem process_record_table {X : Externals} {s : Aggregator} (hwf : WF X s)
    (drec : fds_drec) (key_buffer : List Nat) :
    (process_record X s drec key_buffer true).map Aggregator.entries =
      table_process X s.m_view_def s.entries drec key_buffer := by
  unfold table_process
  by_cases hks : s.m_view_def.keys_size ≤ key_buffer_size
  · simp only [hks, not_true_eq_false, if_false]
    cases hb : build_key s.m_view_def drec key_buffer with
    | error e =>
      unfold process_record
      simp only [hks, not_true_eq_false, if_false, hb]
      rfl
    | ok kr =>
      simp only
      by_cases hrc : kr.rc = 0
      · rw [process_record_dropped true hks hb hrc, if_pos hrc]
        rfl
      · rw [process_record_eq true hwf hks hb hrc, if_neg hrc]
        unfold table_step
        rw [← lookup_eq_table_find hwf]
        cases lookup s (X.XXH3_64bits (kr.key_buffer.take X.sizeof_keys_size)) kr.key_buffer with
        | some p => exact fold_entry_table hwf p drec
        | none =>
          simp only [Bool.true_eq_false, if_false]
          cases hkey : mem_read kr.key_buffer 0 s.m_view_def.keys_size with
          | error e => rfl
          | ok key =>
            simp only
            have hlen := mem_read_length hkey
            have hwf3 : WF X (link_entry s
                (tail_slot X s (X.XXH3_64bits (kr.key_buffer.take X.sizeof_keys_size)))
                (X.XXH3_64bits (kr.key_buffer.take X.sizeof_keys_size)) key) :=
              WF_link_entry hwf
                (X.XXH3_64bits (kr.key_buffer.take X.sizeof_keys_size)) key hlen
            have h3 := fold_entry_table hwf3 s.heap.length drec
            have hvd : (link_entry s
                (tail_slot X s (X.XXH3_64bits (kr.key_buffer.take X.sizeof_keys_size)))
                (X.XXH3_64bits (kr.key_buffer.take X.sizeof_keys_size)) key).m_view_def =
                s.m_view_def := by
              cases tail_slot X s (X.XXH3_64bits (kr.key_buffer.take X.sizeof_keys_size)) with
              | bucket j => rfl
              | next q =>
                simp only [link_entry, Aggregator.store]
                split <;> rfl
            rw [hvd, link_entry_entries hwf _ key hlen] at h3
            have hn : s.entries.length = s.heap.length := by
              rw [entries_eq_map hwf, List.length_map]
            rw [hn]
            exact h3
  · unfold process_record
    simp only [hks, not_false_eq_true, if_true]
    rfl

theorem process_record_view_def {X : Externals} {s s' : Aggregator} {drec : fds_drec}
    {key_buffer : List Nat} {calloc_ok : Bool}
    (h : process_record X s drec key_buffer calloc_ok = .ok s') :
    s'.m_view_def = s.m_view_def := by
  unfold process_record at h
  split at h
  · cases h
  · split at h
    · cases h
    · split at h
      · injection h with h
        rw [h]
      · simp only at h
        split at h
        · cases h
        · split at h
          · cases h
          · exact fold_entry_view_def h
          · split at h
            · cases h
            · split at h
              · cases h
              · rw [fold_entry_view_def h]
                simp only [link_entry, Aggregator.store]
                split
                · rfl
                · split <;> rfl

theorem process_all_table {X : Externals} (inputs : List (fds_drec × List Nat)) :
    ∀ {s : Aggregator}, WF X s →
      (process_all X s inputs).map Aggregator.entries =
        table_all X s.m_view_def s.entries inputs := by
  induction inputs with
  | nil => intro s _; rfl
  | cons a rest ih =>
    intro s hwf
    obtain ⟨drec, key_buffer⟩ := a
    have h1 := process_record_table hwf drec key_buffer
    unfold process_all table_all
    cases hp : process_record X s drec key_buffer true with
    | error e =>
      rw [hp] at h1
      simp only [Except.map] at h1
      rw [← h1]
      rfl
    | ok s' =>
      rw [hp] at h1
      simp only [Except.map] at h1
      rw [← h1]
      simp only
      rw [← process_record_view_def hp]
      exact ih (WF_process_record hwf hp)

theorem WF_process_all {X : Externals} (inputs : List (fds_drec × List Nat)) :
    ∀ {s s' : Aggregator}, WF X s → process_all X s inputs = .ok s' → WF X s' := by
  induction inputs with
  | nil =>
    intro s s' hwf h
    unfold process_all at h
    injection h with h
    subst h
    exact hwf
  | cons a rest ih =>
    intro s s' hwf h
    obtain ⟨drec, key_buffer⟩ := a
    unfold process_all at h
    split at h
    · cases h
    · rename_i s1 h1
      exact ih (WF_process_record hwf h1) h

/-! ## The chains of all buckets -/

theorem chain_from_of_chain {heap : List AggregateRecord} {o : Option Nat} {l : List Nat}
    (hc : Chain heap o l) : ∀ fuel, l.length ≤ fuel → chain_from heap fuel o = l := by
  induction hc with
  | nil =>
    intro fuel _
    cases fuel <;> rfl
  | @cons p r l hr _ ih =>
    intro fuel hf
    obtain ⟨fuel, rfl⟩ : ∃ k, fuel = k + 1 := ⟨fuel - 1, by simp at hf; omega⟩
    simp only [chain_from, hr]
    rw [ih fuel (by simp at hf; omega)]

theorem chained_eq {X : Externals} {s : Aggregator} (hwf : WF X s) :
    s.chained = (List.range X.BUCKETS_COUNT).flatMap (bucket_members X.BUCKETS_COUNT s.heap) := by
  unfold Aggregator.chained
  rw [List.flatMap_def, List.flatMap_def]
  congr 1
  apply List.ext_getElem?
  intro i
  rw [List.getElem?_map, List.getElem?_map]
  by_cases hi : i < X.BUCKETS_COUNT
  · obtain ⟨o, ho, hc⟩ := hwf.chains i hi
    rw [ho, List.getElem?_range hi]
    simp only [Option.map_some', Option.some.injEq]
    exact chain_from_of_chain hc _ (length_bucket_members_le _ _ _)
  · rw [List.getElem?_eq_none (by rw [hwf.buckets_len]; omega),
      List.getElem?_eq_none (by simp; omega)]
    rfl

theorem chained_nodup {X : Externals} {s : Aggregator} (hwf : WF X s) : s.chained.Nodup := by
  rw [chained_eq hwf, List.nodup_flatMap]
  refine ⟨fun i _ => nodup_bucket_members _ _ _, ?_⟩
  refine (List.nodup_range X.BUCKETS_COUNT).imp ?_
  intro i j hij
  show List.Disjoint _ _
  rw [List.disjoint_left]
  intro p hp hq
  obtain ⟨r, hr, h1⟩ := mem_bucket_members.mp hp
  obtain ⟨r', hr', h2⟩ := mem_bucket_members.mp hq
  rw [hr] at hr'
  injection hr' with hr'
  subst hr'
  exact hij (h1.symm.trans h2)

theorem mem_chained {X : Externals} {s : Aggregator} (hwf : WF X s) (p : Nat) :
    p ∈ s.chained ↔ p ∈ s.m_records := by
  rw [chained_eq hwf, hwf.records, List.mem_flatMap, List.mem_range]
  constructor
  · rintro ⟨i, _, hp⟩
    obtain ⟨r, hr, _⟩ := mem_bucket_members.mp hp
    exact lt_of_getElem?_some hr
  · intro hp
    obtain ⟨r, hr⟩ := getElem?_lt_some hp
    exact ⟨r.hash % X.BUCKETS_COUNT, List.mem_range.mpr (Nat.mod_lt _ hwf.buckets_pos),
      mem_bucket_members.mpr ⟨r, hr, rfl⟩⟩

/-! ## `build_key` -/

theorem build_key_field_unresolvable {f : ViewField} {drec : fds_drec}
    (hsup : key_field_supported f = true) (hres : key_field_resolvable f drec = false)
    (key_buffer : List Nat) (key_value : Nat) :
    build_key_field f drec key_buffer key_value = .ok none := by
  unfold key_field_supported at hsup
  unfold key_field_resolvable at hres
  unfold build_key_field
  split
  · rename_i hk
    simp only [hk] at hres
    cases hf : fds_drec_find drec f.pen f.id with
    | none => rfl
    | some x => simp [hf] at hres
  · rename_i hk
    simp only [hk] at hres
    unfold address_key
    cases h4 : fds_drec_find drec IPFIX.iana _ with
    | some x => simp [h4] at hres
    | none =>
      simp only [h4, Option.isSome_none, Bool.false_or] at hres
      cases h6 : fds_drec_find drec IPFIX.iana _ with
      | some x => simp [h6] at hres
      | none => rfl
  · rename_i hk
    simp only [hk] at hres
    unfold address_key
    cases h4 : fds_drec_find drec IPFIX.iana _ with
    | some x => simp [h4] at hres
    | none =>
      simp only [h4, Option.isSome_none, Bool.false_or] at hres
      cases h6 : fds_drec_find drec IPFIX.iana _ with
      | some x => simp [h6] at hres
      | none => rfl
  · rename_i h1 h2 h3
    split at hsup
    · exact absurd (by assumption) h1
    · exact absurd (by assumption) h2
    · exact absurd (by assumption) h3
    · cases hsup

theorem mem_write_total (buf bytes : List Nat) (off : Nat)
    (h : off + bytes.length ≤ buf.length) :
    ∃ buf', mem_write buf off bytes = .ok buf' ∧ buf'.length = buf.length := by
  have h1 : mem_write buf off bytes =
      .ok (buf.take off ++ bytes ++ buf.drop (off + bytes.length)) := by
    unfold mem_write
    rw [if_pos h]
  exact ⟨_, h1, mem_write_length h1⟩

theorem le_bytes_length (w v : Nat) : (le_bytes w v).length = w := by
  induction w generalizing v with
  | zero => rfl
  | succ w ih => simp [le_bytes, ih]

theorem verbatim_bytes_total {data_type : DataType} {drec_field : fds_drec_field} {w : Nat}
    (hw : verbatim_width data_type = some w)
    (hsize : 1 ≤ drec_field.data.length ∧ drec_field.data.length ≤ 8) :
    ∃ bytes, verbatim_bytes data_type drec_field = .ok bytes ∧ bytes.length = w := by
  have hu : ∃ v, get_uint drec_field = .ok v := by
    have h : fds_get_uint_be drec_field.data = some (be_value drec_field.data) := by
      unfold fds_get_uint_be
      rw [if_neg (by omega)]
    exact ⟨be_value drec_field.data % 2 ^ 64, by simp only [get_uint, h]⟩
  have hi : ∃ v, get_int drec_field = .ok v := by
    have h : ∃ v, fds_get_int_be drec_field.data = some v := by
      unfold fds_get_int_be
      rw [if_neg (by omega)]
      split <;> exact ⟨_, rfl⟩
    obtain ⟨v, h⟩ := h
    exact ⟨v, by simp only [get_int, h]⟩
  obtain ⟨u, hu⟩ := hu
  obtain ⟨i, hi⟩ := hi
  cases data_type <;> simp only [verbatim_width, Option.some.injEq, reduceCtorEq] at hw <;>
    subst hw <;> simp only [verbatim_bytes, hu, hi, Except.map] <;>
    exact ⟨_, rfl, le_bytes_length _ _⟩

theorem address_key_total {drec : fds_drec} {ipv4 ipv6 : Nat}
    (hread : address_readable drec ipv4 ipv6 = true) :
    ∃ r, address_key drec ipv4 ipv6 = .ok r ∧
      (r.isSome = ((fds_drec_find drec IPFIX.iana ipv4).isSome ||
        (fds_drec_find drec IPFIX.iana ipv6).isSome)) ∧
      ∀ ip, r = some ip → ip.bytes.length = sizeof_IPAddress := by
  unfold address_readable at hread
  unfold address_key
  cases h4 : fds_drec_find drec IPFIX.iana ipv4 with
  | some fld =>
    simp only [h4, decide_eq_true_eq] at hread
    have hm : mem_read fld.data 0 4 = .ok ((fld.data.drop 0).take 4) := by
      unfold mem_read
      rw [if_pos (by omega)]
    refine ⟨some ⟨4, (fld.data.drop 0).take 4 ++ List.replicate 12 0⟩, ?_, by simp, ?_⟩
    · simp only [make_ipv4_address, hm, Except.map]
    · intro ip hip
      injection hip with hip
      subst hip
      simp only [IPAddress.bytes, List.drop_zero, List.length_cons, List.length_append,
        List.length_take, List.length_replicate, sizeof_IPAddress]
      omega
  | none =>
    simp only [h4] at hread
    cases h6 : fds_drec_find drec IPFIX.iana ipv6 with
    | some fld =>
      simp only [h6, decide_eq_true_eq] at hread
      have hm : mem_read fld.data 0 16 = .ok ((fld.data.drop 0).take 16) := by
        unfold mem_read
        rw [if_pos (by omega)]
      refine ⟨some ⟨16, (fld.data.drop 0).take 16⟩, ?_, by simp, ?_⟩
      · simp only [make_ipv6_address, hm, Except.map]
      · intro ip hip
        injection hip with hip
        subst hip
        simp only [IPAddress.bytes, List.drop_zero, List.length_cons, List.length_take,
          sizeof_IPAddress]
        omega
    | none => exact ⟨none, rfl, by simp, fun ip hip => by cases hip⟩

theorem build_key_field_resolvable {f : ViewField} {drec : fds_drec}
    (hsup : key_field_supported f = true) (hread : key_field_readable f drec = true)
    (hres : key_field_resolvable f drec = true) (key_buffer : List Nat) (key_value : Nat)
    (hbuf : key_value + key_field_width f ≤ key_buffer.length) :
    ∃ key_buffer', build_key_field f drec key_buffer key_value =
        .ok (some (key_buffer', key_value + key_field_width f)) ∧
      key_buffer'.length = key_buffer.length := by
  unfold key_field_supported at hsup
  unfold key_field_resolvable at hres
  unfold key_field_readable at hread
  unfold key_field_width at hbuf ⊢
  unfold build_key_field
  split
  · rename_i hk
    simp only [hk] at hres hread hsup hbuf ⊢
    cases hf : fds_drec_find drec f.pen f.id with
    | none => simp [hf] at hres
    | some fld =>
      simp only [hf, decide_eq_true_eq] at hread
      obtain ⟨w, hw⟩ := Option.isSome_iff_exists.mp hsup
      obtain ⟨bytes, hb, hlen⟩ := verbatim_bytes_total hw hread
      simp only [hw, Option.getD_some] at hbuf ⊢
      obtain ⟨buf', hwr, hlen'⟩ := mem_write_total key_buffer bytes key_value
        (by omega)
      exact ⟨buf', by simp only [hb, hwr, hlen], hlen'⟩
  · rename_i hk
    simp only [hk] at hres hread hbuf ⊢
    obtain ⟨r, hr, hsome, hlen⟩ := address_key_total hread
    rw [← hsome] at hres
    obtain ⟨ip, hip⟩ := Option.isSome_iff_exists.mp hres
    subst hip
    obtain ⟨buf', hwr, hlen'⟩ := mem_write_total key_buffer ip.bytes key_value
      (by rw [hlen ip rfl]; exact hbuf)
    exact ⟨buf', by simp only [hr, hwr], hlen'⟩
  · rename_i hk
    simp only [hk] at hres hread hbuf ⊢
    obtain ⟨r, hr, hsome, hlen⟩ := address_key_total hread
    rw [← hsome] at hres
    obtain ⟨ip, hip⟩ := Option.isSome_iff_exists.mp hres
    subst hip
    obtain ⟨buf', hwr, hlen'⟩ := mem_write_total key_buffer ip.bytes key_value
      (by rw [hlen ip rfl]; exact hbuf)
    exact ⟨buf', by simp only [hr, hwr], hlen'⟩
  · rename_i h1 h2 h3
    split at hsup
    · exact absurd (by assumption) h1
    · exact absurd (by assumption) h2
    · exact absurd (by assumption) h3
    · cases hsup

theorem build_key_loop_stops (drec : fds_drec) {f : ViewField} (post : List ViewField)
    (hsup : key_field_supported f = true) (hres : key_field_resolvable f drec = false) :
    ∀ (pre : List ViewField) (key_buffer : List Nat) (key_value : Nat),
      build_key_loop (pre ++ f :: post) drec key_buffer key_value =
        match build_key_loop pre drec key_buffer key_value with
        | .ok kr => .ok ⟨0, kr.key_buffer, kr.key_value⟩
        | .error e => .error e := by
  intro pre
  induction pre with
  | nil =>
    intro key_buffer key_value
    simp only [List.nil_append, build_key_loop,
      build_key_field_unresolvable hsup hres key_buffer key_value]
  | cons g pre ih =>
    intro key_buffer key_value
    simp only [List.cons_append, build_key_loop]
    cases hg : build_key_field g drec key_buffer key_value with
    | error e => rfl
    | ok r =>
      cases r with
      | none => rfl
      | some bc =>
        obtain ⟨b, c⟩ := bc
        simp only
        exact ih b c

theorem build_key_loop_total (drec : fds_drec) :
    ∀ (fs : List ViewField) (key_buffer : List Nat) (key_value : Nat),
      (∀ f ∈ fs, key_field_supported f = true) →
      (∀ f ∈ fs, key_field_readable f drec = true) →
      key_value + keys_width fs ≤ key_buffer.length →
      ∃ kr, build_key_loop fs drec key_buffer key_value = .ok kr ∧
        kr.key_buffer.length = key_buffer.length ∧
        ((kr.rc = 0 ∧ ∃ f ∈ fs, key_field_resolvable f drec = false) ∨
          (kr.rc = 1 ∧ (∀ f ∈ fs, key_field_resolvable f drec = true) ∧
            kr.key_value = key_value + keys_width fs)) := by
  intro fs
  induction fs with
  | nil =>
    intro key_buffer key_value _ _ _
    exact ⟨⟨1, key_buffer, key_value⟩, rfl, rfl, Or.inr ⟨rfl, by simp, by simp [keys_width]⟩⟩
  | cons f fs ih =>
    intro key_buffer key_value hsup hread hbuf
    have hw : keys_width (f :: fs) = key_field_width f + keys_width fs := by
      simp [keys_width]
    rw [hw] at hbuf
    cases hres : key_field_resolvable f drec with
    | false =>
      refine ⟨⟨0, key_buffer, key_value⟩, ?_, rfl, Or.inl ⟨rfl, f, List.mem_cons_self _ _, hres⟩⟩
      simp only [build_key_loop,
        build_key_field_unresolvable (hsup f (List.mem_cons_self _ _)) hres]
    | true =>
      obtain ⟨buf', hb, hlen⟩ := build_key_field_resolvable (hsup f (List.mem_cons_self _ _))
        (hread f (List.mem_cons_self _ _)) hres key_buffer key_value (by omega)
      obtain ⟨kr, hkr, hlen2, hcase⟩ := ih buf' (key_value + key_field_width f)
        (fun g hg => hsup g (List.mem_cons_of_mem _ hg))
        (fun g hg => hread g (List.mem_cons_of_mem _ hg)) (by omega)
      refine ⟨kr, ?_, by omega, ?_⟩
      · simp only [build_key_loop, hb]
        exact hkr
      · rcases hcase with ⟨h0, g, hg, hgres⟩ | ⟨h1, hall, hcur⟩
        · exact Or.inl ⟨h0, g, List.mem_cons_of_mem _ hg, hgres⟩
        · refine Or.inr ⟨h1, ?_, by omega⟩
          intro g hg
          rcases List.mem_cons.mp hg with rfl | hg
          · exact hres
          · exact hall g hg

/-! ## The value fold returns -/

theorem add_u64_total {data : List Nat} {value : Nat} (x : Nat)
    (h : value + 8 ≤ data.length) : ∃ data', add_u64 data value x = .ok (data', value + 8) := by
  have hr : mem_read data value 8 = .ok ((data.drop value).take 8) := by
    unfold mem_read
    rw [if_pos h]
  obtain ⟨d, hd, _⟩ := mem_write_total data
    (le_bytes 8 ((le_value ((data.drop value).take 8) + x) % 2 ^ 64)) value
    (by rw [le_bytes_length]; exact h)
  exact ⟨d, by simp only [add_u64, hr, hd]⟩

theorem aggregate_value_total {f : ViewField} {drec : fds_drec} {data : List Nat} {value : Nat}
    (hsup : value_field_supported f = true) (hread : value_field_readable f drec = true)
    (h : value + 8 ≤ data.length) :
    ∃ data' value', aggregate_value f drec data value = .ok (data', value') := by
  unfold value_field_supported at hsup
  unfold value_field_readable at hread
  unfold aggregate_value
  split
  · rename_i hk
    simp only [hk] at hsup hread
    cases hf : fds_drec_find drec f.pen f.id with
    | none => exact ⟨_, _, rfl⟩
    | some fld =>
      simp only [hf, decide_eq_true_eq] at hread
      have hu : fds_get_uint_be fld.data = some (be_value fld.data) := by
        unfold fds_get_uint_be
        rw [if_neg (by omega)]
      have hi : ∃ v, fds_get_int_be fld.data = some v := by
        unfold fds_get_int_be
        rw [if_neg (by omega)]
        split <;> exact ⟨_, rfl⟩
      obtain ⟨v, hi⟩ := hi
      split at hsup
      · rename_i hdt
        obtain ⟨d, hd⟩ := add_u64_total (be_value fld.data % 2 ^ 64) h
        exact ⟨d, value + 8, by simp only [hdt, get_uint, hu, hd]⟩
      · rename_i hdt
        obtain ⟨d, hd⟩ := add_u64_total (int_bits 8 v) h
        exact ⟨d, value + 8, by simp only [hdt, get_int, hi, hd]⟩
      · cases hsup
  · obtain ⟨d, hd⟩ := add_u64_total 1 h
    exact ⟨d, _, hd⟩
  · rename_i h1 h2
    split at hsup
    · exact absurd (by assumption) h1
    · exact absurd (by assumption) h2
    · cases hsup

theorem aggregate_values_total (drec : fds_drec) :
    ∀ (fs : List ViewField) (data : List Nat) (value : Nat),
      (∀ f ∈ fs, value_field_supported f = true) →
      (∀ f ∈ fs, value_field_readable f drec = true) →
      value + 8 * fs.length ≤ data.length →
      ∃ data' value', aggregate_values fs drec data value = .ok (data', value') := by
  intro fs
  induction fs with
  | nil => intro data value _ _ _; exact ⟨_, _, rfl⟩
  | cons f fs ih =>
    intro data value hsup hread h
    simp only [List.length_cons] at h
    obtain ⟨d1, v1, h1⟩ := aggregate_value_total (hsup f (List.mem_cons_self _ _))
      (hread f (List.mem_cons_self _ _)) (show value + 8 ≤ data.length by omega)
    obtain ⟨_, a2, a3, _⟩ := aggregate_value_ok h1
    obtain ⟨d2, v2, h2⟩ := ih d1 v1 (fun g hg => hsup g (List.mem_cons_of_mem _ hg))
      (fun g hg => hread g (List.mem_cons_of_mem _ hg)) (by omega)
    exact ⟨d2, v2, by simp only [aggregate_values, h1, h2]⟩

/-! ## The lookup on the list of entries -/

theorem find?_range_first (f : Nat → Bool) (p : Nat) (hp : f p = true)
    (hfirst : ∀ q, q < p → f q = false) : ∀ n, p < n → (List.range n).find? f = some p := by
  intro n
  induction n with
  | zero => intro h; omega
  | succ n ih =>
    intro h
    rw [List.range_succ, List.find?_append]
    by_cases hpn : p < n
    · rw [ih hpn]
      rfl
    · have hpn' : p = n := by omega
      subst hpn'
      have hnone : (List.range p).find? f = none := by
        rw [List.find?_eq_none]
        intro q hq
        rw [hfirst q (List.mem_range.mp hq)]
        simp
      rw [hnone]
      simp [List.find?, hp]

theorem table_find_some {keys_size hash p : Nat} {t : List (Nat × List Nat)}
    {key_buffer : List Nat} (h : table_find keys_size t hash key_buffer = some p) :
    ∃ e, t[p]? = some e ∧ e.1 = hash ∧ memcmp_eq e.2 key_buffer keys_size = true := by
  unfold table_find at h
  have h1 := List.find?_some h
  split at h1
  · rename_i e he
    simp only [decide_eq_true_eq] at h1
    exact ⟨e, he, h1.1, h1.2⟩
  · cases h1

theorem table_find_eq_none {keys_size hash : Nat} {t : List (Nat × List Nat)}
    {key_buffer : List Nat}
    (h : ∀ e ∈ t, ¬ (e.1 = hash ∧ memcmp_eq e.2 key_buffer keys_size = true)) :
    table_find keys_size t hash key_buffer = none := by
  unfold table_find
  rw [List.find?_eq_none]
  intro p _
  split
  · rename_i e he
    simpa using h e (List.getElem?_mem he)
  · simp

theorem table_find_eq_some {keys_size hash p : Nat} {t : List (Nat × List Nat)}
    {key_buffer : List Nat} {e : Nat × List Nat} (he : t[p]? = some e)
    (hm : e.1 = hash ∧ memcmp_eq e.2 key_buffer keys_size = true)
    (hfirst : ∀ q e', q < p → t[q]? = some e' →
      ¬ (e'.1 = hash ∧ memcmp_eq e'.2 key_buffer keys_size = true)) :
    table_find keys_size t hash key_buffer = some p := by
  unfold table_find
  apply find?_range_first
  · simp only [he, decide_eq_true_eq]
    exact hm
  · intro q hq
    split
    · rename_i e' he'
      exact decide_eq_false (hfirst q e' hq he')
    · rfl
  · by_contra hcon
    rw [List.getElem?_eq_none (by omega)] at he
    cases he

theorem memcmp_eq_iff (a b : List Nat) (n : Nat) :
    memcmp_eq a b n = true ↔ a.take n = b.take n := by
  unfold memcmp_eq
  exact beq_iff_eq

/-! ## One step on the list of entries -/

theorem table_step_spec (view_def : ViewDefinition) (t : List (Nat × List Nat)) (hash : Nat)
    (key_buffer : List Nat) (drec : fds_drec)
    (hlen : ∀ e ∈ t, e.2.length = view_def.keys_size + view_def.values_size)
    (hkb : view_def.keys_size ≤ key_buffer.length)
    (hvs : view_def.values_size = 8 * view_def.value_fields.length)
    (hsup : ∀ f ∈ view_def.value_fields, value_field_supported f = true)
    (hread : ∀ f ∈ view_def.value_fields, value_field_readable f drec = true) :
    ∃ t' p data' value',
      table_step view_def t hash key_buffer drec = .ok t' ∧
      (table_find view_def.keys_size t hash key_buffer = some p ∨
        (table_find view_def.keys_size t hash key_buffer = none ∧ p = t.length)) ∧
      aggregate_values view_def.value_fields drec
        (fold_start view_def t p (key_buffer.take view_def.keys_size)) view_def.keys_size =
          .ok (data', value') ∧
      (fold_start view_def t p (key_buffer.take view_def.keys_size)).take view_def.keys_size =
        key_buffer.take view_def.keys_size ∧
      t'[p]? = some (hash, data') ∧
      (∀ q : Nat, q ≠ p → t'[q]? = t[q]?) ∧
      (∀ e ∈ t', e.2.length = view_def.keys_size + view_def.values_size) := by
  unfold table_step
  cases hfind : table_find view_def.keys_size t hash key_buffer with
  | some p =>
    obtain ⟨e, he, hh, hm⟩ := table_find_some hfind
    have hp : p < t.length := by
      by_contra hcon
      rw [List.getElem?_eq_none (by omega)] at he
      cases he
    have hel := hlen e (List.getElem?_mem he)
    obtain ⟨d, c, hd⟩ := aggregate_values_total drec view_def.value_fields e.2
      view_def.keys_size hsup hread (by omega)
    obtain ⟨_, hdl, _⟩ := aggregate_values_ok _ _ _ _ _ _ hd
    refine ⟨t.set p (e.1, d), p, d, c, ?_, Or.inl rfl, ?_, ?_, ?_, ?_, ?_⟩
    · simp only [table_fold, he, hd]
    · simp only [fold_start, he]
      exact hd
    · simp only [fold_start, he]
      exact (memcmp_eq_iff _ _ _).mp hm
    · rw [List.getElem?_set_self hp, hh]
    · intro q hq
      rw [List.getElem?_set_ne (fun h => hq h.symm)]
    · intro e' he'
      obtain ⟨q, hq⟩ := List.getElem?_of_mem he'
      by_cases hqp : q = p
      · subst hqp
        rw [List.getElem?_set_self hp] at hq
        injection hq with hq
        subst hq
        simp only
        omega
      · rw [List.getElem?_set_ne (fun h => hqp h.symm)] at hq
        exact hlen e' (List.getElem?_mem hq)
  | none =>
    have hr : mem_read key_buffer 0 view_def.keys_size =
        .ok (key_buffer.take view_def.keys_size) := by
      unfold mem_read
      rw [if_pos (by omega)]
      rfl
    have hkl : (key_buffer.take view_def.keys_size).length = view_def.keys_size := by
      rw [List.length_take]
      omega
    obtain ⟨d, c, hd⟩ := aggregate_values_total drec view_def.value_fields
      (key_buffer.take view_def.keys_size ++ List.replicate view_def.values_size 0)
      view_def.keys_size hsup hread (by
        rw [List.length_append, List.length_replicate, hkl]
        omega)
    obtain ⟨_, hdl, _⟩ := aggregate_values_ok _ _ _ _ _ _ hd
    have hnone : t[t.length]? = none := List.getElem?_eq_none (le_refl _)
    refine ⟨t ++ [(hash, d)], t.length, d, c, ?_, Or.inr ⟨rfl, rfl⟩, ?_, ?_, ?_, ?_, ?_⟩
    · simp only [hr, table_fold]
      rw [List.getElem?_append_right (le_refl _)]
      simp only [Nat.sub_self, List.getElem?_cons_zero, hd]
      rw [List.set_append_right _ _ (le_refl _)]
      simp
    · simp only [fold_start, hnone]
      exact hd
    · simp only [fold_start, hnone]
      exact List.take_left' hkl
    · rw [List.getElem?_append_right (le_refl _)]
      simp
    · intro q hq
      rcases Nat.lt_or_gt_of_ne hq with hlt | hgt
      · rw [List.getElem?_append_left hlt]
      · rw [List.getElem?_eq_none (by simp; omega), List.getElem?_eq_none (by omega)]
    · intro e' he'
      rcases List.mem_append.mp he' with h1 | h1
      · exact hlen e' h1
      · simp only [List.mem_singleton] at h1
        subst h1
        simp only
        rw [hdl, List.length_append, List.length_replicate, hkl]

theorem build_key_field_length {f : ViewField} {drec : fds_drec} {key_buffer buf' : List Nat}
    {key_value c : Nat}
    (h : build_key_field f drec key_buffer key_value = .ok (some (buf', c))) :
    buf'.length = key_buffer.length := by
  unfold build_key_field at h
  split at h
  · split at h
    · cases h
    · split at h
      · cases h
      · split at h
        · cases h
        · rename_i hw
          injection h with h
          injection h with h
          injection h with h1 h2
          subst h1
          exact mem_write_length hw
  · split at h
    · cases h
    · cases h
    · split at h
      · cases h
      · rename_i hw
        injection h with h
        injection h with h
        injection h with h1 h2
        subst h1
        exact mem_write_length hw
  · split at h
    · cases h
    · cases h
    · split at h
      · cases h
      · rename_i hw
        injection h with h
        injection h with h
        injection h with h1 h2
        subst h1
        exact mem_write_length hw
  · cases h

theorem build_key_loop_length (drec : fds_drec) :
    ∀ (fs : List ViewField) (key_buffer : List Nat) (key_value : Nat) (kr : KeyResult),
      build_key_loop fs drec key_buffer key_value = .ok kr →
      kr.key_buffer.length = key_buffer.length := by
  intro fs
  induction fs with
  | nil =>
    intro key_buffer key_value kr h
    unfold build_key_loop at h
    injection h with h
    subst h
    rfl
  | cons f fs ih =>
    intro key_buffer key_value kr h
    unfold build_key_loop at h
    split at h
    · cases h
    · injection h with h
      subst h
      rfl
    · rename_i b c hb
      rw [ih b c kr h]
      exact build_key_field_length hb

theorem build_key_length {view_def : ViewDefinition} {drec : fds_drec} {key_buffer : List Nat}
    {kr : KeyResult} (h : build_key view_def drec key_buffer = .ok kr) :
    kr.key_buffer.length = key_buffer.length :=
  build_key_loop_length drec _ _ _ _ h

theorem entries_data_len {X : Externals} {s : Aggregator} (hwf : WF X s) :
    ∀ e ∈ s.entries, e.2.length = s.m_view_def.keys_size + s.m_view_def.values_size := by
  intro e he
  rw [entries_eq_map hwf] at he
  obtain ⟨r, hr, rfl⟩ := List.mem_map.mp he
  exact hwf.data_len r hr

theorem process_record_spec {X : Externals} {s : Aggregator} {drec : fds_drec}
    {key_buffer : List Nat} {kr : KeyResult} (hwf : WF X s)
    (hks : s.m_view_def.keys_size ≤ key_buffer_size)
    (hkb : key_buffer.length = key_buffer_size)
    (hb : build_key s.m_view_def drec key_buffer = .ok kr) (hrc : kr.rc ≠ 0)
    (hvs : s.m_view_def.values_size = 8 * s.m_view_def.value_fields.length)
    (hsup : ∀ f ∈ s.m_view_def.value_fields, value_field_supported f = true)
    (hread : ∀ f ∈ s.m_view_def.value_fields, value_field_readable f drec = true) :
    ∃ s' p data' value',
      process_record X s drec key_buffer true = .ok s' ∧ WF X s' ∧
      s'.m_view_def = s.m_view_def ∧
      (table_find s.m_view_def.keys_size s.entries
          (X.XXH3_64bits (kr.key_buffer.take X.sizeof_keys_size)) kr.key_buffer = some p ∨
        (table_find s.m_view_def.keys_size s.entries
          (X.XXH3_64bits (kr.key_buffer.take X.sizeof_keys_size)) kr.key_buffer = none ∧
          p = s.entries.length)) ∧
      aggregate_values s.m_view_def.value_fields drec
        (fold_start s.m_view_def s.entries p (kr.key_buffer.take s.m_view_def.keys_size))
        s.m_view_def.keys_size = .ok (data', value') ∧
      (fold_start s.m_view_def s.entries p
        (kr.key_buffer.take s.m_view_def.keys_size)).take s.m_view_def.keys_size =
          kr.key_buffer.take s.m_view_def.keys_size ∧
      s'.entries[p]? =
        some (X.XXH3_64bits (kr.key_buffer.take X.sizeof_keys_size), data') ∧
      (∀ q : Nat, q ≠ p → s'.entries[q]? = s.entries[q]?) := by
  have hkl : s.m_view_def.keys_size ≤ kr.key_buffer.length := by
    rw [build_key_length hb, hkb]
    exact hks
  obtain ⟨t', p, d, c, h1, h2, h3, h4, h5, h6, _⟩ := table_step_spec s.m_view_def s.entries
    (X.XXH3_64bits (kr.key_buffer.take X.sizeof_keys_size)) kr.key_buffer drec
    (entries_data_len hwf) hkl hvs hsup hread
  have ht := process_record_table hwf drec key_buffer
  unfold table_process at ht
  simp only [hks, not_true_eq_false, if_false, hb, hrc, h1] at ht
  cases hp : process_record X s drec key_buffer true with
  | error e =>
    rw [hp] at ht
    cases ht
  | ok s' =>
    rw [hp] at ht
    simp only [Except.map] at ht
    injection ht with ht
    subst ht
    exact ⟨s', p, d, c, rfl, WF_process_record hwf hp, process_record_view_def hp, h2, h3, h4,
      h5, h6⟩

theorem table_fold_inv {view_def : ViewDefinition} {drec : fds_drec}
    {t t' : List (Nat × List Nat)} {p : Nat} (h : table_fold view_def drec t p = .ok t') :
    ∃ e data' value', t[p]? = some e ∧
      aggregate_values view_def.value_fields drec e.2 view_def.keys_size =
        .ok (data', value') ∧
      t' = t.set p (e.1, data') := by
  unfold table_fold at h
  split at h
  · cases h
  · rename_i e he
    split at h
    · cases h
    · rename_i d c hd
      injection h with h
      exact ⟨e, d, c, he, hd, h.symm⟩

theorem table_step_inv {view_def : ViewDefinition} {t t' : List (Nat × List Nat)} {hash : Nat}
    {key_buffer : List Nat} {drec : fds_drec}
    (h : table_step view_def t hash key_buffer drec = .ok t') :
    ∃ p data' value',
      (table_find view_def.keys_size t hash key_buffer = some p ∨
        (table_find view_def.keys_size t hash key_buffer = none ∧ p = t.length)) ∧
      aggregate_values view_def.value_fields drec
        (fold_start view_def t p (key_buffer.take view_def.keys_size)) view_def.keys_size =
          .ok (data', value') ∧
      (fold_start view_def t p (key_buffer.take view_def.keys_size)).take view_def.keys_size =
        key_buffer.take view_def.keys_size ∧
      t'[p]? = some (hash, data') ∧
      (∀ q : Nat, q ≠ p → t'[q]? = t[q]?) := by
  unfold table_step at h
  cases hfind : table_find view_def.keys_size t hash key_buffer with
  | some p =>
    simp only [hfind] at h
    obtain ⟨e, d, c, he, hd, rfl⟩ := table_fold_inv h
    obtain ⟨e', he', hh, hm⟩ := table_find_some hfind
    rw [he] at he'
    injection he' with he'
    subst he'
    have hp : p < t.length := by
      by_contra hcon
      rw [List.getElem?_eq_none (by omega)] at he
      cases he
    refine ⟨p, d, c, Or.inl rfl, ?_, ?_, ?_, ?_⟩
    · simp only [fold_start, he]
      exact hd
    · simp only [fold_start, he]
      exact (memcmp_eq_iff _ _ _).mp hm
    · rw [List.getElem?_set_self hp, hh]
    · intro q hq
      rw [List.getElem?_set_ne (fun h => hq h.symm)]
  | none =>
    simp only [hfind] at h
    split at h
    · cases h
    · rename_i key hkey
      have hkl := mem_read_length hkey
      have hkeq : key = key_buffer.take view_def.keys_size := by
        unfold mem_read at hkey
        split at hkey
        · injection hkey with hkey
          rw [← hkey]
          rfl
        · cases hkey
      obtain ⟨e, d, c, he, hd, rfl⟩ := table_fold_inv h
      rw [List.getElem?_append_right (le_refl _)] at he
      simp only [Nat.sub_self, List.getElem?_cons_zero, Option.some.injEq] at he
      subst he
      have hnone : t[t.length]? = none := List.getElem?_eq_none (le_refl _)
      refine ⟨t.length, d, c, Or.inr ⟨rfl, rfl⟩, ?_, ?_, ?_, ?_⟩
      · simp only [fold_start, hnone]
        rw [← hkeq]
        exact hd
      · simp only [fold_start, hnone]
        rw [← hkeq]
        exact List.take_left' hkl
      · rw [List.set_append_right _ _ (le_refl _)]
        simp
      · intro q hq
        rw [List.set_append_right _ _ (le_refl _)]
        simp only [Nat.sub_self, List.set_cons_zero]
        rcases Nat.lt_or_gt_of_ne hq with hlt | hgt
        · rw [List.getElem?_append_left hlt]
        · rw [List.getElem?_eq_none (by simp; omega), List.getElem?_eq_none (by omega)]

theorem process_record_inv {X : Externals} {s s' : Aggregator} {drec : fds_drec}
    {key_buffer : List Nat} {kr : KeyResult} (hwf : WF X s)
    (hb : build_key s.m_view_def drec key_buffer = .ok kr) (hrc : kr.rc ≠ 0)
    (h : process_record X s drec key_buffer true = .ok s') :
    ∃ p data' value',
      (table_find s.m_view_def.keys_size s.entries
          (X.XXH3_64bits (kr.key_buffer.take X.sizeof_keys_size)) kr.key_buffer = some p ∨
        (table_find s.m_view_def.keys_size s.entries
          (X.XXH3_64bits (kr.key_buffer.take X.sizeof_keys_size)) kr.key_buffer = none ∧
          p = s.entries.length)) ∧
      aggregate_values s.m_view_def.value_fields drec
        (fold_start s.m_view_def s.entries p (kr.key_buffer.take s.m_view_def.keys_size))
        s.m_view_def.keys_size = .ok (data', value') ∧
      (fold_start s.m_view_def s.entries p
        (kr.key_buffer.take s.m_view_def.keys_size)).take s.m_view_def.keys_size =
          kr.key_buffer.take s.m_view_def.keys_size ∧
      s'.entries[p]? =
        some (X.XXH3_64bits (kr.key_buffer.take X.sizeof_keys_size), data') ∧
      (∀ q : Nat, q ≠ p → s'.entries[q]? = s.entries[q]?) := by
  have hks : s.m_view_def.keys_size ≤ key_buffer_size := by
    by_contra hcon
    unfold process_record at h
    simp only [hcon, not_false_eq_true, if_true] at h
    cases h
  have ht := process_record_table hwf drec key_buffer
  rw [h] at ht
  unfold table_process at ht
  simp only [hks, not_true_eq_false, if_false, hb, hrc, Except.map] at ht
  exact table_step_inv ht.symm

theorem process_all_view_def {X : Externals} (inputs : List (fds_drec × List Nat)) :
    ∀ {s s' : Aggregator}, process_all X s inputs = .ok s' → s'.m_view_def = s.m_view_def := by
  induction inputs with
  | nil =>
    intro s s' h
    unfold process_all at h
    injection h with h
    rw [h]
  | cons a rest ih =>
    intro s s' h
    obtain ⟨drec, key_buffer⟩ := a
    unfold process_all at h
    split at h
    · cases h
    · rename_i s1 h1
      rw [ih h, process_record_view_def h1]

theorem table_step_miss {view_def : ViewDefinition} {t : List (Nat × List Nat)} {hash : Nat}
    {key_buffer key data' : List Nat} {drec : fds_drec} {value' : Nat}
    (hfind : table_find view_def.keys_size t hash key_buffer = none)
    (hkey : mem_read key_buffer 0 view_def.keys_size = .ok key)
    (hfold : aggregate_values view_def.value_fields drec
      (key ++ List.replicate view_def.values_size 0) view_def.keys_size = .ok (data', value')) :
    table_step view_def t hash key_buffer drec = .ok (t ++ [(hash, data')]) := by
  unfold table_step
  simp only [hfind, hkey, table_fold]
  rw [List.getElem?_append_right (le_refl _)]
  simp only [Nat.sub_self, List.getElem?_cons_zero, hfold]
  rw [List.set_append_right _ _ (le_refl _)]
  simp

theorem table_step_hit {view_def : ViewDefinition} {t : List (Nat × List Nat)} {hash p : Nat}
    {key_buffer data' : List Nat} {drec : fds_drec} {value' : Nat} {e : Nat × List Nat}
    (hfind : table_find view_def.keys_size t hash key_buffer = some p)
    (he : t[p]? = some e)
    (hfold : aggregate_values view_def.value_fields drec e.2 view_def.keys_size =
      .ok (data', value')) :
    table_step view_def t hash key_buffer drec = .ok (t.set p (e.1, data')) := by
  unfold table_step
  simp only [hfind, table_fold, he, hfold]

theorem records_data_eq {X : Externals} {s : Aggregator} (hwf : WF X s) :
    s.records_data = s.entries.map fun e => some e.2 := by
  unfold Aggregator.records_data
  rw [entries_eq_map hwf, hwf.records, List.map_map]
  apply List.ext_getElem?
  intro p
  rw [List.getElem?_map, List.getElem?_map]
  by_cases hp : p < s.heap.length
  · rw [List.getElem?_range hp, List.getElem?_eq_getElem hp]
    simp [List.getElem?_eq_getElem hp]
  · rw [List.getElem?_eq_none (by simp; omega), List.getElem?_eq_none (by omega)]
    rfl

theorem process_all_entries {X : Externals} {view_def : ViewDefinition}
    {inputs : List (fds_drec × List Nat)} {t : List (Nat × List Nat)}
    (hB : 0 < X.BUCKETS_COUNT) (h : table_all X view_def [] inputs = .ok t) :
    ∃ s, process_all X (Aggregator.init X view_def) inputs = .ok s ∧ WF X s ∧ s.entries = t := by
  have hwf := WF_init X view_def hB
  have ht := process_all_table inputs hwf
  have he : (Aggregator.init X view_def).entries = [] := rfl
  rw [he] at ht
  change _ = table_all X view_def [] inputs at ht
  rw [h] at ht
  cases hp : process_all X (Aggregator.init X view_def) inputs with
  | error e =>
    rw [hp] at ht
    cases ht
  | ok s =>
    rw [hp] at ht
    simp only [Except.map] at ht
    injection ht with ht
    exact ⟨s, rfl, WF_process_all inputs hwf hp, ht⟩

theorem build_key_dst_view (a b c d : Nat) (bytes key_buffer : List Nat)
    (hk : key_buffer.length = key_buffer_size) :
    build_key Sample.dst_view (Sample.flow4 a b c d bytes) key_buffer =
      .ok ⟨1, Sample.ip4_key a b c d ++ key_buffer.drop 17, 17⟩ := by
  have hl : (Sample.ip4_key a b c d).length = 17 := rfl
  have hw : mem_write key_buffer 0
      (IPAddress.bytes ⟨4, [a, b, c, d] ++ List.replicate 12 0⟩) =
      .ok (Sample.ip4_key a b c d ++ key_buffer.drop 17) := by
    change mem_write key_buffer 0 (Sample.ip4_key a b c d) = _
    unfold mem_write
    rw [if_pos (by rw [hk, hl]; decide), hl]
    rfl
  have ha : address_key (Sample.flow4 a b c d bytes) IPFIX.destinationIPv4Address
      IPFIX.destinationIPv6Address = .ok (some ⟨4, [a, b, c, d] ++ List.replicate 12 0⟩) := rfl
  unfold build_key
  simp only [Sample.dst_view, build_key_loop, build_key_field, ha, hw]
  rfl

theorem mem_read_key (key rest : List Nat) (n : Nat) (h : key.length = n) :
    mem_read (key ++ rest) 0 n = .ok key := by
  unfold mem_read
  rw [if_pos (by rw [List.length_append]; omega)]
  simp only [List.drop_zero]
  rw [List.take_left' h]

theorem memcmp_eq_key (d key rest : List Nat) (n : Nat) (h : key.length = n) :
    (memcmp_eq d (key ++ rest) n = true) ↔ d.take n = key := by
  rw [memcmp_eq_iff, List.take_left' h]

theorem table_process_dst_view (X : Externals) (hsz : X.sizeof_keys_size ≤ 17)
    (t : List (Nat × List Nat)) (a b c d : Nat) (bytes key_buffer : List Nat)
    (hk : key_buffer.length = key_buffer_size) :
    table_process X Sample.dst_view t (Sample.flow4 a b c d bytes) key_buffer =
      table_step Sample.dst_view t
        (X.XXH3_64bits ((Sample.ip4_key a b c d).take X.sizeof_keys_size))
        (Sample.ip4_key a b c d ++ key_buffer.drop 17) (Sample.flow4 a b c d bytes) := by
  have hks : Sample.dst_view.keys_size ≤ key_buffer_size := by decide
  have hl : (Sample.ip4_key a b c d).length = 17 := rfl
  unfold table_process
  simp only [hks, not_true_eq_false, if_false, build_key_dst_view a b c d bytes key_buffer hk,
    one_ne_zero]
  rw [List.take_append_of_le_length (by rw [hl]; exact hsz)]

theorem table_process_of_build_key (X : Externals) {view_def : ViewDefinition}
    {drec : fds_drec} {key_buffer : List Nat} {kr : KeyResult} (t : List (Nat × List Nat))
    (hks : view_def.keys_size ≤ key_buffer_size)
    (hb : build_key view_def drec key_buffer = .ok kr) (hrc : kr.rc ≠ 0) :
    table_process X view_def t drec key_buffer =
      table_step view_def t (X.XXH3_64bits (kr.key_buffer.take X.sizeof_keys_size))
        kr.key_buffer drec := by
  unfold table_process
  simp only [hks, not_true_eq_false, if_false, hb, hrc]

theorem build_key_one_byte (view_def : ViewDefinition) (drec : fds_drec) (b : Nat)
    {pen id : Nat} {data_type : DataType} {drec_field : fds_drec_field} (key_buffer : List Nat)
    (hv : view_def.key_fields = [⟨.VerbatimKey, pen, id, data_type⟩])
    (hf : fds_drec_find drec pen id = some drec_field)
    (hvb : verbatim_bytes data_type drec_field = .ok [b])
    (hk : key_buffer.length = key_buffer_size) :
    build_key view_def drec key_buffer = .ok ⟨1, [b] ++ key_buffer.drop 1, 1⟩ := by
  have hw : mem_write key_buffer 0 [b] = .ok ([b] ++ key_buffer.drop 1) := by
    unfold mem_write
    rw [if_pos (by rw [hk]; show 0 + 1 ≤ 1024; decide)]
    rfl
  unfold build_key
  simp only [hv, build_key_loop, build_key_field, hf, hvb, hw]
  rfl

theorem count_view_first (X : Externals) (k : List Nat) (hk : k.length = key_buffer_size) :
    table_process X Sample.count_view [] Sample.tcp_record k =
      .ok [(X.XXH3_64bits (([6] ++ k.drop 1).take X.sizeof_keys_size),
        [6] ++ le_bytes 8 1)] := by
  have hb := build_key_one_byte Sample.count_view Sample.tcp_record 6 k rfl rfl rfl hk
  rw [table_process_of_build_key X [] (by decide) hb (by simp)]
  exact table_step_miss (table_find_eq_none (by simp)) (mem_read_key [6] _ _ rfl) rfl

theorem count_view_same_stack (X : Externals) (k : List Nat) (hk : k.length = key_buffer_size) :
    table_process X Sample.count_view
      [(X.XXH3_64bits (([6] ++ k.drop 1).take X.sizeof_keys_size), [6] ++ le_bytes 8 1)]
      Sample.tcp_record k =
      .ok [(X.XXH3_64bits (([6] ++ k.drop 1).take X.sizeof_keys_size),
        [6] ++ le_bytes 8 2)] := by
  have hb := build_key_one_byte Sample.count_view Sample.tcp_record 6 k rfl rfl rfl hk
  rw [table_process_of_build_key X _ (by decide) hb (by simp)]
  have hm : memcmp_eq ([6] ++ le_bytes 8 1) ([6] ++ k.drop 1) Sample.count_view.keys_size =
      true := (memcmp_eq_key _ [6] _ _ rfl).mpr rfl
  have hfold : aggregate_values Sample.count_view.value_fields Sample.tcp_record
      ([6] ++ le_bytes 8 1) Sample.count_view.keys_size = .ok ([6] ++ le_bytes 8 2, 9) := rfl
  generalize X.XXH3_64bits (([6] ++ k.drop 1).take X.sizeof_keys_size) = h
  have hget : [(h, [6] ++ le_bytes 8 1)][0]? = some (h, [6] ++ le_bytes 8 1) := rfl
  exact table_step_hit (p := 0)
    (table_find_eq_some hget ⟨rfl, hm⟩ (fun q _ hq _ => absurd hq (Nat.not_lt_zero q)))
    hget hfold

theorem count_view_other_stack (X : Externals) (k1 k2 : List Nat)
    (hk2 : k2.length = key_buffer_size)
    (hh : X.XXH3_64bits (([6] ++ k1.drop 1).take X.sizeof_keys_size) ≠
      X.XXH3_64bits (([6] ++ k2.drop 1).take X.sizeof_keys_size)) :
    table_process X Sample.count_view
      [(X.XXH3_64bits (([6] ++ k1.drop 1).take X.sizeof_keys_size), [6] ++ le_bytes 8 1)]
      Sample.tcp_record k2 =
      .ok [(X.XXH3_64bits (([6] ++ k1.drop 1).take X.sizeof_keys_size), [6] ++ le_bytes 8 1),
        (X.XXH3_64bits (([6] ++ k2.drop 1).take X.sizeof_keys_size),
          [6] ++ le_bytes 8 1)] := by
  have hb := build_key_one_byte Sample.count_view Sample.tcp_record 6 k2 rfl rfl rfl hk2
  rw [table_process_of_build_key X _ (by decide) hb (by simp)]
  refine table_step_miss (table_find_eq_none ?_) (mem_read_key [6] _ _ rfl) rfl
  intro e he
  rw [List.mem_singleton] at he
  subst he
  rintro ⟨h, _⟩
  exact hh h

theorem process_record_outcome_result (X : Externals) (s : Aggregator) (drec : fds_drec)
    (key_buffer : List Nat) (calloc_ok : Bool) :
    (process_record_outcome X s drec key_buffer calloc_ok).result =
      process_record X s drec key_buffer calloc_ok := by
  unfold process_record_outcome process_record
  by_cases hks : s.m_view_def.keys_size ≤ key_buffer_size
  · simp only [hks, not_true_eq_false, if_false]
    cases build_key s.m_view_def drec key_buffer with
    | error e => rfl
    | ok kr =>
      simp only
      by_cases hrc : kr.rc = 0
      · simp only [hrc, if_true]
        rfl
      · simp only [hrc, if_false]
        cases find_slot s (X.XXH3_64bits (kr.key_buffer.take X.sizeof_keys_size)) kr.key_buffer
          (s.heap.length + 1)
          (.bucket (X.XXH3_64bits (kr.key_buffer.take X.sizeof_keys_size) % X.BUCKETS_COUNT)) with
        | error e => rfl
        | ok arec =>
          simp only
          cases s.load arec with
          | error e => rfl
          | ok o =>
            cases o with
            | some p =>
              simp only
              cases fold_entry s p drec <;> rfl
            | none =>
              simp only
              cases calloc_ok with
              | false => rfl
              | true =>
                simp only [Bool.true_eq_false, if_false]
                cases mem_read kr.key_buffer 0 s.m_view_def.keys_size with
                | error e => rfl
                | ok key =>
                  simp only
                  cases fold_entry (link_entry s arec
                    (X.XXH3_64bits (kr.key_buffer.take X.sizeof_keys_size)) key)
                    s.heap.length drec <;> rfl
  · simp only [hks, not_false_eq_true, if_true]
    rfl

theorem process_record_outcome_bad_alloc {X : Externals} {s : Aggregator} {drec : fds_drec}
    {key_buffer : List Nat} {kr : KeyResult} (hwf : WF X s)
    (hks : s.m_view_def.keys_size ≤ key_buffer_size)
    (hb : build_key s.m_view_def drec key_buffer = .ok kr) (hrc : kr.rc ≠ 0)
    (hnew : table_find s.m_view_def.keys_size s.entries
      (X.XXH3_64bits (kr.key_buffer.take X.sizeof_keys_size)) kr.key_buffer = none) :
    process_record_outcome X s drec key_buffer false = .thrown .bad_alloc s := by
  obtain ⟨arec, h1, h2, _⟩ := find_slot_WF hwf
    (X.XXH3_64bits (kr.key_buffer.take X.sizeof_keys_size)) kr.key_buffer
  rw [lookup_eq_table_find hwf, hnew] at h2
  unfold process_record_outcome
  simp only [hks, not_true_eq_false, if_false, hb, hrc, h1, h2, if_true]

theorem aggregate_value_in_bounds (f : ViewField) (drec : fds_drec) (data : List Nat)
    (value : Nat) (h : value + 8 ≤ data.length) :
    aggregate_value f drec data value ≠ .error .out_of_bounds := by
  have hadd : ∀ x, add_u64 data value x ≠ .error .out_of_bounds := by
    intro x hx
    obtain ⟨d, hd⟩ := add_u64_total x h
    rw [hd] at hx
    cases hx
  have hu : ∀ fld : fds_drec_field, get_uint fld ≠ .error .out_of_bounds := by
    intro fld
    unfold get_uint
    split <;> intro hx <;> cases hx
  have hi : ∀ fld : fds_drec_field, get_int fld ≠ .error .out_of_bounds := by
    intro fld
    unfold get_int
    split <;> intro hx <;> cases hx
  unfold aggregate_value
  split
  · split
    · intro hx
      cases hx
    · rename_i fld _
      split
      · cases hg : get_uint fld with
        | error e =>
          intro hx
          injection hx with hx
          subst hx
          exact hu fld hg
        | ok x => exact hadd x
      · cases hg : get_int fld with
        | error e =>
          intro hx
          injection hx with hx
          subst hx
          exact hi fld hg
        | ok x => exact hadd _
      · intro hx
        cases hx
  · exact hadd 1
  · intro hx
    cases hx

theorem aggregate_cursors_bounds (drec : fds_drec) :
    ∀ (fs : List ViewField) (data : List Nat) (value : Nat),
      value + 8 * fs.length ≤ data.length →
      (∀ (i c : Nat), (aggregate_cursors fs drec data value)[i]? = some c →
        value ≤ c ∧ c ≤ value + 8 * i ∧ c + 8 ≤ data.length) ∧
      aggregate_values fs drec data value ≠ .error .out_of_bounds := by
  intro fs
  induction fs with
  | nil =>
    intro data value _
    refine ⟨?_, ?_⟩
    · intro i c hc
      simp [aggregate_cursors] at hc
    · intro hx
      cases hx
  | cons f fs ih =>
    intro data value h
    simp only [List.length_cons] at h
    have hnb := aggregate_value_in_bounds f drec data value (by omega)
    cases hv : aggregate_value f drec data value with
    | error e =>
      refine ⟨?_, ?_⟩
      · intro i c hc
        simp only [aggregate_cursors, hv] at hc
        cases i with
        | zero =>
          simp only [List.getElem?_cons_zero, Option.some.injEq] at hc
          subst hc
          omega
        | succ i => simp at hc
      · simp only [aggregate_values, hv]
        intro hx
        injection hx with hx
        subst hx
        exact hnb hv
    | ok r =>
      obtain ⟨d1, v1⟩ := r
      obtain ⟨a1, a2, a3, _⟩ := aggregate_value_ok hv
      obtain ⟨b1, b2⟩ := ih d1 v1 (by omega)
      refine ⟨?_, ?_⟩
      · intro i c hc
        simp only [aggregate_cursors, hv] at hc
        cases i with
        | zero =>
          simp only [List.getElem?_cons_zero, Option.some.injEq] at hc
          subst hc
          omega
        | succ i =>
          simp only [List.getElem?_cons_succ] at hc
          obtain ⟨c1, c2, c3⟩ := b1 i c hc
          omega
      · simp only [aggregate_values, hv]
        exact b2

theorem verbatim_bytes_length {data_type : DataType} {drec_field : fds_drec_field}
    {bytes : List Nat} (h : verbatim_bytes data_type drec_field = .ok bytes) :
    verbatim_width data_type = some bytes.length := by
  have hu : ∀ w, (get_uint drec_field).map (le_bytes w) = .ok bytes → bytes.length = w := by
    intro w hw
    cases hg : get_uint drec_field with
    | error e =>
      rw [hg] at hw
      cases hw
    | ok v =>
      rw [hg] at hw
      simp only [Except.map] at hw
      injection hw with hw
      rw [← hw, le_bytes_length]
  have hi : ∀ w, (get_int drec_field).map (fun v => le_bytes w (int_bits w v)) = .ok bytes →
      bytes.length = w := by
    intro w hw
    cases hg : get_int drec_field with
    | error e =>
      rw [hg] at hw
      cases hw
    | ok v =>
      rw [hg] at hw
      simp only [Except.map] at hw
      injection hw with hw
      rw [← hw, le_bytes_length]
  cases data_type <;> simp only [verbatim_bytes] at h <;> simp only [verbatim_width]
  · rw [hu 1 h]
  · rw [hu 2 h]
  · rw [hu 4 h]
  · rw [hu 8 h]
  · rw [hi 1 h]
  · rw [hi 2 h]
  · rw [hi 4 h]
  · rw [hi 8 h]
  · cases h

theorem address_key_length {drec : fds_drec} {ipv4 ipv6 : Nat} {ip : IPAddress}
    (h : address_key drec ipv4 ipv6 = .ok (some ip)) : ip.bytes.length = sizeof_IPAddress := by
  unfold address_key at h
  split at h
  · rename_i fld _
    unfold make_ipv4_address at h
    split at h
    · rename_i b hb
      simp only [Except.map] at h
      injection h with h
      injection h with h
      subst h
      have := mem_read_length hb
      simp only [IPAddress.bytes, List.length_cons, List.length_append, List.length_replicate,
        sizeof_IPAddress]
      omega
    · cases h
  · split at h
    · rename_i fld _
      unfold make_ipv6_address at h
      split at h
      · rename_i b hb
        simp only [Except.map] at h
        injection h with h
        injection h with h
        subst h
        have := mem_read_length hb
        simp only [IPAddress.bytes, List.length_cons, sizeof_IPAddress]
        omega
      · cases h
    · cases h

theorem build_key_field_written {f : ViewField} {drec : fds_drec} {key_buffer buf2 : List Nat}
    {key_value cur2 : Nat}
    (h : build_key_field f drec key_buffer key_value = .ok (some (buf2, cur2))) :
    ∃ bytes, bytes.length = key_field_width f ∧ cur2 = key_value + key_field_width f ∧
      key_value + key_field_width f ≤ key_buffer.length ∧
      ∀ (other : List Nat) (cur : Nat), cur + key_field_width f ≤ other.length →
        build_key_field f drec other cur =
          .ok (some (other.take cur ++ bytes ++ other.drop (cur + key_field_width f),
            cur + key_field_width f)) := by
  unfold build_key_field at h
  unfold key_field_width
  split at h
  · rename_i hk
    split at h
    · cases h
    · rename_i fld hf
      split at h
      · cases h
      · rename_i bytes hvb
        split at h
        · cases h
        · rename_i b hw
          injection h with h
          injection h with h
          injection h with h1 h2
          have hwl := verbatim_bytes_length hvb
          obtain ⟨hroom, _⟩ := mem_write_ok hw
          refine ⟨bytes, by simp [hk, hwl], by simp [hk, hwl, h2], by simpa [hk, hwl] using hroom,
            ?_⟩
          intro other cur hroom'
          simp only [hk, hwl, Option.getD_some] at hroom' ⊢
          simp only [build_key_field, hk, hf, hvb, mem_write, if_pos hroom']
  · rename_i hk
    split at h
    · cases h
    · cases h
    · rename_i ip ha
      split at h
      · cases h
      · rename_i b hw
        injection h with h
        injection h with h
        injection h with h1 h2
        have hl := address_key_length ha
        obtain ⟨hroom, _⟩ := mem_write_ok hw
        refine ⟨ip.bytes, by simp [hk, hl], by simp [hk, h2], by simpa [hk, hl] using hroom, ?_⟩
        intro other cur hroom'
        simp only [build_key_field, hk, ha, mem_write, hl, if_pos hroom']
  · rename_i hk
    split at h
    · cases h
    · cases h
    · rename_i ip ha
      split at h
      · cases h
      · rename_i b hw
        injection h with h
        injection h with h
        injection h with h1 h2
        have hl := address_key_length ha
        obtain ⟨hroom, _⟩ := mem_write_ok hw
        refine ⟨ip.bytes, by simp [hk, hl], by simp [hk, h2], by simpa [hk, hl] using hroom, ?_⟩
        intro other cur hroom'
        simp only [build_key_field, hk, ha, mem_write, hl, if_pos hroom']
  · cases h

theorem take_write (buf bytes : List Nat) (cur : Nat) (hc : cur ≤ buf.length) (rest : List Nat) :
    (buf.take cur ++ bytes ++ rest).take (cur + bytes.length) = buf.take cur ++ bytes := by
  apply List.take_left'
  simp only [List.length_append, List.length_take]
  omega

theorem drop_write (buf bytes : List Nat) (cur k : Nat)
    (hc : cur + bytes.length ≤ buf.length) :
    (buf.take cur ++ bytes ++ buf.drop (cur + bytes.length)).drop (cur + bytes.length + k) =
      buf.drop (cur + bytes.length + k) := by
  have hl : (buf.take cur ++ bytes).length = cur + bytes.length := by
    simp only [List.length_append, List.length_take]
    omega
  rw [← hl, ← List.drop_drop, List.drop_left, List.drop_drop, hl]

theorem build_key_loop_written (drec : fds_drec) :
    ∀ (fs : List ViewField) (key_buffer : List Nat) (key_value : Nat) (kr : KeyResult),
      key_value ≤ key_buffer.length →
      build_key_loop fs drec key_buffer key_value = .ok kr → kr.rc = 1 →
      ∃ bytes, bytes.length = keys_width fs ∧ kr.key_value = key_value + keys_width fs ∧
        key_value + keys_width fs ≤ key_buffer.length ∧
        ∀ (other : List Nat) (cur : Nat), cur + keys_width fs ≤ other.length →
          build_key_loop fs drec other cur =
            .ok ⟨1, other.take cur ++ bytes ++ other.drop (cur + keys_width fs),
              cur + keys_width fs⟩ := by
  intro fs
  induction fs with
  | nil =>
    intro key_buffer key_value kr hcur h hrc
    unfold build_key_loop at h
    injection h with h
    subst h
    refine ⟨[], rfl, rfl, by simpa [keys_width] using hcur, ?_⟩
    intro other cur _
    simp [build_key_loop, keys_width]
  | cons f fs ih =>
    intro key_buffer key_value kr hcur h hrc
    have hw : keys_width (f :: fs) = key_field_width f + keys_width fs := by
      simp [keys_width]
    unfold build_key_loop at h
    split at h
    · cases h
    · injection h with h
      subst h
      cases hrc
    · rename_i b c hb
      obtain ⟨bytes1, hl1, hc1, hroom1, hall1⟩ := build_key_field_written hb
      have hbl : b.length = key_buffer.length := build_key_field_length hb
      obtain ⟨bytes2, hl2, hc2, hroom2, hall2⟩ := ih b c kr (by omega) h hrc
      refine ⟨bytes1 ++ bytes2, by rw [List.length_append, hl1, hl2, hw], by omega, by omega,
        ?_⟩
      intro other cur hroom
      rw [hw] at hroom ⊢
      have hlen : (other.take cur ++ bytes1 ++ other.drop (cur + key_field_width f)).length =
          other.length := by
        simp only [List.length_append, List.length_take, List.length_drop]
        omega
      simp only [build_key_loop, hall1 other cur (by omega)]
      rw [hall2 _ _ (by rw [hlen]; omega)]
      have ht := take_write other bytes1 cur (by omega) (other.drop (cur + key_field_width f))
      have hd := drop_write other bytes1 cur (keys_width fs) (by omega)
      rw [hl1] at ht hd
      rw [ht, hd]
      simp only [List.append_assoc, Nat.add_assoc]

theorem pow_succ_bytes (w : Nat) : 2 ^ (8 * (w + 1)) = 256 * 2 ^ (8 * w) := by
  rw [Nat.mul_add, Nat.pow_add]
  norm_num
  ring

theorem le_bytes_mod (w x : Nat) : le_bytes w (x % 2 ^ (8 * w)) = le_bytes w x := by
  induction w generalizing x with
  | zero => rfl
  | succ w ih =>
    simp only [le_bytes, pow_succ_bytes]
    rw [Nat.mod_mul_right_div_self, ih, Nat.mod_mul_right_mod]

theorem le_value_le_bytes (w x : Nat) : le_value (le_bytes w x) = x % 2 ^ (8 * w) := by
  induction w generalizing x with
  | zero => simp [le_bytes, le_value, Nat.mod_one]
  | succ w ih =>
    simp only [le_bytes, le_value, pow_succ_bytes, ih, Nat.mod_mod]
    rw [Nat.mod_mul]

theorem foldl_be_lt (data : List Nat) : ∀ (k acc : Nat), acc < 2 ^ (8 * k) →
    data.foldl (fun acc b => acc * 256 + b % 256) acc < 2 ^ (8 * (k + data.length)) := by
  induction data with
  | nil => intro k acc h; simpa using h
  | cons b bs ih =>
    intro k acc h
    simp only [List.foldl_cons, List.length_cons]
    have := ih (k + 1) (acc * 256 + b % 256) (by
      rw [pow_succ_bytes]
      have := Nat.mod_lt b (show 0 < 256 by decide)
      omega)
    rw [show k + (bs.length + 1) = k + 1 + bs.length by omega]
    exact this

theorem be_value_lt (data : List Nat) : be_value data < 2 ^ (8 * data.length) := by
  have := foldl_be_lt data 0 0 (by simp)
  simpa [be_value] using this

theorem pow_half (w : Nat) (hw : 1 ≤ w) : 2 ^ (8 * w) = 2 * 2 ^ (8 * w - 1) := by
  rw [← Nat.pow_succ']
  congr 1
  omega

theorem unsigned_exact (w x : Nat) (hx : x < 2 ^ (8 * w)) :
    spec_member_value false (le_bytes w x) = (x : Int) := by
  simp [spec_member_value, le_value_le_bytes, Nat.mod_eq_of_lt hx]

theorem signed_exact (w : Nat) (hw : 1 ≤ w) (v : Int)
    (hlo : -(2 ^ (8 * w - 1) : Nat) ≤ v) (hhi : v < (2 ^ (8 * w - 1) : Nat)) :
    spec_member_value true (le_bytes w (int_bits w v)) = v := by
  have hM := pow_half w hw
  have hpos : (0 : Int) < ((2 ^ (8 * w) : Nat) : Int) := by positivity
  have hcast : ((2 : Int) ^ (8 * w)) = ((2 ^ (8 * w) : Nat) : Int) := by push_cast; rfl
  have hnn : 0 ≤ v % ((2 ^ (8 * w) : Nat) : Int) := Int.emod_nonneg _ (by omega)
  have hlt : v % ((2 ^ (8 * w) : Nat) : Int) < ((2 ^ (8 * w) : Nat) : Int) :=
    Int.emod_lt_of_pos _ hpos
  have hbits : ((int_bits w v : Nat) : Int) = v % ((2 ^ (8 * w) : Nat) : Int) := by
    unfold int_bits
    rw [hcast, Int.toNat_of_nonneg hnn]
  have hbl : int_bits w v < 2 ^ (8 * w) := by
    have : ((int_bits w v : Nat) : Int) < ((2 ^ (8 * w) : Nat) : Int) := by rw [hbits]; exact hlt
    exact_mod_cast this
  have hval : le_value (le_bytes w (int_bits w v)) = int_bits w v := by
    rw [le_value_le_bytes, Nat.mod_eq_of_lt hbl]
  unfold spec_member_value
  rw [hval, le_bytes_length]
  by_cases hv : 0 ≤ v
  · have he : v % ((2 ^ (8 * w) : Nat) : Int) = v := Int.emod_eq_of_lt hv (by omega)
    rw [he] at hbits
    have : ¬ (true = true ∧ 2 ^ (8 * w - 1) ≤ int_bits w v) := by
      intro h
      have h2 : ((2 ^ (8 * w - 1) : Nat) : Int) ≤ ((int_bits w v : Nat) : Int) := by
        exact_mod_cast h.2
      omega
    rw [if_neg this, hbits]
  · have he : v % ((2 ^ (8 * w) : Nat) : Int) = v + ((2 ^ (8 * w) : Nat) : Int) := by
      rw [← Int.add_mul_emod_self_left v _ 1, Int.mul_one]
      exact Int.emod_eq_of_lt (by omega) (by omega)
    rw [he] at hbits
    have : (true = true ∧ 2 ^ (8 * w - 1) ≤ int_bits w v) := by
      refine ⟨rfl, ?_⟩
      have h2 : ((2 ^ (8 * w - 1) : Nat) : Int) ≤ ((int_bits w v : Nat) : Int) := by
        rw [hbits]; omega
      exact_mod_cast h2
    rw [if_pos this, hbits]
    push_cast
    ring


theorem le_bytes_lt (w : Nat) : ∀ (v : Nat), ∀ b ∈ le_bytes w v, b < 256 := by
  induction w with
  | zero => intro v b hb; simp [le_bytes] at hb
  | succ w ih =>
    intro v b hb
    simp only [le_bytes, List.mem_cons] at hb
    rcases hb with hb | hb
    · subst hb; exact Nat.mod_lt _ (by decide)
    · exact ih _ b hb

theorem unsigned_bits (w x : Nat) : (((x : Int) % (2 : Int) ^ (8 * w)).toNat) = x % 2 ^ (8 * w) := by
  have : ((x : Int) % (2 : Int) ^ (8 * w)) = ((x % 2 ^ (8 * w) : Nat) : Int) := by
    push_cast
    rfl
  rw [this, Int.toNat_natCast]

theorem get_uint_value (drec_field : fds_drec_field)
    (h1 : 1 ≤ drec_field.data.length) (h8 : drec_field.data.length ≤ 8) :
    get_uint drec_field = .ok (be_value drec_field.data) := by
  have hlt : be_value drec_field.data < 2 ^ 64 :=
    lt_of_lt_of_le (be_value_lt _) (Nat.pow_le_pow_right (by decide) (by omega))
  unfold get_uint fds_get_uint_be
  rw [if_neg (by omega)]
  simp only [Nat.mod_eq_of_lt hlt]

theorem get_int_value (drec_field : fds_drec_field)
    (h1 : 1 ≤ drec_field.data.length) (h8 : drec_field.data.length ≤ 8) :
    get_int drec_field = .ok (spec_decoded true drec_field.data) := by
  unfold get_int fds_get_int_be spec_decoded
  rw [if_neg (by omega)]
  by_cases h : be_value drec_field.data < 2 ^ (8 * drec_field.data.length - 1)
  · rw [if_pos h, if_neg (by omega)]
  · rw [if_neg h, if_pos ⟨rfl, by omega⟩]

theorem verbatim_bytes_spec (data_type : DataType) (drec_field : fds_drec_field) (w : Nat)
    (hw : verbatim_width data_type = some w)
    (h1 : 1 ≤ drec_field.data.length) (h8 : drec_field.data.length ≤ 8) :
    verbatim_bytes data_type drec_field =
      .ok (le_bytes w
        (spec_decoded (signed_type data_type) drec_field.data % (2 : Int) ^ (8 * w)).toNat) := by
  have hu := get_uint_value drec_field h1 h8
  have hi := get_int_value drec_field h1 h8
  have hun : spec_decoded false drec_field.data = (be_value drec_field.data : Int) := by
    simp [spec_decoded]
  cases data_type <;> simp only [verbatim_width, Option.some.injEq, reduceCtorEq] at hw <;>
    subst hw <;>
    simp only [verbatim_bytes, signed_type, hu, hi, Except.map, hun, unsigned_bits,
      le_bytes_mod, int_bits]

theorem spec_decoded_bounds (signed : Bool) (data : List Nat) (h1 : 1 ≤ data.length) :
    (signed = false → 0 ≤ spec_decoded signed data ∧
      spec_decoded signed data < ((2 ^ (8 * data.length) : Nat) : Int)) ∧
    (signed = true → -((2 ^ (8 * data.length - 1) : Nat) : Int) ≤ spec_decoded signed data ∧
      spec_decoded signed data < ((2 ^ (8 * data.length - 1) : Nat) : Int)) := by
  have hlt := be_value_lt data
  have hM := pow_half data.length h1
  constructor
  · intro hs
    subst hs
    simp only [spec_decoded, Bool.false_eq_true, false_and, if_false]
    exact ⟨by positivity, by exact_mod_cast hlt⟩
  · intro hs
    subst hs
    unfold spec_decoded
    by_cases h : 2 ^ (8 * data.length - 1) ≤ be_value data
    · rw [if_pos ⟨rfl, h⟩]
      have h2 : ((2 ^ (8 * data.length - 1) : Nat) : Int) ≤ (be_value data : Int) := by
        exact_mod_cast h
      have h3 : (be_value data : Int) < ((2 ^ (8 * data.length) : Nat) : Int) := by
        exact_mod_cast hlt
      have h4 : ((2 : Int) ^ (8 * data.length)) = ((2 ^ (8 * data.length) : Nat) : Int) := by
        push_cast; rfl
      rw [h4]
      omega
    · rw [if_neg (by intro hh; exact h hh.2)]
      have h2 : (be_value data : Int) < ((2 ^ (8 * data.length - 1) : Nat) : Int) := by
        exact_mod_cast (Nat.lt_of_not_le h)
      omega

theorem verbatim_width_pos {data_type : DataType} {w : Nat}
    (hw : verbatim_width data_type = some w) : 1 ≤ w := by
  cases data_type <;> simp only [verbatim_width, Option.some.injEq, reduceCtorEq] at hw <;>
    omega

/-! ## The chain of a bucket and the frame of a call -/

theorem chain_eq_members {X : Externals} {s : Aggregator} (hwf : WF X s) {i : Nat}
    (hi : i < X.BUCKETS_COUNT) : s.chain i = bucket_members X.BUCKETS_COUNT s.heap i := by
  obtain ⟨o, ho, hc⟩ := hwf.chains i hi
  unfold Aggregator.chain
  rw [ho]
  exact chain_from_of_chain hc _ (length_bucket_members_le _ _ _)

theorem fold_entry_frame {s s' : Aggregator} {p : Nat} {drec : fds_drec}
    (h : fold_entry s p drec = .ok s') :
    s'.m_view_def = s.m_view_def ∧ s'.m_buckets = s.m_buckets ∧ s'.m_records = s.m_records ∧
    s'.heap.length = s.heap.length ∧
    ∀ (q : Nat) (r : AggregateRecord), s.heap[q]? = some r →
      ∃ r', s'.heap[q]? = some r' ∧ r'.next = r.next ∧ r'.hash = r.hash ∧
        r'.data.take s.m_view_def.keys_size = r.data.take s.m_view_def.keys_size ∧
        (q ≠ p → r'.data = r.data) := by
  obtain ⟨r, data', value', hr, hv, rfl⟩ := fold_entry_ok h
  obtain ⟨_, _, htake⟩ := aggregate_values_ok _ _ _ _ _ _ hv
  refine ⟨rfl, rfl, rfl, by simp, ?_⟩
  intro q r0 hq
  show ∃ r', (s.heap.set p { r with data := data' })[q]? = some r' ∧ _
  rw [getElem?_set_data hr, hq]
  by_cases hqp : q = p
  · subst hqp
    rw [hr] at hq
    injection hq with hq
    subst hq
    exact ⟨{ r with data := data' }, by simp, rfl, rfl, htake _ (le_refl _),
      fun hne => absurd rfl hne⟩
  · exact ⟨r0, by simp [hqp], rfl, rfl, rfl, fun _ => rfl⟩

theorem mem_read_front (buf : List Nat) (n : Nat) (h : n ≤ buf.length) :
    mem_read buf 0 n = .ok (buf.take n) := by
  unfold mem_read
  rw [if_pos (by omega)]
  rfl

theorem tail_slot_valid {X : Externals} {s : Aggregator} {hash q : Nat}
    (hq : tail_slot X s hash = .next q) : q < s.heap.length := by
  obtain ⟨r, hr, _⟩ := mem_bucket_members.mp (last_slot_valid hq)
  exact lt_of_getElem?_some hr

theorem link_entry_chain {X : Externals} {s : Aggregator} (hwf : WF X s) (hash : Nat)
    (key : List Nat) (hkey : key.length = s.m_view_def.keys_size) :
    (link_entry s (tail_slot X s hash) hash key).chain (hash % X.BUCKETS_COUNT) =
      s.chain (hash % X.BUCKETS_COUNT) ++ [s.heap.length] := by
  have hi : hash % X.BUCKETS_COUNT < X.BUCKETS_COUNT := Nat.mod_lt _ hwf.buckets_pos
  have hwf3 : WF X (link_entry s (tail_slot X s hash) hash key) :=
    WF_link_entry hwf hash key hkey
  obtain ⟨_, _, f3, f4, f5, _⟩ :=
    link_entry_facts s (tail_slot X s hash) hash key (fun q hq => tail_slot_valid hq)
  rw [chain_eq_members hwf3 hi, chain_eq_members hwf hi,
    bucket_members_append X.BUCKETS_COUNT s.heap _ _ f3 f4 ?_ (hash % X.BUCKETS_COUNT)]
  · simp
  · intro p hp
    obtain ⟨r, r3, h1, h2, h3, _⟩ := f5 p hp
    rw [h1, h2]
    simp [h3]

/-- Where `build_key` returns 0 and where 1. For every view definition with
supported key field types,
every record in which each key element the code reads has a size it can read
(1 to 8 bytes for a verbatim key, at least 4 or 16 bytes for an IPv4 or IPv6
address) and every key buffer with room for all key slots, `build_key` returns,
with 0 or 1, and it returns 0 if and only if some key field is not resolvable
in the record. It returns 0 at the first such field without processing the
later key fields: whenever the key fields are `pre ++ f :: post` with `f` not
resolvable, the result is the buffer and the cursor that packing `pre` alone
leaves, with return code 0, whatever `post` is. -/
theorem build_key_fails_exactly_on_absent_field (view_def : ViewDefinition) (drec : fds_drec)
    (key_buffer : List Nat)
    (hsup : ∀ f ∈ view_def.key_fields, key_field_supported f = true)
    (hread : ∀ f ∈ view_def.key_fields, key_field_readable f drec = true)
    (hbuf : keys_width view_def.key_fields ≤ key_buffer.length) :
    (∃ kr, build_key view_def drec key_buffer = .ok kr ∧ (kr.rc = 0 ∨ kr.rc = 1) ∧
      (kr.rc = 0 ↔ ∃ f ∈ view_def.key_fields, key_field_resolvable f drec = false)) ∧
    (∀ pre f post, view_def.key_fields = pre ++ f :: post →
      key_field_resolvable f drec = false →
      ∃ kr, build_key_loop pre drec key_buffer 0 = .ok kr ∧
        build_key view_def drec key_buffer = .ok ⟨0, kr.key_buffer, kr.key_value⟩) := by
  constructor
  · obtain ⟨kr, hkr, _, hcase⟩ := build_key_loop_total drec view_def.key_fields key_buffer 0
      hsup hread (by omega)
    refine ⟨kr, hkr, ?_, ?_⟩
    · rcases hcase with ⟨h0, _⟩ | ⟨h1, _⟩
      · exact Or.inl h0
      · exact Or.inr h1
    · rcases hcase with ⟨h0, hex⟩ | ⟨h1, hall, _⟩
      · exact ⟨fun _ => hex, fun _ => h0⟩
      · constructor
        · intro h0
          rw [h1] at h0
          cases h0
        · rintro ⟨f, hf, hres⟩
          rw [hall f hf] at hres
          cases hres
  · intro pre f post hfs hres
    have hsupf : key_field_supported f = true := hsup f (by rw [hfs]; simp)
    have hw : keys_width view_def.key_fields =
        keys_width pre + keys_width (f :: post) := by
      rw [hfs]
      simp [keys_width]
    obtain ⟨kr, hkr, _, _⟩ := build_key_loop_total drec pre key_buffer 0
      (fun g hg => hsup g (by rw [hfs]; exact List.mem_append_left _ hg))
      (fun g hg => hread g (by rw [hfs]; exact List.mem_append_left _ hg)) (by omega)
    refine ⟨kr, hkr, ?_⟩
    unfold build_key
    rw [hfs, build_key_loop_stops drec post hsupf hres pre key_buffer 0, hkr]

/-- An instance: a view with the protocol identifier and the destination
address as keys and a record without any address. -/
theorem build_key_fails_exactly_on_absent_field_witness :
    (∃ kr, build_key Sample.proto_dst_view Sample.tcp_record (Sample.stack 7) = .ok kr ∧
      (kr.rc = 0 ∨ kr.rc = 1) ∧
      (kr.rc = 0 ↔ ∃ f ∈ Sample.proto_dst_view.key_fields,
        key_field_resolvable f Sample.tcp_record = false)) ∧
    (∀ pre f post, Sample.proto_dst_view.key_fields = pre ++ f :: post →
      key_field_resolvable f Sample.tcp_record = false →
      ∃ kr, build_key_loop pre Sample.tcp_record (Sample.stack 7) 0 = .ok kr ∧
        build_key Sample.proto_dst_view Sample.tcp_record (Sample.stack 7) =
          .ok ⟨0, kr.key_buffer, kr.key_value⟩) :=
  build_key_fails_exactly_on_absent_field Sample.proto_dst_view Sample.tcp_record
    (Sample.stack 7) (by decide) (by decide) (by decide)

/-! # The claims -/

/-- C1, the code at the failing input. The view has the one-byte key protocol
identifier (`keys_size` = 1) and a flow count. The same record, protocol 6,
is processed twice from the empty table, with stack arrays `k1` and `k2`.
Both calls pack the same key byte 6, yet whenever the hash of the hashed span
of the key buffer differs between the two calls (the span of
`sizeof(keys_size)` bytes holds the key byte followed by bytes of the stack
array that `build_key` never wrote), the second record is not folded into the
entry of the first: the table ends with two entries with key 6 and count 1
each. (The claim requires one entry for records with identical packed
keys.) -/
theorem equal_keys_in_two_entries (X : Externals) (k1 k2 : List Nat)
    (hB : 0 < X.BUCKETS_COUNT) (hk1 : k1.length = key_buffer_size)
    (hk2 : k2.length = key_buffer_size)
    (hh : X.XXH3_64bits (([6] ++ k1.drop 1).take X.sizeof_keys_size) ≠
      X.XXH3_64bits (([6] ++ k2.drop 1).take X.sizeof_keys_size)) :
    ∃ kr1 kr2 s,
      build_key Sample.count_view Sample.tcp_record k1 = .ok kr1 ∧
      build_key Sample.count_view Sample.tcp_record k2 = .ok kr2 ∧
      kr1.rc = 1 ∧ kr2.rc = 1 ∧
      kr1.key_buffer.take Sample.count_view.keys_size =
        kr2.key_buffer.take Sample.count_view.keys_size ∧
      process_all X (Aggregator.init X Sample.count_view)
        [(Sample.tcp_record, k1), (Sample.tcp_record, k2)] = .ok s ∧
      s.records_data = [some ([6] ++ le_bytes 8 1), some ([6] ++ le_bytes 8 1)] := by
  have hb1 := build_key_one_byte Sample.count_view Sample.tcp_record 6 k1 rfl rfl rfl hk1
  have hb2 := build_key_one_byte Sample.count_view Sample.tcp_record 6 k2 rfl rfl rfl hk2
  have hstep1 : table_process X Sample.count_view [] Sample.tcp_record k1 =
      .ok [(X.XXH3_64bits (([6] ++ k1.drop 1).take X.sizeof_keys_size),
        [6] ++ le_bytes 8 1)] := by
    rw [table_process_of_build_key X [] (by decide) hb1 (by simp)]
    exact table_step_miss (table_find_eq_none (by simp)) (mem_read_key [6] _ _ rfl) rfl
  have hstep2 : table_process X Sample.count_view
      [(X.XXH3_64bits (([6] ++ k1.drop 1).take X.sizeof_keys_size), [6] ++ le_bytes 8 1)]
      Sample.tcp_record k2 =
      .ok [(X.XXH3_64bits (([6] ++ k1.drop 1).take X.sizeof_keys_size), [6] ++ le_bytes 8 1),
        (X.XXH3_64bits (([6] ++ k2.drop 1).take X.sizeof_keys_size),
          [6] ++ le_bytes 8 1)] := by
    rw [table_process_of_build_key X _ (by decide) hb2 (by simp)]
    refine table_step_miss (table_find_eq_none ?_) (mem_read_key [6] _ _ rfl) rfl
    intro e he
    rw [List.mem_singleton] at he
    subst he
    rintro ⟨h, _⟩
    exact hh h
  have hall : table_all X Sample.count_view []
      [(Sample.tcp_record, k1), (Sample.tcp_record, k2)] =
      .ok [(X.XXH3_64bits (([6] ++ k1.drop 1).take X.sizeof_keys_size), [6] ++ le_bytes 8 1),
        (X.XXH3_64bits (([6] ++ k2.drop 1).take X.sizeof_keys_size),
          [6] ++ le_bytes 8 1)] := by
    simp only [table_all, hstep1, hstep2]
  obtain ⟨s, hs, hwf, he⟩ := process_all_entries hB hall
  refine ⟨_, _, s, hb1, hb2, rfl, rfl, rfl, hs, ?_⟩
  rw [records_data_eq hwf, he]
  rfl

/-- C1, witness of the evaluation: the sample externals, a stack array of
sevens at the first call and of nines at the second. -/
theorem equal_keys_in_two_entries_witness :
    ∃ kr1 kr2 s,
      build_key Sample.count_view Sample.tcp_record (Sample.stack 7) = .ok kr1 ∧
      build_key Sample.count_view Sample.tcp_record (Sample.stack 9) = .ok kr2 ∧
      kr1.rc = 1 ∧ kr2.rc = 1 ∧
      kr1.key_buffer.take Sample.count_view.keys_size =
        kr2.key_buffer.take Sample.count_view.keys_size ∧
      process_all Sample.externals (Aggregator.init Sample.externals Sample.count_view)
        [(Sample.tcp_record, Sample.stack 7), (Sample.tcp_record, Sample.stack 9)] = .ok s ∧
      s.records_data = [some ([6] ++ le_bytes 8 1), some ([6] ++ le_bytes 8 1)] :=
  equal_keys_in_two_entries Sample.externals (Sample.stack 7) (Sample.stack 9) (by decide)
    rfl rfl (by decide)

/-- C2, the code at the failing input. The view has the key protocol
identifier and two `Unsigned64` sums, of the packet count (value field 0) and
of the byte count (value field 1). One record with protocol 6 and a byte
count of 5 but no packet count is processed from the empty table. The entry
then holds 5 in the slot of the packet count and 0 in the slot of the byte
count: `aggregate_value` returns on the absent packet count without
advancing the cursor, so the byte count is added at offset 0. (The claim
requires 0 for the packet count, which no record carried, and 5 for the byte
count.) -/
theorem sum_lands_in_slot_of_absent_field (X : Externals) (key_buffer : List Nat)
    (hB : 0 < X.BUCKETS_COUNT) (hk : key_buffer.length = key_buffer_size) :
    ∃ s data,
      process_all X (Aggregator.init X Sample.two_sums_view)
        [(Sample.tcp_record, key_buffer)] = .ok s ∧
      s.records_data = [some data] ∧
      value_slot Sample.two_sums_view data 0 = 5 ∧
      value_slot Sample.two_sums_view data 1 = 0 := by
  have hb := build_key_one_byte Sample.two_sums_view Sample.tcp_record 6 key_buffer rfl rfl rfl hk
  have hstep : table_process X Sample.two_sums_view [] Sample.tcp_record key_buffer =
      .ok [(X.XXH3_64bits (([6] ++ key_buffer.drop 1).take X.sizeof_keys_size),
        [6] ++ le_bytes 8 5 ++ le_bytes 8 0)] := by
    rw [table_process_of_build_key X [] (by decide) hb (by simp)]
    exact table_step_miss (table_find_eq_none (by simp)) (mem_read_key [6] _ _ rfl) rfl
  have hall : table_all X Sample.two_sums_view [] [(Sample.tcp_record, key_buffer)] =
      .ok [(X.XXH3_64bits (([6] ++ key_buffer.drop 1).take X.sizeof_keys_size),
        [6] ++ le_bytes 8 5 ++ le_bytes 8 0)] := by
    simp only [table_all, hstep]
  obtain ⟨s, hs, hwf, he⟩ := process_all_entries hB hall
  refine ⟨s, [6] ++ le_bytes 8 5 ++ le_bytes 8 0, hs, ?_, by decide, by decide⟩
  rw [records_data_eq hwf, he]
  rfl

/-- C2, witness of the evaluation: the sample externals and a stack array of
sevens. -/
theorem sum_lands_in_slot_of_absent_field_witness :
    ∃ s data,
      process_all Sample.externals (Aggregator.init Sample.externals Sample.two_sums_view)
        [(Sample.tcp_record, Sample.stack 7)] = .ok s ∧
      s.records_data = [some data] ∧
      value_slot Sample.two_sums_view data 0 = 5 ∧
      value_slot Sample.two_sums_view data 1 = 0 :=
  sum_lands_in_slot_of_absent_field Sample.externals (Sample.stack 7) (by decide) rfl

/-- C3, the code at the failing input. The view has the key protocol
identifier, the `Unsigned64` sum of the byte count (value field 0) and a flow
count (value field 1). One record with protocol 50 and no byte count is
processed from the empty table. The entry then holds 1 in the sum slot and 0
in the flow-count slot: `aggregate_value` returns on the absent byte count
without advancing the cursor, so the flow count is incremented at offset 0.
(The claim requires 0 in the sum slot and 1 in the flow-count slot.) -/
theorem flow_count_lands_in_sum_slot (X : Externals) (key_buffer : List Nat)
    (hB : 0 < X.BUCKETS_COUNT) (hk : key_buffer.length = key_buffer_size) :
    ∃ s data,
      process_all X (Aggregator.init X Sample.proto_view)
        [(Sample.bare_record, key_buffer)] = .ok s ∧
      s.records_data = [some data] ∧
      value_slot Sample.proto_view data 0 = 1 ∧
      value_slot Sample.proto_view data 1 = 0 := by
  have hb := build_key_one_byte Sample.proto_view Sample.bare_record 50 key_buffer rfl rfl rfl hk
  have hstep : table_process X Sample.proto_view [] Sample.bare_record key_buffer =
      .ok [(X.XXH3_64bits (([50] ++ key_buffer.drop 1).take X.sizeof_keys_size),
        [50] ++ le_bytes 8 1 ++ le_bytes 8 0)] := by
    rw [table_process_of_build_key X [] (by decide) hb (by simp)]
    exact table_step_miss (table_find_eq_none (by simp)) (mem_read_key [50] _ _ rfl) rfl
  have hall : table_all X Sample.proto_view [] [(Sample.bare_record, key_buffer)] =
      .ok [(X.XXH3_64bits (([50] ++ key_buffer.drop 1).take X.sizeof_keys_size),
        [50] ++ le_bytes 8 1 ++ le_bytes 8 0)] := by
    simp only [table_all, hstep]
  obtain ⟨s, hs, hwf, he⟩ := process_all_entries hB hall
  refine ⟨s, [50] ++ le_bytes 8 1 ++ le_bytes 8 0, hs, ?_, by decide, by decide⟩
  rw [records_data_eq hwf, he]
  rfl

/-- C3, witness of the evaluation: the sample externals and a stack array of
sevens. -/
theorem flow_count_lands_in_sum_slot_witness :
    ∃ s data,
      process_all Sample.externals (Aggregator.init Sample.externals Sample.proto_view)
        [(Sample.bare_record, Sample.stack 7)] = .ok s ∧
      s.records_data = [some data] ∧
      value_slot Sample.proto_view data 0 = 1 ∧
      value_slot Sample.proto_view data 1 = 0 :=
  flow_count_lands_in_sum_slot Sample.externals (Sample.stack 7) (by decide) rfl

/-- C4. The reference scenario. With the view {key: destination address;
values: sum of the byte count as `Unsigned64`, flow count} and an empty
table, processing the records (10.0.0.1, 100 bytes), (10.0.0.1, 50 bytes),
(10.0.0.2, 20 bytes) in this order returns normally and leaves `m_records`
with exactly two entries: the first holds the key 10.0.0.1 with length tag 4,
the sum 150 and the count 2, the second the key 10.0.0.2, the sum 20 and the
count 1. The data bytes of both entries are given byte by byte: the length
tag, the 16 address bytes, then the sum and the count as 8-byte integers in
the byte order of the host. This holds for every hash function, every
positive bucket count, every content of the stack array at the three calls,
and every size of the variable `keys_size` up to the 17 key bytes. -/
theorem reference_scenario (X : Externals) (k1 k2 k3 : List Nat) (hB : 0 < X.BUCKETS_COUNT)
    (hsz : X.sizeof_keys_size ≤ 17) (h1 : k1.length = key_buffer_size)
    (h2 : k2.length = key_buffer_size) (h3 : k3.length = key_buffer_size) :
    ∃ s, process_all X (Aggregator.init X Sample.dst_view)
        [(Sample.flow4 10 0 0 1 [0, 0, 0, 0, 0, 0, 0, 100], k1),
          (Sample.flow4 10 0 0 1 [0, 0, 0, 0, 0, 0, 0, 50], k2),
          (Sample.flow4 10 0 0 2 [0, 0, 0, 0, 0, 0, 0, 20], k3)] = .ok s ∧
      s.records_data =
        [some ([4, 10, 0, 0, 1, 0, 0, 0, 0, 0, 0, 0, 0, 0, 0, 0, 0] ++
            [150, 0, 0, 0, 0, 0, 0, 0] ++ [2, 0, 0, 0, 0, 0, 0, 0]),
          some ([4, 10, 0, 0, 2, 0, 0, 0, 0, 0, 0, 0, 0, 0, 0, 0, 0] ++
            [20, 0, 0, 0, 0, 0, 0, 0] ++ [1, 0, 0, 0, 0, 0, 0, 0])] ∧
      s.m_records.length = 2 := by
  have hl : ∀ a b c d, (Sample.ip4_key a b c d).length = Sample.dst_view.keys_size :=
    fun _ _ _ _ => rfl
  have s1 : table_process X Sample.dst_view [] (Sample.flow4 10 0 0 1 [0, 0, 0, 0, 0, 0, 0, 100])
      k1 = .ok [(X.XXH3_64bits ((Sample.ip4_key 10 0 0 1).take X.sizeof_keys_size),
        Sample.ip4_key 10 0 0 1 ++ le_bytes 8 100 ++ le_bytes 8 1)] := by
    rw [table_process_dst_view X hsz _ _ _ _ _ _ _ h1]
    exact table_step_miss (table_find_eq_none (by simp)) (mem_read_key _ _ _ (hl _ _ _ _)) rfl
  have s2 : table_process X Sample.dst_view
      [(X.XXH3_64bits ((Sample.ip4_key 10 0 0 1).take X.sizeof_keys_size),
        Sample.ip4_key 10 0 0 1 ++ le_bytes 8 100 ++ le_bytes 8 1)]
      (Sample.flow4 10 0 0 1 [0, 0, 0, 0, 0, 0, 0, 50]) k2 =
      .ok [(X.XXH3_64bits ((Sample.ip4_key 10 0 0 1).take X.sizeof_keys_size),
        Sample.ip4_key 10 0 0 1 ++ le_bytes 8 150 ++ le_bytes 8 2)] := by
    rw [table_process_dst_view X hsz _ _ _ _ _ _ _ h2]
    have hm : memcmp_eq (Sample.ip4_key 10 0 0 1 ++ le_bytes 8 100 ++ le_bytes 8 1)
        (Sample.ip4_key 10 0 0 1 ++ k2.drop 17) Sample.dst_view.keys_size = true :=
      (memcmp_eq_key _ _ _ _ (hl _ _ _ _)).mpr rfl
    exact table_step_hit (p := 0)
      (e := (X.XXH3_64bits ((Sample.ip4_key 10 0 0 1).take X.sizeof_keys_size),
        Sample.ip4_key 10 0 0 1 ++ le_bytes 8 100 ++ le_bytes 8 1))
      (table_find_eq_some rfl ⟨rfl, hm⟩ (fun q _ hq _ => absurd hq (Nat.not_lt_zero q)))
      rfl rfl
  have s3 : table_process X Sample.dst_view
      [(X.XXH3_64bits ((Sample.ip4_key 10 0 0 1).take X.sizeof_keys_size),
        Sample.ip4_key 10 0 0 1 ++ le_bytes 8 150 ++ le_bytes 8 2)]
      (Sample.flow4 10 0 0 2 [0, 0, 0, 0, 0, 0, 0, 20]) k3 =
      .ok [(X.XXH3_64bits ((Sample.ip4_key 10 0 0 1).take X.sizeof_keys_size),
          Sample.ip4_key 10 0 0 1 ++ le_bytes 8 150 ++ le_bytes 8 2),
        (X.XXH3_64bits ((Sample.ip4_key 10 0 0 2).take X.sizeof_keys_size),
          Sample.ip4_key 10 0 0 2 ++ le_bytes 8 20 ++ le_bytes 8 1)] := by
    rw [table_process_dst_view X hsz _ _ _ _ _ _ _ h3]
    refine table_step_miss (table_find_eq_none ?_) (mem_read_key _ _ _ (hl _ _ _ _)) rfl
    intro e he
    rw [List.mem_singleton] at he
    subst he
    rintro ⟨_, hm⟩
    rw [memcmp_eq_key _ _ _ _ (hl _ _ _ _)] at hm
    change List.take 17 (Sample.ip4_key 10 0 0 1 ++ le_bytes 8 150 ++ le_bytes 8 2) =
      Sample.ip4_key 10 0 0 2 at hm
    revert hm
    decide
  have hall : table_all X Sample.dst_view []
      [(Sample.flow4 10 0 0 1 [0, 0, 0, 0, 0, 0, 0, 100], k1),
        (Sample.flow4 10 0 0 1 [0, 0, 0, 0, 0, 0, 0, 50], k2),
        (Sample.flow4 10 0 0 2 [0, 0, 0, 0, 0, 0, 0, 20], k3)] =
      .ok [(X.XXH3_64bits ((Sample.ip4_key 10 0 0 1).take X.sizeof_keys_size),
          Sample.ip4_key 10 0 0 1 ++ le_bytes 8 150 ++ le_bytes 8 2),
        (X.XXH3_64bits ((Sample.ip4_key 10 0 0 2).take X.sizeof_keys_size),
          Sample.ip4_key 10 0 0 2 ++ le_bytes 8 20 ++ le_bytes 8 1)] := by
    simp only [table_all, s1, s2, s3]
  obtain ⟨s, hs, hwf, he⟩ := process_all_entries hB hall
  have hr : s.records_data =
      [some ([4, 10, 0, 0, 1, 0, 0, 0, 0, 0, 0, 0, 0, 0, 0, 0, 0] ++
          [150, 0, 0, 0, 0, 0, 0, 0] ++ [2, 0, 0, 0, 0, 0, 0, 0]),
        some ([4, 10, 0, 0, 2, 0, 0, 0, 0, 0, 0, 0, 0, 0, 0, 0, 0] ++
          [20, 0, 0, 0, 0, 0, 0, 0] ++ [1, 0, 0, 0, 0, 0, 0, 0])] := by
    rw [records_data_eq hwf, he]
    rfl
  refine ⟨s, hs, hr, ?_⟩
  have h := congrArg List.length hr
  simpa [Aggregator.records_data] using h

/-- C4, witness: the sample externals and stack arrays with three different
contents. -/
theorem reference_scenario_witness :
    ∃ s, process_all Sample.externals (Aggregator.init Sample.externals Sample.dst_view)
        [(Sample.flow4 10 0 0 1 [0, 0, 0, 0, 0, 0, 0, 100], Sample.stack 1),
          (Sample.flow4 10 0 0 1 [0, 0, 0, 0, 0, 0, 0, 50], Sample.stack 2),
          (Sample.flow4 10 0 0 2 [0, 0, 0, 0, 0, 0, 0, 20], Sample.stack 3)] = .ok s ∧
      s.records_data =
        [some ([4, 10, 0, 0, 1, 0, 0, 0, 0, 0, 0, 0, 0, 0, 0, 0, 0] ++
            [150, 0, 0, 0, 0, 0, 0, 0] ++ [2, 0, 0, 0, 0, 0, 0, 0]),
          some ([4, 10, 0, 0, 2, 0, 0, 0, 0, 0, 0, 0, 0, 0, 0, 0, 0] ++
            [20, 0, 0, 0, 0, 0, 0, 0] ++ [1, 0, 0, 0, 0, 0, 0, 0])] ∧
      s.m_records.length = 2 :=
  reference_scenario Sample.externals (Sample.stack 1) (Sample.stack 2) (Sample.stack 3)
    (by decide) (by decide) rfl rfl rfl

/-- C5, the code at the failing input. The only key field of the view is a
supported verbatim key and its element is present in the record, so no key
field is unresolvable and the return value has to be 1. The element has 9
bytes: `fds_get_uint_be` rejects it, the `assert(rc == FDS_OK)` of `get_uint`
fails, and `build_key` returns neither 1 nor 0, whatever the key buffer
holds. -/
theorem build_key_oversized_element (key_buffer : List Nat) :
    (∀ f ∈ Sample.bytes_key_view.key_fields, key_field_supported f = true) ∧
      (∀ f ∈ Sample.bytes_key_view.key_fields,
        key_field_resolvable f Sample.oversized_record = true) ∧
      fds_drec_find Sample.oversized_record 0 IPFIX.octetDeltaCount =
        some ⟨[0, 0, 0, 0, 0, 0, 0, 0, 5]⟩ ∧
      get_uint ⟨[0, 0, 0, 0, 0, 0, 0, 0, 5]⟩ = .error .assert_failed ∧
      build_key Sample.bytes_key_view Sample.oversized_record key_buffer =
        .error .assert_failed ∧
      ∀ kr, build_key Sample.bytes_key_view Sample.oversized_record key_buffer ≠ .ok kr := by
  have h : build_key Sample.bytes_key_view Sample.oversized_record key_buffer =
      .error .assert_failed := rfl
  refine ⟨by decide, by decide, rfl, rfl, h, ?_⟩
  intro kr hkr
  rw [h] at hkr
  cases hkr

/-- C6. A record whose key cannot be built is dropped without effect: when
`build_key` returns 0, `process_record` returns normally (no error is raised)
and the table it leaves is the table it found, that is the bucket array, every
record (hash, key bytes, value bytes, chain link) and `m_records` are as they
were. `keys_size` is within the bound that `process_record` asserts. -/
theorem process_record_unbuildable_key (X : Externals) (s : Aggregator) (drec : fds_drec)
    (key_buffer : List Nat) (calloc_ok : Bool) (kr : KeyResult)
    (hks : s.m_view_def.keys_size ≤ key_buffer_size)
    (hb : build_key s.m_view_def drec key_buffer = .ok kr) (hrc : kr.rc = 0) :
    process_record X s drec key_buffer calloc_ok = .ok s :=
  process_record_dropped calloc_ok hks hb hrc

/-- C6, witness: a record without the key element leaves a table with one
entry as it is. -/
theorem process_record_unbuildable_key_witness :
    process_record Sample.externals Sample.one_entry Sample.keyless_record (Sample.stack 7) true =
      .ok Sample.one_entry :=
  process_record_unbuildable_key Sample.externals Sample.one_entry Sample.keyless_record
    (Sample.stack 7) true ⟨0, Sample.stack 7, 0⟩ (by decide) rfl rfl

/-- C7, the code at the failing input. With the view of C1 the records with
protocol 6, protocol 17 and again protocol 6 are processed from the empty
table, with stack arrays `k1`, `k2`, `k3`. Whenever the hash of the hashed
span of the key buffer differs between the first and the third call, the keys
of `m_records` are 6, 17, 6: the key 6 appears twice and the third call
appended an entry for a key that was seen before. (The claim requires the
distinct keys in first-seen order, 6, 17.) -/
theorem seen_key_appended_again (X : Externals) (k1 k2 k3 : List Nat)
    (hB : 0 < X.BUCKETS_COUNT) (hk1 : k1.length = key_buffer_size)
    (hk2 : k2.length = key_buffer_size) (hk3 : k3.length = key_buffer_size)
    (hh : X.XXH3_64bits (([6] ++ k1.drop 1).take X.sizeof_keys_size) ≠
      X.XXH3_64bits (([6] ++ k3.drop 1).take X.sizeof_keys_size)) :
    ∃ s,
      process_all X (Aggregator.init X Sample.count_view)
        [(Sample.tcp_record, k1), (Sample.udp_record, k2), (Sample.tcp_record, k3)] =
          .ok s ∧
      s.records_data.map (Option.map (List.take Sample.count_view.keys_size)) =
        [some [6], some [17], some [6]] := by
  have hb1 := build_key_one_byte Sample.count_view Sample.tcp_record 6 k1 rfl rfl rfl hk1
  have hb2 := build_key_one_byte Sample.count_view Sample.udp_record 17 k2 rfl rfl rfl hk2
  have hb3 := build_key_one_byte Sample.count_view Sample.tcp_record 6 k3 rfl rfl rfl hk3
  have hstep1 : table_process X Sample.count_view [] Sample.tcp_record k1 =
      .ok [(X.XXH3_64bits (([6] ++ k1.drop 1).take X.sizeof_keys_size),
        [6] ++ le_bytes 8 1)] := by
    rw [table_process_of_build_key X [] (by decide) hb1 (by simp)]
    exact table_step_miss (table_find_eq_none (by simp)) (mem_read_key [6] _ _ rfl) rfl
  have hstep2 : table_process X Sample.count_view
      [(X.XXH3_64bits (([6] ++ k1.drop 1).take X.sizeof_keys_size), [6] ++ le_bytes 8 1)]
      Sample.udp_record k2 =
      .ok [(X.XXH3_64bits (([6] ++ k1.drop 1).take X.sizeof_keys_size), [6] ++ le_bytes 8 1),
        (X.XXH3_64bits (([17] ++ k2.drop 1).take X.sizeof_keys_size),
          [17] ++ le_bytes 8 1)] := by
    rw [table_process_of_build_key X _ (by decide) hb2 (by simp)]
    refine table_step_miss (table_find_eq_none ?_) (mem_read_key [17] _ _ rfl) rfl
    intro e he
    rw [List.mem_singleton] at he
    subst he
    rintro ⟨_, hm⟩
    exact absurd ((memcmp_eq_key ([6] ++ le_bytes 8 1) [17] (k2.drop 1) 1 rfl).mp hm)
      (by decide)
  have hstep3 : table_process X Sample.count_view
      [(X.XXH3_64bits (([6] ++ k1.drop 1).take X.sizeof_keys_size), [6] ++ le_bytes 8 1),
        (X.XXH3_64bits (([17] ++ k2.drop 1).take X.sizeof_keys_size), [17] ++ le_bytes 8 1)]
      Sample.tcp_record k3 =
      .ok [(X.XXH3_64bits (([6] ++ k1.drop 1).take X.sizeof_keys_size), [6] ++ le_bytes 8 1),
        (X.XXH3_64bits (([17] ++ k2.drop 1).take X.sizeof_keys_size), [17] ++ le_bytes 8 1),
        (X.XXH3_64bits (([6] ++ k3.drop 1).take X.sizeof_keys_size),
          [6] ++ le_bytes 8 1)] := by
    rw [table_process_of_build_key X _ (by decide) hb3 (by simp)]
    refine table_step_miss (table_find_eq_none ?_) (mem_read_key [6] _ _ rfl) rfl
    intro e he
    rcases List.mem_cons.mp he with he | he
    · subst he
      rintro ⟨h, _⟩
      exact hh h
    · rw [List.mem_singleton] at he
      subst he
      rintro ⟨_, hm⟩
      exact absurd ((memcmp_eq_key ([17] ++ le_bytes 8 1) [6] (k3.drop 1) 1 rfl).mp hm)
        (by decide)
  have hall : table_all X Sample.count_view []
      [(Sample.tcp_record, k1), (Sample.udp_record, k2), (Sample.tcp_record, k3)] =
      .ok [(X.XXH3_64bits (([6] ++ k1.drop 1).take X.sizeof_keys_size), [6] ++ le_bytes 8 1),
        (X.XXH3_64bits (([17] ++ k2.drop 1).take X.sizeof_keys_size), [17] ++ le_bytes 8 1),
        (X.XXH3_64bits (([6] ++ k3.drop 1).take X.sizeof_keys_size),
          [6] ++ le_bytes 8 1)] := by
    simp only [table_all, hstep1, hstep2, hstep3]
  obtain ⟨s, hs, hwf, he⟩ := process_all_entries hB hall
  refine ⟨s, hs, ?_⟩
  rw [records_data_eq hwf, he]
  rfl

/-- C7, witness of the evaluation: the sample externals, stack arrays of
sevens, zeros and nines. -/
theorem seen_key_appended_again_witness :
    ∃ s,
      process_all Sample.externals (Aggregator.init Sample.externals Sample.count_view)
        [(Sample.tcp_record, Sample.stack 7), (Sample.udp_record, Sample.stack 0),
          (Sample.tcp_record, Sample.stack 9)] = .ok s ∧
      s.records_data.map (Option.map (List.take Sample.count_view.keys_size)) =
        [some [6], some [17], some [6]] :=
  seen_key_appended_again Sample.externals (Sample.stack 7) (Sample.stack 0) (Sample.stack 9)
    (by decide) rfl rfl rfl (by decide)

/-- C8. Collision safety. Take a table reached from the empty table and two
records whose keys build, whose packed keys differ within the first
`keys_size` bytes and whose computed hashes are equal. Whenever processing
one after the other returns, it leaves two distinct entries `p1 ≠ p2` of the
insertion-ordered sequence, both stored with the common hash: entry `p1`
holds the key of the first record and entry `p2` the key of the second, the
data of `p1` is the fold of the first record alone into what entry `p1` held
before both calls (a fresh zeroed entry if it did not exist), and the data of
`p2` is the fold of the second record alone into what `p2` held before both
calls. So the second lookup does not match entry `p1` although the hash is
equal. And the two calls do return when no `assert` of the value fold can
fail: the view has supported value fields of 8 bytes each and `keys_size`
within the asserted bound, and the sum elements of the records have 1 to 8
bytes. -/
theorem collision_safety (X : Externals) (view_def : ViewDefinition)
    (inputs : List (fds_drec × List Nat)) (s : Aggregator) (r1 r2 : fds_drec)
    (k1 k2 : List Nat) (kr1 kr2 : KeyResult) (hB : 0 < X.BUCKETS_COUNT)
    (hs : process_all X (Aggregator.init X view_def) inputs = .ok s)
    (hk1 : k1.length = key_buffer_size) (hk2 : k2.length = key_buffer_size)
    (hb1 : build_key view_def r1 k1 = .ok kr1) (hb2 : build_key view_def r2 k2 = .ok kr2)
    (hrc1 : kr1.rc = 1) (hrc2 : kr2.rc = 1)
    (hne : kr1.key_buffer.take view_def.keys_size ≠ kr2.key_buffer.take view_def.keys_size)
    (hh : X.XXH3_64bits (kr1.key_buffer.take X.sizeof_keys_size) =
      X.XXH3_64bits (kr2.key_buffer.take X.sizeof_keys_size)) :
    (∀ s1 s2, process_record X s r1 k1 true = .ok s1 →
      process_record X s1 r2 k2 true = .ok s2 →
      ∃ p1 p2 d1 d2 c1 c2,
        p1 ≠ p2 ∧
        s2.entries[p1]? = some (X.XXH3_64bits (kr1.key_buffer.take X.sizeof_keys_size), d1) ∧
        s2.entries[p2]? = some (X.XXH3_64bits (kr1.key_buffer.take X.sizeof_keys_size), d2) ∧
        d1.take view_def.keys_size = kr1.key_buffer.take view_def.keys_size ∧
        d2.take view_def.keys_size = kr2.key_buffer.take view_def.keys_size ∧
        aggregate_values view_def.value_fields r1
          (fold_start view_def s.entries p1 (kr1.key_buffer.take view_def.keys_size))
          view_def.keys_size = .ok (d1, c1) ∧
        aggregate_values view_def.value_fields r2
          (fold_start view_def s.entries p2 (kr2.key_buffer.take view_def.keys_size))
          view_def.keys_size = .ok (d2, c2)) ∧
    (view_def.keys_size ≤ key_buffer_size →
      view_def.values_size = 8 * view_def.value_fields.length →
      (∀ f ∈ view_def.value_fields, value_field_supported f = true) →
      (∀ f ∈ view_def.value_fields, value_field_readable f r1 = true) →
      (∀ f ∈ view_def.value_fields, value_field_readable f r2 = true) →
      ∃ s1 s2, process_record X s r1 k1 true = .ok s1 ∧
        process_record X s1 r2 k2 true = .ok s2) := by
  have hwf : WF X s := WF_process_all inputs (WF_init X view_def hB) hs
  have hvd : s.m_view_def = view_def := process_all_view_def inputs hs
  subst hvd
  constructor
  · intro s1 s2 e1 e2
    have hwf1 : WF X s1 := WF_process_record hwf e1
    have hvd1 : s1.m_view_def = s.m_view_def := process_record_view_def e1
    obtain ⟨p1, d1, c1, _, f1, g1, a1, o1⟩ := process_record_inv hwf hb1 (by omega) e1
    obtain ⟨p2, d2, c2, _, f2, g2, a2, o2⟩ :=
      process_record_inv hwf1 (by rw [hvd1]; exact hb2) (by omega) e2
    rw [hvd1] at f2 g2
    rw [← hh] at a2
    obtain ⟨_, _, t1⟩ := aggregate_values_ok _ _ _ _ _ _ f1
    obtain ⟨_, _, t2⟩ := aggregate_values_ok _ _ _ _ _ _ f2
    have hd1 : d1.take s.m_view_def.keys_size =
        kr1.key_buffer.take s.m_view_def.keys_size := by
      rw [t1 _ (le_refl _), g1]
    have hd2 : d2.take s.m_view_def.keys_size =
        kr2.key_buffer.take s.m_view_def.keys_size := by
      rw [t2 _ (le_refl _), g2]
    have hp : p1 ≠ p2 := by
      intro heq
      subst heq
      simp only [fold_start, a1] at g2
      exact hne (hd1.symm.trans g2)
    have hstart : fold_start s.m_view_def s1.entries p2
        (kr2.key_buffer.take s.m_view_def.keys_size) =
        fold_start s.m_view_def s.entries p2 (kr2.key_buffer.take s.m_view_def.keys_size) := by
      unfold fold_start
      rw [o1 p2 (fun h => hp h.symm)]
    rw [hstart] at f2
    refine ⟨p1, p2, d1, d2, c1, c2, hp, ?_, a2, hd1, hd2, f1, f2⟩
    rw [o2 p1 hp, a1]
  · intro hks hvs hsup hread1 hread2
    obtain ⟨s1, _, _, _, e1, hwf1, hvd1, _⟩ :=
      process_record_spec hwf hks hk1 hb1 (by omega) hvs hsup hread1
    obtain ⟨s2, _, _, _, e2, _⟩ :=
      process_record_spec hwf1 (by rw [hvd1]; exact hks) hk2 (by rw [hvd1]; exact hb2)
        (by omega) (by rw [hvd1]; exact hvs) (by rw [hvd1]; exact hsup)
        (by rw [hvd1]; exact hread2)
    exact ⟨s1, s2, e1, e2⟩

/-- C8, witness: two IPv6 destinations that differ in the last address byte
only, so that the 8 hashed bytes agree, processed after one IPv4 record: both
calls return and leave two distinct entries with the common hash. -/
theorem collision_safety_witness :
    ∃ s1 s2 p1 p2 d1 d2 c1 c2,
      process_record Sample.externals Sample.dst_one_entry (Sample.flow6 1 [5])
        (Sample.stack 0) true = .ok s1 ∧
      process_record Sample.externals s1 (Sample.flow6 2 [7]) (Sample.stack 0) true = .ok s2 ∧
      p1 ≠ p2 ∧
      s2.entries[p1]? =
        some (Sample.externals.XXH3_64bits
          ((Sample.key6 1).take Sample.externals.sizeof_keys_size), d1) ∧
      s2.entries[p2]? =
        some (Sample.externals.XXH3_64bits
          ((Sample.key6 1).take Sample.externals.sizeof_keys_size), d2) ∧
      d1.take Sample.dst_view.keys_size = (Sample.key6 1).take Sample.dst_view.keys_size ∧
      d2.take Sample.dst_view.keys_size = (Sample.key6 2).take Sample.dst_view.keys_size ∧
      aggregate_values Sample.dst_view.value_fields (Sample.flow6 1 [5])
        (fold_start Sample.dst_view Sample.dst_one_entry.entries p1
          ((Sample.key6 1).take Sample.dst_view.keys_size))
        Sample.dst_view.keys_size = .ok (d1, c1) ∧
      aggregate_values Sample.dst_view.value_fields (Sample.flow6 2 [7])
        (fold_start Sample.dst_view Sample.dst_one_entry.entries p2
          ((Sample.key6 2).take Sample.dst_view.keys_size))
        Sample.dst_view.keys_size = .ok (d2, c2) := by
  have h := collision_safety Sample.externals Sample.dst_view
    [(Sample.flow4 10 0 0 1 [0, 0, 0, 0, 0, 0, 0, 100], Sample.stack 0)]
    Sample.dst_one_entry (Sample.flow6 1 [5]) (Sample.flow6 2 [7]) (Sample.stack 0)
    (Sample.stack 0) ⟨1, Sample.key6 1, 17⟩ ⟨1, Sample.key6 2, 17⟩ (by decide) rfl rfl rfl
    rfl rfl rfl rfl (by decide) rfl
  obtain ⟨s1, s2, e1, e2⟩ := h.2 (by decide) rfl (by decide) (by decide) (by decide)
  obtain ⟨p1, p2, d1, d2, c1, c2, hrest⟩ := h.1 s1 s2 e1 e2
  exact ⟨s1, s2, p1, p2, d1, d2, c1, c2, e1, e2, hrest⟩

/-- C9. In every state reached from the empty table by a sequence of
`process_record` calls, the records reached by walking the chains of all
buckets are the records of `m_records` (one list is a permutation of the
other), `m_records` holds no record twice, and no record is met twice in the
walk over all chains, so each record lies in exactly one chain, once. -/
theorem chains_agree_with_m_records (X : Externals) (view_def : ViewDefinition)
    (inputs : List (fds_drec × List Nat)) (s : Aggregator) (hB : 0 < X.BUCKETS_COUNT)
    (h : process_all X (Aggregator.init X view_def) inputs = .ok s) :
    s.chained.Perm s.m_records ∧ s.m_records.Nodup ∧ s.chained.Nodup := by
  have hwf : WF X s := WF_process_all inputs (WF_init X view_def hB) h
  have hnd : s.m_records.Nodup := by
    rw [hwf.records]
    exact List.nodup_range _
  exact ⟨(List.perm_ext_iff_of_nodup (chained_nodup hwf) hnd).mpr (mem_chained hwf), hnd,
    chained_nodup hwf⟩

/-- C9, witness: the table after four records, two of them in one chain. -/
theorem chains_agree_with_m_records_witness :
    Sample.three_entries.chained.Perm Sample.three_entries.m_records ∧
      Sample.three_entries.m_records.Nodup ∧ Sample.three_entries.chained.Nodup :=
  chains_agree_with_m_records Sample.externals Sample.proto_view
    [(Sample.tcp_record, Sample.stack 0), (Sample.udp_record, Sample.stack 0),
      (Sample.esp_record, Sample.stack 0), (Sample.tcp_record, Sample.stack 0)]
    Sample.three_entries (by decide) rfl

/-- C10, the code at the failing input. With the view of C3 (sum of the byte
count, flow count) the record with protocol 50 and no byte count is processed
once and twice from the empty table, each call with the same content of the
stack array. The second processing creates no new entry, but the flow-count
slot of the entry is 0 after the first and still 0 after the second
processing; the increments land in the sum slot, which holds 1 and then 2.
(The claim requires the flow count to increase by one again.) -/
theorem second_pass_misses_flow_count (X : Externals) (key_buffer : List Nat)
    (hB : 0 < X.BUCKETS_COUNT) (hk : key_buffer.length = key_buffer_size) :
    ∃ s1 s2 d1 d2,
      process_all X (Aggregator.init X Sample.proto_view)
        [(Sample.bare_record, key_buffer)] = .ok s1 ∧
      process_all X (Aggregator.init X Sample.proto_view)
        [(Sample.bare_record, key_buffer), (Sample.bare_record, key_buffer)] = .ok s2 ∧
      s1.records_data = [some d1] ∧ s2.records_data = [some d2] ∧
      value_slot Sample.proto_view d1 1 = 0 ∧ value_slot Sample.proto_view d2 1 = 0 ∧
      value_slot Sample.proto_view d1 0 = 1 ∧ value_slot Sample.proto_view d2 0 = 2 := by
  have hb := build_key_one_byte Sample.proto_view Sample.bare_record 50 key_buffer rfl rfl rfl hk
  have hstep1 : table_process X Sample.proto_view [] Sample.bare_record key_buffer =
      .ok [(X.XXH3_64bits (([50] ++ key_buffer.drop 1).take X.sizeof_keys_size),
        [50] ++ le_bytes 8 1 ++ le_bytes 8 0)] := by
    rw [table_process_of_build_key X [] (by decide) hb (by simp)]
    exact table_step_miss (table_find_eq_none (by simp)) (mem_read_key [50] _ _ rfl) rfl
  have hstep2 : table_process X Sample.proto_view
      [(X.XXH3_64bits (([50] ++ key_buffer.drop 1).take X.sizeof_keys_size),
        [50] ++ le_bytes 8 1 ++ le_bytes 8 0)] Sample.bare_record key_buffer =
      .ok [(X.XXH3_64bits (([50] ++ key_buffer.drop 1).take X.sizeof_keys_size),
        [50] ++ le_bytes 8 2 ++ le_bytes 8 0)] := by
    rw [table_process_of_build_key X _ (by decide) hb (by simp)]
    have hm : memcmp_eq ([50] ++ le_bytes 8 1 ++ le_bytes 8 0)
        ([50] ++ key_buffer.drop 1) Sample.proto_view.keys_size = true :=
      (memcmp_eq_key _ [50] _ _ rfl).mpr rfl
    have hfold : aggregate_values Sample.proto_view.value_fields Sample.bare_record
        ([50] ++ le_bytes 8 1 ++ le_bytes 8 0) Sample.proto_view.keys_size =
        .ok ([50] ++ le_bytes 8 2 ++ le_bytes 8 0, 9) := rfl
    generalize X.XXH3_64bits (([50] ++ key_buffer.drop 1).take X.sizeof_keys_size) = h
    have hget : [(h, [50] ++ le_bytes 8 1 ++ le_bytes 8 0)][0]? =
        some (h, [50] ++ le_bytes 8 1 ++ le_bytes 8 0) := rfl
    exact table_step_hit (p := 0)
      (table_find_eq_some hget ⟨rfl, hm⟩ (fun q _ hq _ => absurd hq (Nat.not_lt_zero q)))
      hget hfold
  have hall1 : table_all X Sample.proto_view [] [(Sample.bare_record, key_buffer)] =
      .ok [(X.XXH3_64bits (([50] ++ key_buffer.drop 1).take X.sizeof_keys_size),
        [50] ++ le_bytes 8 1 ++ le_bytes 8 0)] := by
    simp only [table_all, hstep1]
  have hall2 : table_all X Sample.proto_view []
      [(Sample.bare_record, key_buffer), (Sample.bare_record, key_buffer)] =
      .ok [(X.XXH3_64bits (([50] ++ key_buffer.drop 1).take X.sizeof_keys_size),
        [50] ++ le_bytes 8 2 ++ le_bytes 8 0)] := by
    simp only [table_all, hstep1, hstep2]
  obtain ⟨s1, hs1, hwf1, he1⟩ := process_all_entries hB hall1
  obtain ⟨s2, hs2, hwf2, he2⟩ := process_all_entries hB hall2
  refine ⟨s1, s2, [50] ++ le_bytes 8 1 ++ le_bytes 8 0, [50] ++ le_bytes 8 2 ++ le_bytes 8 0,
    hs1, hs2, ?_, ?_, by decide, by decide, by decide, by decide⟩
  · rw [records_data_eq hwf1, he1]
    rfl
  · rw [records_data_eq hwf2, he2]
    rfl

/-- C10, witness of the evaluation: the sample externals and a stack array of
sevens. -/
theorem second_pass_misses_flow_count_witness :
    ∃ s1 s2 d1 d2,
      process_all Sample.externals (Aggregator.init Sample.externals Sample.proto_view)
        [(Sample.bare_record, Sample.stack 7)] = .ok s1 ∧
      process_all Sample.externals (Aggregator.init Sample.externals Sample.proto_view)
        [(Sample.bare_record, Sample.stack 7), (Sample.bare_record, Sample.stack 7)] =
          .ok s2 ∧
      s1.records_data = [some d1] ∧ s2.records_data = [some d2] ∧
      value_slot Sample.proto_view d1 1 = 0 ∧ value_slot Sample.proto_view d2 1 = 0 ∧
      value_slot Sample.proto_view d1 0 = 1 ∧ value_slot Sample.proto_view d2 0 = 2 :=
  second_pass_misses_flow_count Sample.externals (Sample.stack 7) (by decide) rfl

/-- C11, the code at the failing input. With the view of C1 (one-byte key
protocol identifier, flow count) the sequence of two records with protocol 6
is processed twice from the empty table. In the first run both calls find the
stack array `k1`; in the second run the second call finds `k2`. Whenever the
hash of the hashed span of the key buffer differs between `k1` and `k2`, the
first run leaves one entry (key 6, count 2) and the second run two entries
(key 6, count 1 each): the `m_records` sequences of the two runs differ in
length. (The claim requires equal length and pairwise equal entries.) -/
theorem runs_differ_with_stack_content (X : Externals) (k1 k2 : List Nat)
    (hB : 0 < X.BUCKETS_COUNT) (hk1 : k1.length = key_buffer_size)
    (hk2 : k2.length = key_buffer_size)
    (hh : X.XXH3_64bits (([6] ++ k1.drop 1).take X.sizeof_keys_size) ≠
      X.XXH3_64bits (([6] ++ k2.drop 1).take X.sizeof_keys_size)) :
    ∃ s s',
      process_all X (Aggregator.init X Sample.count_view)
        [(Sample.tcp_record, k1), (Sample.tcp_record, k1)] = .ok s ∧
      process_all X (Aggregator.init X Sample.count_view)
        [(Sample.tcp_record, k1), (Sample.tcp_record, k2)] = .ok s' ∧
      s.records_data = [some ([6] ++ le_bytes 8 2)] ∧
      s'.records_data = [some ([6] ++ le_bytes 8 1), some ([6] ++ le_bytes 8 1)] ∧
      s.m_records.length = 1 ∧ s'.m_records.length = 2 := by
  have hall : table_all X Sample.count_view []
      [(Sample.tcp_record, k1), (Sample.tcp_record, k1)] =
      .ok [(X.XXH3_64bits (([6] ++ k1.drop 1).take X.sizeof_keys_size),
        [6] ++ le_bytes 8 2)] := by
    simp only [table_all, count_view_first X k1 hk1, count_view_same_stack X k1 hk1]
  have hall' : table_all X Sample.count_view []
      [(Sample.tcp_record, k1), (Sample.tcp_record, k2)] =
      .ok [(X.XXH3_64bits (([6] ++ k1.drop 1).take X.sizeof_keys_size), [6] ++ le_bytes 8 1),
        (X.XXH3_64bits (([6] ++ k2.drop 1).take X.sizeof_keys_size),
          [6] ++ le_bytes 8 1)] := by
    simp only [table_all, count_view_first X k1 hk1, count_view_other_stack X k1 k2 hk2 hh]
  obtain ⟨s, hs, hwf, he⟩ := process_all_entries hB hall
  obtain ⟨s', hs', hwf', he'⟩ := process_all_entries hB hall'
  have hr : s.records_data = [some ([6] ++ le_bytes 8 2)] := by
    rw [records_data_eq hwf, he]
    rfl
  have hr' : s'.records_data = [some ([6] ++ le_bytes 8 1), some ([6] ++ le_bytes 8 1)] := by
    rw [records_data_eq hwf', he']
    rfl
  refine ⟨s, s', hs, hs', hr, hr', ?_, ?_⟩
  · have h := congrArg List.length hr
    simpa [Aggregator.records_data] using h
  · have h := congrArg List.length hr'
    simpa [Aggregator.records_data] using h

/-- C11, witness of the evaluation: the sample externals, stack arrays of
sevens and of nines. -/
theorem runs_differ_with_stack_content_witness :
    ∃ s s',
      process_all Sample.externals (Aggregator.init Sample.externals Sample.count_view)
        [(Sample.tcp_record, Sample.stack 7), (Sample.tcp_record, Sample.stack 7)] = .ok s ∧
      process_all Sample.externals (Aggregator.init Sample.externals Sample.count_view)
        [(Sample.tcp_record, Sample.stack 7), (Sample.tcp_record, Sample.stack 9)] = .ok s' ∧
      s.records_data = [some ([6] ++ le_bytes 8 2)] ∧
      s'.records_data = [some ([6] ++ le_bytes 8 1), some ([6] ++ le_bytes 8 1)] ∧
      s.m_records.length = 1 ∧ s'.m_records.length = 2 :=
  runs_differ_with_stack_content Sample.externals (Sample.stack 7) (Sample.stack 9)
    (by decide) rfl rfl (by decide)

/-- C12. Allocation failure is atomic. Take a table reached from the empty
table and a record whose key builds and for which no entry passes the test of
line 187 (in particular a record with a new key), and let `calloc` fail. Then
`process_record` signals `std::bad_alloc`, and the members of the object at
the `throw` are the members at the call: the bucket array and every chain
link, `m_records`, and the hash, key and value bytes of every entry are as
they were. `keys_size` is within the bound that `process_record` asserts. -/
theorem allocation_failure_is_atomic (X : Externals) (view_def : ViewDefinition)
    (inputs : List (fds_drec × List Nat)) (s : Aggregator) (drec : fds_drec)
    (key_buffer : List Nat) (kr : KeyResult) (hB : 0 < X.BUCKETS_COUNT)
    (hs : process_all X (Aggregator.init X view_def) inputs = .ok s)
    (hks : view_def.keys_size ≤ key_buffer_size)
    (hb : build_key view_def drec key_buffer = .ok kr) (hrc : kr.rc = 1)
    (hnew : ∀ e ∈ s.entries,
      ¬ (e.1 = X.XXH3_64bits (kr.key_buffer.take X.sizeof_keys_size) ∧
        e.2.take view_def.keys_size = kr.key_buffer.take view_def.keys_size)) :
    process_record_outcome X s drec key_buffer false = .thrown .bad_alloc s ∧
      process_record X s drec key_buffer false = .error .bad_alloc := by
  have hwf : WF X s := WF_process_all inputs (WF_init X view_def hB) hs
  have hvd : s.m_view_def = view_def := process_all_view_def inputs hs
  subst hvd
  have hfind : table_find s.m_view_def.keys_size s.entries
      (X.XXH3_64bits (kr.key_buffer.take X.sizeof_keys_size)) kr.key_buffer = none := by
    apply table_find_eq_none
    intro e he hm
    exact hnew e he ⟨hm.1, (memcmp_eq_iff _ _ _).mp hm.2⟩
  have ho := process_record_outcome_bad_alloc hwf hks hb (by omega) hfind
  refine ⟨ho, ?_⟩
  rw [← process_record_outcome_result, ho]
  rfl

/-- C12, witness: a record with protocol 17 meets the table that holds one
entry for protocol 6, and `calloc` fails. -/
theorem allocation_failure_is_atomic_witness :
    process_record_outcome Sample.externals Sample.one_entry Sample.udp_record
        (Sample.stack 0) false = .thrown .bad_alloc Sample.one_entry ∧
      process_record Sample.externals Sample.one_entry Sample.udp_record (Sample.stack 0)
        false = .error .bad_alloc :=
  allocation_failure_is_atomic Sample.externals Sample.proto_view
    [(Sample.tcp_record, Sample.stack 0)] Sample.one_entry Sample.udp_record (Sample.stack 0)
    ⟨1, [17] ++ List.replicate 1023 0, 1⟩ (by decide) rfl (by decide) rfl rfl (by decide)

/-- C13, the code at the failing input. For a `SumAggregate` field whose
element is absent from the record, `aggregate_value` returns with the bytes
of the entry unchanged and with the cursor where it was on entry: the cursor
is not advanced by the 8 bytes of the field. (The claim requires the cursor
8 bytes past its position on entry, also on a miss.) -/
theorem aggregate_value_absent_keeps_cursor (aggregate_field : ViewField) (drec : fds_drec)
    (data : List Nat) (value : Nat) (hk : aggregate_field.kind = .SumAggregate)
    (hf : fds_drec_find drec aggregate_field.pen aggregate_field.id = none) :
    aggregate_value aggregate_field drec data value = .ok (data, value) := by
  unfold aggregate_value
  simp only [hk, hf]

/-- C13, witness of the evaluation: the `Unsigned64` sum of the byte count on
a record with protocol 50 and no byte count, with the cursor at offset 1 of a
17-byte entry. -/
theorem aggregate_value_absent_keeps_cursor_witness :
    aggregate_value ⟨.SumAggregate, 0, IPFIX.octetDeltaCount, .Unsigned64⟩ Sample.bare_record
      ([50] ++ List.replicate 16 0) 1 = .ok ([50] ++ List.replicate 16 0, 1) :=
  aggregate_value_absent_keeps_cursor ⟨.SumAggregate, 0, IPFIX.octetDeltaCount, .Unsigned64⟩
    Sample.bare_record ([50] ++ List.replicate 16 0) 1 rfl rfl

/-- C14, the code at the failing input. With the view of C1 (`keys_size` = 1)
one record with protocol 6 is processed from the empty table, once with the
stack array `k1` and once with `k2`. Both key buffers agree on their first
`keys_size` bytes, the key byte 6. The hash stored in the entry is the hash of
the first `sizeof(keys_size)` bytes of the key buffer, the key byte followed
by the bytes 1, 2, ... of the stack array, so the two stored hashes differ
whenever the hash function separates the two spans. (The claim requires the
hash of exactly the first `keys_size` bytes, equal for key buffers that agree
on them.) -/
theorem stored_hash_covers_stack_bytes (X : Externals) (k1 k2 : List Nat)
    (hB : 0 < X.BUCKETS_COUNT) (hk1 : k1.length = key_buffer_size)
    (hk2 : k2.length = key_buffer_size)
    (hh : X.XXH3_64bits (([6] ++ k1.drop 1).take X.sizeof_keys_size) ≠
      X.XXH3_64bits (([6] ++ k2.drop 1).take X.sizeof_keys_size)) :
    ∃ kr1 kr2 s1 s2 h1 h2 d1 d2,
      build_key Sample.count_view Sample.tcp_record k1 = .ok kr1 ∧
      build_key Sample.count_view Sample.tcp_record k2 = .ok kr2 ∧
      kr1.key_buffer.take Sample.count_view.keys_size =
        kr2.key_buffer.take Sample.count_view.keys_size ∧
      process_all X (Aggregator.init X Sample.count_view) [(Sample.tcp_record, k1)] = .ok s1 ∧
      process_all X (Aggregator.init X Sample.count_view) [(Sample.tcp_record, k2)] = .ok s2 ∧
      s1.entries = [(h1, d1)] ∧ s2.entries = [(h2, d2)] ∧
      h1 = X.XXH3_64bits (kr1.key_buffer.take X.sizeof_keys_size) ∧
      h2 = X.XXH3_64bits (kr2.key_buffer.take X.sizeof_keys_size) ∧
      h1 ≠ h2 := by
  have hb1 := build_key_one_byte Sample.count_view Sample.tcp_record 6 k1 rfl rfl rfl hk1
  have hb2 := build_key_one_byte Sample.count_view Sample.tcp_record 6 k2 rfl rfl rfl hk2
  have hall1 : table_all X Sample.count_view [] [(Sample.tcp_record, k1)] =
      .ok [(X.XXH3_64bits (([6] ++ k1.drop 1).take X.sizeof_keys_size),
        [6] ++ le_bytes 8 1)] := by
    simp only [table_all, count_view_first X k1 hk1]
  have hall2 : table_all X Sample.count_view [] [(Sample.tcp_record, k2)] =
      .ok [(X.XXH3_64bits (([6] ++ k2.drop 1).take X.sizeof_keys_size),
        [6] ++ le_bytes 8 1)] := by
    simp only [table_all, count_view_first X k2 hk2]
  obtain ⟨s1, hs1, _, he1⟩ := process_all_entries hB hall1
  obtain ⟨s2, hs2, _, he2⟩ := process_all_entries hB hall2
  exact ⟨_, _, s1, s2, _, _, _, _, hb1, hb2, rfl, hs1, hs2, he1, he2, rfl, rfl, hh⟩

/-- C14, witness of the evaluation: the sample externals, stack arrays of
sevens and of nines. -/
theorem stored_hash_covers_stack_bytes_witness :
    ∃ kr1 kr2 s1 s2 h1 h2 d1 d2,
      build_key Sample.count_view Sample.tcp_record (Sample.stack 7) = .ok kr1 ∧
      build_key Sample.count_view Sample.tcp_record (Sample.stack 9) = .ok kr2 ∧
      kr1.key_buffer.take Sample.count_view.keys_size =
        kr2.key_buffer.take Sample.count_view.keys_size ∧
      process_all Sample.externals (Aggregator.init Sample.externals Sample.count_view)
        [(Sample.tcp_record, Sample.stack 7)] = .ok s1 ∧
      process_all Sample.externals (Aggregator.init Sample.externals Sample.count_view)
        [(Sample.tcp_record, Sample.stack 9)] = .ok s2 ∧
      s1.entries = [(h1, d1)] ∧ s2.entries = [(h2, d2)] ∧
      h1 = Sample.externals.XXH3_64bits
        (kr1.key_buffer.take Sample.externals.sizeof_keys_size) ∧
      h2 = Sample.externals.XXH3_64bits
        (kr2.key_buffer.take Sample.externals.sizeof_keys_size) ∧
      h1 ≠ h2 :=
  stored_hash_covers_stack_bytes Sample.externals (Sample.stack 7) (Sample.stack 9)
    (by decide) rfl rfl (by decide)

/-- C15. Complete key on success. For every view definition whose `keys_size`
equals the sum of the slot widths of its key fields and every record and key
buffer for which `build_key` returns 1, the cursor ends exactly `keys_size`
bytes past the start of the buffer, and there are `keys_size` key bytes,
written by `build_key`, such that for every buffer with room for them
`build_key` returns 1 with these bytes in front of the untouched rest of the
buffer: the first `keys_size` bytes are determined by the view definition and
the record and do not depend on what the buffer held before. -/
theorem build_key_complete (view_def : ViewDefinition) (drec : fds_drec)
    (key_buffer : List Nat) (kr : KeyResult)
    (hsize : view_def.keys_size = keys_width view_def.key_fields)
    (hb : build_key view_def drec key_buffer = .ok kr) (hrc : kr.rc = 1) :
    kr.key_value = view_def.keys_size ∧
    ∃ key, key.length = view_def.keys_size ∧
      kr.key_buffer = key ++ key_buffer.drop view_def.keys_size ∧
      kr.key_buffer.take view_def.keys_size = key ∧
      ∀ other : List Nat, view_def.keys_size ≤ other.length →
        build_key view_def drec other =
          .ok ⟨1, key ++ other.drop view_def.keys_size, view_def.keys_size⟩ := by
  unfold build_key at hb
  obtain ⟨key, hl, hc, hroom, hall⟩ := build_key_loop_written drec _ _ _ _ (Nat.zero_le _) hb hrc
  rw [← hsize] at hl hc hroom hall
  have hall' : ∀ other : List Nat, view_def.keys_size ≤ other.length →
      build_key view_def drec other =
        .ok ⟨1, key ++ other.drop view_def.keys_size, view_def.keys_size⟩ := by
    intro other ho
    have h := hall other 0 (by omega)
    simp only [List.take_zero, List.nil_append, Nat.zero_add] at h
    exact h
  have hkr : kr = ⟨1, key ++ key_buffer.drop view_def.keys_size, view_def.keys_size⟩ := by
    have h := hall' key_buffer (by omega)
    unfold build_key at h
    rw [hb] at h
    injection h with h
  refine ⟨by omega, key, hl, ?_, ?_, hall'⟩
  · rw [hkr]
  · rw [hkr]
    exact List.take_left' hl

/-- C15, witness: the view with the protocol identifier and the destination
address as keys (18 key bytes) on a record with both elements. -/
theorem build_key_complete_witness :
    (⟨1, [6, 4, 10, 0, 0, 1, 0, 0, 0, 0, 0, 0, 0, 0, 0, 0, 0, 0] ++ List.replicate 1006 7,
        18⟩ : KeyResult).key_value = Sample.proto_dst_view.keys_size ∧
    ∃ key, key.length = Sample.proto_dst_view.keys_size ∧
      (⟨1, [6, 4, 10, 0, 0, 1, 0, 0, 0, 0, 0, 0, 0, 0, 0, 0, 0, 0] ++ List.replicate 1006 7,
        18⟩ : KeyResult).key_buffer =
          key ++ (Sample.stack 7).drop Sample.proto_dst_view.keys_size ∧
      (⟨1, [6, 4, 10, 0, 0, 1, 0, 0, 0, 0, 0, 0, 0, 0, 0, 0, 0, 0] ++ List.replicate 1006 7,
        18⟩ : KeyResult).key_buffer.take Sample.proto_dst_view.keys_size = key ∧
      ∀ other : List Nat, Sample.proto_dst_view.keys_size ≤ other.length →
        build_key Sample.proto_dst_view Sample.proto_flow other =
          .ok ⟨1, key ++ other.drop Sample.proto_dst_view.keys_size,
            Sample.proto_dst_view.keys_size⟩ :=
  build_key_complete Sample.proto_dst_view Sample.proto_flow (Sample.stack 7)
    ⟨1, [6, 4, 10, 0, 0, 1, 0, 0, 0, 0, 0, 0, 0, 0, 0, 0, 0, 0] ++ List.replicate 1006 7, 18⟩
    rfl rfl rfl

/-- C16. Address keys prefer IPv4 and are normalized. For a
`SourceIPAddressKey` (resp. `DestinationIPAddressKey`) field and a key buffer
with room for the slot at the cursor: if the record contains the source
(resp. destination) IPv4 address element, with its 4 bytes, `build_key`
writes at the cursor the `IPAddress` with length 4 whose first 4 address
bytes are the bytes of the element and whose other 12 address bytes are zero,
whether or not the IPv6 element is present; if the IPv4 element is absent and
the IPv6 element is present, with its 16 bytes, it writes the `IPAddress`
with length 16 and these 16 address bytes. In both cases the bytes outside
the slot are kept and the cursor advances by `sizeof(IPAddress)`. -/
theorem address_key_prefers_ipv4 (view_field : ViewField) (drec : fds_drec)
    (key_buffer : List Nat) (key_value ipv4 ipv6 : Nat)
    (hk : (view_field.kind = .SourceIPAddressKey ∧ ipv4 = IPFIX.sourceIPv4Address ∧
        ipv6 = IPFIX.sourceIPv6Address) ∨
      (view_field.kind = .DestinationIPAddressKey ∧ ipv4 = IPFIX.destinationIPv4Address ∧
        ipv6 = IPFIX.destinationIPv6Address))
    (hbuf : key_value + sizeof_IPAddress ≤ key_buffer.length) :
    (∀ drec_field, fds_drec_find drec IPFIX.iana ipv4 = some drec_field →
      4 ≤ drec_field.data.length →
      build_key_field view_field drec key_buffer key_value =
        .ok (some (key_buffer.take key_value ++
          IPAddress.bytes ⟨4, drec_field.data.take 4 ++ List.replicate 12 0⟩ ++
          key_buffer.drop (key_value + sizeof_IPAddress), key_value + sizeof_IPAddress))) ∧
    (∀ drec_field, fds_drec_find drec IPFIX.iana ipv4 = none →
      fds_drec_find drec IPFIX.iana ipv6 = some drec_field →
      16 ≤ drec_field.data.length →
      build_key_field view_field drec key_buffer key_value =
        .ok (some (key_buffer.take key_value ++
          IPAddress.bytes ⟨16, drec_field.data.take 16⟩ ++
          key_buffer.drop (key_value + sizeof_IPAddress), key_value + sizeof_IPAddress))) := by
  have h4 : ∀ d : List Nat, 4 ≤ d.length →
      mem_write key_buffer key_value (IPAddress.bytes ⟨4, d.take 4 ++ List.replicate 12 0⟩) =
        .ok (key_buffer.take key_value ++
          IPAddress.bytes ⟨4, d.take 4 ++ List.replicate 12 0⟩ ++
          key_buffer.drop (key_value + sizeof_IPAddress)) := by
    intro d hd
    have hl : (IPAddress.bytes ⟨4, d.take 4 ++ List.replicate 12 0⟩).length =
        sizeof_IPAddress := by
      simp only [IPAddress.bytes, List.length_cons, List.length_append, List.length_take,
        List.length_replicate, sizeof_IPAddress]
      omega
    unfold mem_write
    rw [hl, if_pos hbuf]
  have h6 : ∀ d : List Nat, 16 ≤ d.length →
      mem_write key_buffer key_value (IPAddress.bytes ⟨16, d.take 16⟩) =
        .ok (key_buffer.take key_value ++ IPAddress.bytes ⟨16, d.take 16⟩ ++
          key_buffer.drop (key_value + sizeof_IPAddress)) := by
    intro d hd
    have hl : (IPAddress.bytes ⟨16, d.take 16⟩).length = sizeof_IPAddress := by
      simp only [IPAddress.bytes, List.length_cons, List.length_take, sizeof_IPAddress]
      omega
    unfold mem_write
    rw [hl, if_pos hbuf]
  have hr4 : ∀ d : List Nat, 4 ≤ d.length → mem_read d 0 4 = .ok (d.take 4) := by
    intro d hd
    unfold mem_read
    rw [if_pos (by omega)]
    rfl
  have hr6 : ∀ d : List Nat, 16 ≤ d.length → mem_read d 0 16 = .ok (d.take 16) := by
    intro d hd
    unfold mem_read
    rw [if_pos (by omega)]
    rfl
  constructor
  · intro fld hf hlen
    rcases hk with ⟨hk, h1, _⟩ | ⟨hk, h1, _⟩ <;> subst h1 <;>
      simp only [build_key_field, hk, address_key, hf, make_ipv4_address, hr4 _ hlen,
        Except.map, h4 _ hlen]
  · intro fld hn hf hlen
    rcases hk with ⟨hk, h1, h2⟩ | ⟨hk, h1, h2⟩ <;> subst h1 <;> subst h2 <;>
      simp only [build_key_field, hk, address_key, hn, hf, make_ipv6_address, hr6 _ hlen,
        Except.map, h6 _ hlen]

/-- C16, witness: a destination key on a record that carries both the IPv4
destination `192.0.2.1` and an IPv6 destination: the IPv4 address is
written, with length 4 and 12 zero bytes, into a stack array of sevens. -/
theorem address_key_prefers_ipv4_witness :
    build_key_field ⟨.DestinationIPAddressKey, 0, 0, .Other 0⟩ Sample.dual_stack_record
        (Sample.stack 7) 0 =
      .ok (some ([4, 192, 0, 2, 1, 0, 0, 0, 0, 0, 0, 0, 0, 0, 0, 0, 0] ++
        List.replicate 1007 7, 17)) :=
  (address_key_prefers_ipv4 ⟨.DestinationIPAddressKey, 0, 0, .Other 0⟩
    Sample.dual_stack_record (Sample.stack 7) 0 IPFIX.destinationIPv4Address
    IPFIX.destinationIPv6Address (Or.inr ⟨rfl, rfl, rfl⟩) (by decide)).1
    ⟨[192, 0, 2, 1]⟩ rfl (by decide)

/-- C17. Verbatim key encoding. For a verbatim key whose declared type is one
of Unsigned/Signed 8/16/32/64 (member width `w` = 1, 2, 4, 8), a record that
holds the field with 1 to 8 raw bytes and a buffer with room for `w` bytes at
the cursor, the iteration of `build_key` returns, writes `w` bytes at the
cursor, leaves the rest of the buffer as it was and advances the cursor by
exactly `w`; the bytes written are the big-endian decoded integer of the raw
bytes (zero-extended when unsigned, sign-extended when signed) modulo
`2^(8w)`; and when the raw field is at most `w` bytes long, the member read
back (unsigned, or two's complement at width `w`) is the decoded integer
itself. -/
theorem verbatim_key_encoding (view_field : ViewField) (drec : fds_drec)
    (drec_field : fds_drec_field) (key_buffer : List Nat) (key_value w : Nat)
    (hk : view_field.kind = .VerbatimKey)
    (hw : verbatim_width view_field.data_type = some w)
    (hf : fds_drec_find drec view_field.pen view_field.id = some drec_field)
    (h1 : 1 ≤ drec_field.data.length) (h8 : drec_field.data.length ≤ 8)
    (hroom : key_value + w ≤ key_buffer.length) :
    ∃ bytes : List Nat, bytes.length = w ∧ (∀ b ∈ bytes, b < 256) ∧
      build_key_field view_field drec key_buffer key_value =
        .ok (some (key_buffer.take key_value ++ bytes ++ key_buffer.drop (key_value + w),
          key_value + w)) ∧
      (le_value bytes : Int) =
        spec_decoded (signed_type view_field.data_type) drec_field.data % (2 : Int) ^ (8 * w) ∧
      (drec_field.data.length ≤ w →
        spec_member_value (signed_type view_field.data_type) bytes =
          spec_decoded (signed_type view_field.data_type) drec_field.data) := by
  have hb := verbatim_bytes_spec view_field.data_type drec_field w hw h1 h8
  have hpos : (0 : Int) < (2 : Int) ^ (8 * w) := by positivity
  have hnn := Int.emod_nonneg
    (spec_decoded (signed_type view_field.data_type) drec_field.data) (ne_of_gt hpos)
  have hltm := Int.emod_lt_of_pos
    (spec_decoded (signed_type view_field.data_type) drec_field.data) hpos
  refine ⟨le_bytes w
      (spec_decoded (signed_type view_field.data_type) drec_field.data % (2 : Int) ^ (8 * w)).toNat,
    le_bytes_length w _, le_bytes_lt w _, ?_, ?_, ?_⟩
  · unfold build_key_field
    simp only [hk, hf, hb]
    unfold mem_write
    rw [le_bytes_length, if_pos hroom]
  · rw [le_value_le_bytes]
    push_cast
    rw [Int.toNat_of_nonneg hnn]
    exact Int.emod_emod_of_dvd _ (dvd_refl _)
  · intro hlen
    have hbd := spec_decoded_bounds (signed_type view_field.data_type) drec_field.data h1
    have hwpos := verbatim_width_pos hw
    have hmono : 2 ^ (8 * drec_field.data.length) ≤ 2 ^ (8 * w) :=
      Nat.pow_le_pow_right (by decide) (by omega)
    have hmono2 : 2 ^ (8 * drec_field.data.length - 1) ≤ 2 ^ (8 * w - 1) :=
      Nat.pow_le_pow_right (by decide) (by omega)
    cases hs : signed_type view_field.data_type with
    | false =>
      obtain ⟨h0, hlt⟩ := hbd.1 hs
      rw [hs] at h0 hlt
      have hcast : ((2 : Int) ^ (8 * w)) = ((2 ^ (8 * w) : Nat) : Int) := by push_cast; rfl
      have hlt2 : spec_decoded false drec_field.data < (2 : Int) ^ (8 * w) := by
        rw [hcast]
        have : ((2 ^ (8 * drec_field.data.length) : Nat) : Int) ≤ ((2 ^ (8 * w) : Nat) : Int) := by
          exact_mod_cast hmono
        omega
      rw [Int.emod_eq_of_lt h0 hlt2]
      have hx : (spec_decoded false drec_field.data).toNat < 2 ^ (8 * w) := by
        have : (((spec_decoded false drec_field.data).toNat : Nat) : Int) <
            ((2 ^ (8 * w) : Nat) : Int) := by
          rw [Int.toNat_of_nonneg h0, ← hcast]; exact hlt2
        exact_mod_cast this
      rw [unsigned_exact w _ hx, Int.toNat_of_nonneg h0]
    | true =>
      obtain ⟨hlo, hhi⟩ := hbd.2 hs
      rw [hs] at hlo hhi
      have hm2 : ((2 ^ (8 * drec_field.data.length - 1) : Nat) : Int) ≤
          ((2 ^ (8 * w - 1) : Nat) : Int) := by exact_mod_cast hmono2
      exact signed_exact w hwpos _ (by omega) (by omega)

/-- C17, witness: a `Signed16` key on a one-byte field `0xFE` (the integer
-2), written at offset 3 of the key buffer. -/
theorem verbatim_key_encoding_witness :
    ∃ bytes : List Nat, bytes.length = 2 ∧ (∀ b ∈ bytes, b < 256) ∧
      build_key_field Sample.signed_key Sample.negative_record (Sample.stack 7) 3 =
        .ok (some ((Sample.stack 7).take 3 ++ bytes ++ (Sample.stack 7).drop (3 + 2),
          3 + 2)) ∧
      (le_value bytes : Int) =
        spec_decoded (signed_type Sample.signed_key.data_type)
          (⟨[254]⟩ : fds_drec_field).data % (2 : Int) ^ (8 * 2) ∧
      ((⟨[254]⟩ : fds_drec_field).data.length ≤ 2 →
        spec_member_value (signed_type Sample.signed_key.data_type) bytes =
          spec_decoded (signed_type Sample.signed_key.data_type)
            (⟨[254]⟩ : fds_drec_field).data) :=
  verbatim_key_encoding Sample.signed_key Sample.negative_record ⟨[254]⟩ (Sample.stack 7) 3 2
    rfl rfl rfl (by decide) (by decide) (by decide)

/-- C18. New entries are created zeroed and appended at the tail of their
chain. Take a table reached from the empty table, a record whose key builds
and for which no entry passes the test of line 187, and let `calloc` succeed.
Then the walk of lines 182 to 192 ends at a null slot `arec`, and lines 195
to 202 create the entry at the fresh address `s.heap.length`: before the fold
of lines 205 to 208 it has the computed hash, the first `keys_size` bytes of
the key buffer followed by `values_size` zero bytes, and a null `next`; it is
appended to `m_records`; the chain of bucket `hash mod BUCKETS_COUNT` is the
chain as it was followed by the new entry; and every entry that was in that
chain keeps its hash and data bytes. `process_record` is the fold on this
state, and whenever it returns, the chain is still the old chain followed by
the new entry, the new entry still has a null `next`, the computed hash and
the key bytes, and the entries that were in the chain still have their hash
and data bytes. -/
theorem new_entry_zeroed_at_chain_tail (X : Externals) (view_def : ViewDefinition)
    (inputs : List (fds_drec × List Nat)) (s : Aggregator) (drec : fds_drec)
    (key_buffer : List Nat) (kr : KeyResult) (hB : 0 < X.BUCKETS_COUNT)
    (hs : process_all X (Aggregator.init X view_def) inputs = .ok s)
    (hks : view_def.keys_size ≤ key_buffer_size)
    (hkb : key_buffer.length = key_buffer_size)
    (hb : build_key view_def drec key_buffer = .ok kr) (hrc : kr.rc = 1)
    (hnew : ∀ e ∈ s.entries,
      ¬ (e.1 = X.XXH3_64bits (kr.key_buffer.take X.sizeof_keys_size) ∧
        e.2.take view_def.keys_size = kr.key_buffer.take view_def.keys_size)) :
    ∃ (arec : Slot) (mid : Aggregator),
      find_slot s (X.XXH3_64bits (kr.key_buffer.take X.sizeof_keys_size)) kr.key_buffer
        (s.heap.length + 1)
        (.bucket (X.XXH3_64bits (kr.key_buffer.take X.sizeof_keys_size) % X.BUCKETS_COUNT)) =
          .ok arec ∧
      s.load arec = .ok none ∧
      mid = link_entry s arec (X.XXH3_64bits (kr.key_buffer.take X.sizeof_keys_size))
        (kr.key_buffer.take view_def.keys_size) ∧
      process_record X s drec key_buffer true = fold_entry mid s.heap.length drec ∧
      mid.heap[s.heap.length]? =
        some ⟨none, X.XXH3_64bits (kr.key_buffer.take X.sizeof_keys_size),
          kr.key_buffer.take view_def.keys_size ++ List.replicate view_def.values_size 0⟩ ∧
      (kr.key_buffer.take view_def.keys_size).length = view_def.keys_size ∧
      mid.m_records = s.m_records ++ [s.heap.length] ∧
      mid.chain (X.XXH3_64bits (kr.key_buffer.take X.sizeof_keys_size) % X.BUCKETS_COUNT) =
        s.chain (X.XXH3_64bits (kr.key_buffer.take X.sizeof_keys_size) % X.BUCKETS_COUNT) ++
          [s.heap.length] ∧
      (∀ q ∈ s.chain (X.XXH3_64bits (kr.key_buffer.take X.sizeof_keys_size) % X.BUCKETS_COUNT),
        ∃ r r', s.heap[q]? = some r ∧ mid.heap[q]? = some r' ∧
          r'.hash = r.hash ∧ r'.data = r.data) ∧
      ∀ s', process_record X s drec key_buffer true = .ok s' →
        s'.chain (X.XXH3_64bits (kr.key_buffer.take X.sizeof_keys_size) % X.BUCKETS_COUNT) =
          s.chain (X.XXH3_64bits (kr.key_buffer.take X.sizeof_keys_size) % X.BUCKETS_COUNT) ++
            [s.heap.length] ∧
        (∃ r, s'.heap[s.heap.length]? = some r ∧ r.next = none ∧
          r.hash = X.XXH3_64bits (kr.key_buffer.take X.sizeof_keys_size) ∧
          r.data.take view_def.keys_size = kr.key_buffer.take view_def.keys_size) ∧
        ∀ q ∈ s.chain
            (X.XXH3_64bits (kr.key_buffer.take X.sizeof_keys_size) % X.BUCKETS_COUNT),
          ∃ r r', s.heap[q]? = some r ∧ s'.heap[q]? = some r' ∧
            r'.hash = r.hash ∧ r'.data = r.data := by
  have hwf : WF X s := WF_process_all inputs (WF_init X view_def hB) hs
  have hvd : s.m_view_def = view_def := process_all_view_def inputs hs
  subst hvd
  generalize hh : X.XXH3_64bits (kr.key_buffer.take X.sizeof_keys_size) = hash at hnew ⊢
  have hi : hash % X.BUCKETS_COUNT < X.BUCKETS_COUNT := Nat.mod_lt _ hwf.buckets_pos
  have hkl : s.m_view_def.keys_size ≤ kr.key_buffer.length := by
    rw [build_key_length hb, hkb]
    exact hks
  have hkey : (kr.key_buffer.take s.m_view_def.keys_size).length = s.m_view_def.keys_size := by
    rw [List.length_take]
    omega
  have hfind : table_find s.m_view_def.keys_size s.entries hash kr.key_buffer = none := by
    apply table_find_eq_none
    intro e he hm
    exact hnew e he ⟨hm.1, (memcmp_eq_iff _ _ _).mp hm.2⟩
  have hlook : lookup s hash kr.key_buffer = none := by
    rw [lookup_eq_table_find hwf, hfind]
  obtain ⟨arec, h1, h2, h3⟩ := find_slot_WF hwf hash kr.key_buffer
  rw [hlook] at h2
  have harec := h3 hlook
  subst harec
  have hpr : process_record X s drec key_buffer true =
      fold_entry (link_entry s (tail_slot X s hash) hash
        (kr.key_buffer.take s.m_view_def.keys_size)) s.heap.length drec := by
    rw [process_record_eq true hwf hks hb (by omega), hh, hlook]
    simp only [Bool.true_eq_false, if_false, mem_read_front _ _ hkl]
  have hwf3 : WF X (link_entry s (tail_slot X s hash) hash
      (kr.key_buffer.take s.m_view_def.keys_size)) := WF_link_entry hwf hash _ hkey
  obtain ⟨f1, f2, f3, f4, f5, _⟩ := link_entry_facts s (tail_slot X s hash) hash
    (kr.key_buffer.take s.m_view_def.keys_size) (fun q hq => tail_slot_valid hq)
  have hchain := link_entry_chain hwf hash _ hkey
  have hold : ∀ q ∈ s.chain (hash % X.BUCKETS_COUNT), q < s.heap.length := by
    intro q hq
    rw [chain_eq_members hwf hi] at hq
    obtain ⟨r, hr, _⟩ := mem_bucket_members.mp hq
    exact lt_of_getElem?_some hr
  refine ⟨tail_slot X s hash, _, h1, h2, rfl, hpr, f4, hkey, f2, hchain, ?_, ?_⟩
  · intro q hq
    obtain ⟨r, r3, g1, g2, g3, g4, _⟩ := f5 q (hold q hq)
    exact ⟨r, r3, g1, g2, g3, g4⟩
  · intro s' hs'
    rw [hpr] at hs'
    have hwf' : WF X s' := WF_fold_entry hwf3 hs'
    obtain ⟨_, _, _, e4, e5⟩ := fold_entry_frame hs'
    rw [f1] at e5
    obtain ⟨rn, n1, n2, n3, n4, _⟩ := e5 _ _ f4
    refine ⟨?_, ⟨rn, n1, n2, n3, ?_⟩, ?_⟩
    · rw [chain_eq_members hwf' hi, chain_eq_members hwf hi,
        bucket_members_append X.BUCKETS_COUNT s.heap _ rn (by rw [e4, f3]) n1 ?_
          (hash % X.BUCKETS_COUNT)]
      · simp [n3]
      · intro p hp
        obtain ⟨r, r3, g1, g2, g3, _⟩ := f5 p hp
        obtain ⟨r4, k1, _, k3, _⟩ := e5 _ _ g2
        rw [g1, k1]
        simp [k3, g3]
    · rw [n4]
      exact List.take_left' hkey
    · intro q hq
      obtain ⟨r, r3, g1, g2, g3, g4, _⟩ := f5 q (hold q hq)
      obtain ⟨r4, k1, _, k3, _, k5⟩ := e5 _ _ g2
      exact ⟨r, r4, g1, k1, k3.trans g3, (k5 (by have := hold q hq; omega)).trans g4⟩

/-- C18, witness: a record with protocol 50 meets the table that holds one
entry for protocol 6; both hashes select bucket 2. -/
theorem new_entry_zeroed_at_chain_tail_witness :
    ∃ (arec : Slot) (mid : Aggregator),
      find_slot Sample.one_entry (Sample.externals.XXH3_64bits
          (Sample.esp_key.key_buffer.take Sample.externals.sizeof_keys_size)) Sample.esp_key.key_buffer
        (Sample.one_entry.heap.length + 1)
        (.bucket ((Sample.externals.XXH3_64bits
          (Sample.esp_key.key_buffer.take Sample.externals.sizeof_keys_size)) % Sample.externals.BUCKETS_COUNT)) = .ok arec ∧
      Sample.one_entry.load arec = .ok none ∧
      mid = link_entry Sample.one_entry arec (Sample.externals.XXH3_64bits
          (Sample.esp_key.key_buffer.take Sample.externals.sizeof_keys_size))
        (Sample.esp_key.key_buffer.take Sample.proto_view.keys_size) ∧
      process_record Sample.externals Sample.one_entry Sample.esp_record (Sample.stack 0) true =
        fold_entry mid Sample.one_entry.heap.length Sample.esp_record ∧
      mid.heap[Sample.one_entry.heap.length]? =
        some ⟨none, (Sample.externals.XXH3_64bits
          (Sample.esp_key.key_buffer.take Sample.externals.sizeof_keys_size)),
          Sample.esp_key.key_buffer.take Sample.proto_view.keys_size ++
            List.replicate Sample.proto_view.values_size 0⟩ ∧
      (Sample.esp_key.key_buffer.take Sample.proto_view.keys_size).length =
        Sample.proto_view.keys_size ∧
      mid.m_records = Sample.one_entry.m_records ++ [Sample.one_entry.heap.length] ∧
      mid.chain ((Sample.externals.XXH3_64bits
          (Sample.esp_key.key_buffer.take Sample.externals.sizeof_keys_size)) % Sample.externals.BUCKETS_COUNT) =
        Sample.one_entry.chain ((Sample.externals.XXH3_64bits
          (Sample.esp_key.key_buffer.take Sample.externals.sizeof_keys_size)) % Sample.externals.BUCKETS_COUNT) ++ [Sample.one_entry.heap.length] ∧
      (∀ q ∈ Sample.one_entry.chain ((Sample.externals.XXH3_64bits
          (Sample.esp_key.key_buffer.take Sample.externals.sizeof_keys_size)) % Sample.externals.BUCKETS_COUNT),
        ∃ r r', Sample.one_entry.heap[q]? = some r ∧ mid.heap[q]? = some r' ∧
          r'.hash = r.hash ∧ r'.data = r.data) ∧
      ∀ s', process_record Sample.externals Sample.one_entry Sample.esp_record
          (Sample.stack 0) true = .ok s' →
        s'.chain ((Sample.externals.XXH3_64bits
          (Sample.esp_key.key_buffer.take Sample.externals.sizeof_keys_size)) % Sample.externals.BUCKETS_COUNT) =
          Sample.one_entry.chain ((Sample.externals.XXH3_64bits
          (Sample.esp_key.key_buffer.take Sample.externals.sizeof_keys_size)) % Sample.externals.BUCKETS_COUNT) ++ [Sample.one_entry.heap.length] ∧
        (∃ r, s'.heap[Sample.one_entry.heap.length]? = some r ∧ r.next = none ∧
          r.hash = (Sample.externals.XXH3_64bits
          (Sample.esp_key.key_buffer.take Sample.externals.sizeof_keys_size)) ∧
          r.data.take Sample.proto_view.keys_size =
            Sample.esp_key.key_buffer.take Sample.proto_view.keys_size) ∧
        ∀ q ∈ Sample.one_entry.chain ((Sample.externals.XXH3_64bits
          (Sample.esp_key.key_buffer.take Sample.externals.sizeof_keys_size)) % Sample.externals.BUCKETS_COUNT),
          ∃ r r', Sample.one_entry.heap[q]? = some r ∧ s'.heap[q]? = some r' ∧
            r'.hash = r.hash ∧ r'.data = r.data :=
  new_entry_zeroed_at_chain_tail Sample.externals Sample.proto_view
    [(Sample.tcp_record, Sample.stack 0)] Sample.one_entry Sample.esp_record (Sample.stack 0)
    Sample.esp_key (by decide) rfl (by decide) rfl rfl rfl (by decide)

/-- C19. The value fold stays inside the value region of the entry. For every
view definition with `values_size` = 8 * (number of value fields), every
record and all data bytes of an entry (`keys_size + values_size` bytes), the
cursor at the entry of the `i`-th call of `aggregate_value` (counted from 0)
lies between `keys_size` and `keys_size + 8 * i`, and the 8 bytes at the
cursor end within the data bytes of the entry; the fold of lines 206 to 208
never ends in an access outside the entry. This holds for every value field,
supported or not (an unsupported one stops the fold on its `assert`). And the
entries that `process_record` folds into have this many data bytes: every
record of a table reached from the empty table has `keys_size + values_size`
data bytes. -/
theorem value_fold_in_bounds (view_def : ViewDefinition) (drec : fds_drec) (data : List Nat)
    (hvs : view_def.values_size = 8 * view_def.value_fields.length)
    (hlen : data.length = view_def.keys_size + view_def.values_size) :
    (∀ (i c : Nat),
      (aggregate_cursors view_def.value_fields drec data view_def.keys_size)[i]? = some c →
      view_def.keys_size ≤ c ∧ c ≤ view_def.keys_size + 8 * i ∧
        c + 8 ≤ view_def.keys_size + view_def.values_size) ∧
    aggregate_values view_def.value_fields drec data view_def.keys_size ≠
      .error .out_of_bounds ∧
    (∀ (X : Externals) (inputs : List (fds_drec × List Nat)) (s : Aggregator),
      0 < X.BUCKETS_COUNT →
      process_all X (Aggregator.init X view_def) inputs = .ok s →
      ∀ r ∈ s.heap, r.data.length = view_def.keys_size + view_def.values_size) := by
  have h := aggregate_cursors_bounds drec view_def.value_fields data view_def.keys_size
    (by omega)
  refine ⟨?_, h.2, ?_⟩
  · intro i c hc
    obtain ⟨h1, h2, h3⟩ := h.1 i c hc
    exact ⟨h1, h2, by omega⟩
  · intro X inputs s hB hs r hr
    have hwf : WF X s := WF_process_all inputs (WF_init X view_def hB) hs
    have hvd : s.m_view_def = view_def := process_all_view_def inputs hs
    rw [← hvd]
    exact hwf.data_len r hr

/-- C19, witness: the view with a sum and a flow count, a record without the
sum element and a fresh entry of 17 bytes. -/
theorem value_fold_in_bounds_witness :
    (∀ (i c : Nat),
      (aggregate_cursors Sample.proto_view.value_fields Sample.bare_record
        ([50] ++ List.replicate 16 0) Sample.proto_view.keys_size)[i]? = some c →
      Sample.proto_view.keys_size ≤ c ∧ c ≤ Sample.proto_view.keys_size + 8 * i ∧
        c + 8 ≤ Sample.proto_view.keys_size + Sample.proto_view.values_size) ∧
    aggregate_values Sample.proto_view.value_fields Sample.bare_record
      ([50] ++ List.replicate 16 0) Sample.proto_view.keys_size ≠ .error .out_of_bounds ∧
    (∀ (X : Externals) (inputs : List (fds_drec × List Nat)) (s : Aggregator),
      0 < X.BUCKETS_COUNT →
      process_all X (Aggregator.init X Sample.proto_view) inputs = .ok s →
      ∀ r ∈ s.heap,
        r.data.length = Sample.proto_view.keys_size + Sample.proto_view.values_size) :=
  value_fold_in_bounds Sample.proto_view Sample.bare_record ([50] ++ List.replicate 16 0)
    rfl rfl

end Fdsdump
